import Mathlib

/-!
# aistudio-build-proxy-all: the request rewriter, the ingress handler and the response assembler

A shallow embedding of `src/golang/transformers.go`, `src/golang/proxy.go`, the read pump and
the HTTP authentication of `src/golang/websocket.go`, and the log buffer of
`src/golang/logging.go`.

* A value of Go type `interface{}` produced by `encoding/json` is a `JVal`.  A Go
  `map[string]interface{}` is a `JObj`: the list of its entries.  A Go map has one entry per
  key and no order; its canonical list has strictly increasing keys (`JVal.wf`), which is also
  the order in which `json.Marshal` writes the keys.
* JSON numbers are `float64` in Go; here they are rationals.  The conversion `int(x)` (`goInt`)
  is truncation towards zero for every value in the range of the 64 bit `int`; outside that
  range Go leaves the result to the implementation, and `goInt` gives the least `int`, as the
  amd64 build does.  What is proved about a converted status is proved for numbers in range.
* `encoding/json` itself is not part of the repository: it is a parameter, `JSONCodec`.
* In-place mutation of a nested map is a functional update that stores the new child back
  under the same key.
* `log.Printf` / `log.Println` output on stdout is not modelled, nor are the `addLog` records of
  the rewriter and of the ingress handler; the `addLog` records of the response assembler are.
  The buffer `logBuffer` is a list with the oldest entry first; the calls of `addLog` are
  serialised by its mutex, so a run is a sequence of calls.
* The `http.ResponseWriter` is the list of the calls made on it, in order; what `net/http` then
  does with a call (which status reaches the client, a status code it refuses) is not modelled.
  One run of the `select` loop of the assembler takes one event: a frame from the channel, the
  channel closed, or the context done.  The outcomes of the other collaborators
  (`uuid.NewString`, `globalPool.GetConnection`, `io.ReadAll`, `safeWriteJSON`) are inputs of
  the handler.
* `for ... range m` over a Go map visits the entries in an unspecified order; here it visits
  them in list order.
* The table `pendingRequests` maps a request id to the buffer of its channel, a list with the
  oldest frame first.  A send on a buffered channel succeeds exactly when the buffer holds fewer
  frames than its capacity (a frame handed to a waiting receiver is a frame buffered and
  received at once); the `switch` of `readPump` is run on a frame already unmarshalled.
-/

namespace Proxy

/-! ## JSON values -/

/-- The dynamic type behind `interface{}` after `json.Unmarshal`. -/
inductive JVal where
  | null : JVal
  | bool (b : Bool) : JVal
  | num (q : ℚ) : JVal
  | str (s : String) : JVal
  | arr (xs : List JVal) : JVal
  | obj (kvs : List (String × JVal)) : JVal

/-- The Go type `map[string]interface{}`. -/
abbrev JObj := List (String × JVal)

/-- Lexicographic comparison of code point lists. -/
def ltNats : List Nat → List Nat → Bool
  | _, [] => false
  | [], _ :: _ => true
  | a :: as, b :: bs => decide (a < b) || (a == b && ltNats as bs)

/-- Go's `<` on strings (bytewise on UTF-8, which is code point order). -/
def keyLt (a b : String) : Bool :=
  ltNats (a.data.map Char.toNat) (b.data.map Char.toNat)

/-- The map read `v, ok := m[k]`. -/
def JObj.lookup (o : JObj) (k : String) : Option JVal :=
  match o with
  | [] => none
  | (k', v) :: rest => if k' = k then some v else JObj.lookup rest k

/-- The builtin `delete(m, k)`. -/
def JObj.delete (o : JObj) (k : String) : JObj :=
  match o with
  | [] => []
  | (k', v) :: rest => if k' = k then JObj.delete rest k else (k', v) :: JObj.delete rest k

/-- The map write `m[k] = v`: replaces the entry of `k`, or adds one at its place in key order. -/
def JObj.store (o : JObj) (k : String) (v : JVal) : JObj :=
  match o with
  | [] => [(k, v)]
  | (k', v') :: rest =>
    if k' = k then (k, v) :: rest
    else if keyLt k k' then (k, v) :: (k', v') :: rest
    else (k', v') :: JObj.store rest k v

/-- Keys of a map, in list order. -/
def JObj.keys (o : JObj) : List String := o.map Prod.fst

/-- Strictly increasing keys: one entry per key, in canonical order. -/
def sortedKeys : List String → Bool
  | [] => true
  | [_] => true
  | a :: b :: rest => keyLt a b && sortedKeys (b :: rest)

mutual
/-- A canonical value: every object inside it has strictly increasing keys. -/
def JVal.wf : JVal → Bool
  | .obj kvs => sortedKeys (kvs.map Prod.fst) && JVal.wfFields kvs
  | .arr xs => JVal.wfList xs
  | _ => true

/-- All elements of an array are canonical. -/
def JVal.wfList : List JVal → Bool
  | [] => true
  | x :: xs => x.wf && JVal.wfList xs

/-- All entry values of a map are canonical. -/
def JVal.wfFields : List (String × JVal) → Bool
  | [] => true
  | (_, v) :: rest => v.wf && JVal.wfFields rest
end

mutual
/-- Nesting depth of a value. -/
def JVal.depth : JVal → Nat
  | .obj kvs => JVal.depthFields kvs + 1
  | .arr xs => JVal.depthList xs + 1
  | _ => 0

/-- Largest depth among the elements of an array. -/
def JVal.depthList : List JVal → Nat
  | [] => 0
  | x :: xs => max x.depth (JVal.depthList xs)

/-- Largest depth among the entry values of a map. -/
def JVal.depthFields : List (String × JVal) → Nat
  | [] => 0
  | (_, v) :: rest => max v.depth (JVal.depthFields rest)
end

/-- The library `encoding/json`, as used on request bodies of byte type `β`:
`unmarshal` is `json.Unmarshal(bodyBytes, &requestBody)` into a `map[string]interface{}`
(`none` when it returns an error), `marshal` is `json.Marshal(requestBody)`. -/
structure JSONCodec (β : Type) where
  unmarshal : β → Option JObj
  marshal : JObj → Option β

/-- What the rewriter relies on from `encoding/json`: a decoded body is canonical, and a
canonical map is encoded to bytes that decode to the same map. -/
def JSONCodec.Lawful {β : Type} (c : JSONCodec β) : Prop :=
  (∀ b o, c.unmarshal b = some o → JVal.wf (.obj o) = true) ∧
  (∀ o, JVal.wf (.obj o) = true → ∃ b, c.marshal o = some b ∧ c.unmarshal b = some o)

/-- A codec whose byte strings are the canonical maps themselves: an instance of
`JSONCodec.Lawful`, used to run the rewriter on concrete bodies. -/
def JSONCodec.canonical : JSONCodec JObj where
  unmarshal := fun b => if JVal.wf (.obj b) then some b else none
  marshal := fun o => some o

/-! ## transformers.go -/

/-- The list `unsupportedFields` of `cleanParameters`. -/
def unsupportedFields : List String :=
  ["additionalProperties", "default", "optional", "maximum", "oneOf"]

/-- One iteration of the loop over `unsupportedFields`: the pair is `(modified, params)`. -/
def removeField (st : Bool × JObj) (field : String) : Bool × JObj :=
  match JObj.lookup st.2 field with
  | some _ => (true, JObj.delete st.2 field)
  | none => st

/-- The loop `for _, field := range unsupportedFields`. -/
def removeUnsupported (params : JObj) : Bool × JObj :=
  unsupportedFields.foldl removeField (false, params)

/-- The loop `for propName, prop := range properties` with the recursive call `clean`:
returns whether a nested call reported a modification, and the entries after the calls. -/
def cleanProperties (clean : JObj → Option (Bool × JObj)) :
    List (String × JVal) → Option (Bool × List (String × JVal))
  | [] => some (false, [])
  | (propName, prop) :: rest =>
    match prop with
    | .obj propMap =>
      match clean propMap with
      | none => none
      | some (nestedModified, propMap') =>
        match cleanProperties clean rest with
        | none => none
        | some (m, rest') => some (nestedModified || m, (propName, .obj propMap') :: rest')
    | _ =>
      match cleanProperties clean rest with
      | none => none
      | some (m, rest') => some (m, (propName, prop) :: rest')

/-- The block "Recursively clean nested objects in properties". -/
def cleanBlockProperties (clean : JObj → Option (Bool × JObj)) (st : Bool × JObj) :
    Option (Bool × JObj) :=
  match JObj.lookup st.2 "properties" with
  | some (.obj properties) =>
    match cleanProperties clean properties with
    | none => none
    | some (m, properties') =>
      some (st.1 || m, JObj.store st.2 "properties" (.obj properties'))
  | _ => some st

/-- The block "Recursively clean items in arrays". -/
def cleanBlockItems (clean : JObj → Option (Bool × JObj)) (st : Bool × JObj) :
    Option (Bool × JObj) :=
  match JObj.lookup st.2 "items" with
  | some (.obj items) =>
    match clean items with
    | none => none
    | some (nestedModified, items') =>
      some (st.1 || nestedModified, JObj.store st.2 "items" (.obj items'))
  | _ => some st

/-- The block "Recursively clean nested objects in items.properties". -/
def cleanBlockItemsProperties (clean : JObj → Option (Bool × JObj)) (st : Bool × JObj) :
    Option (Bool × JObj) :=
  match JObj.lookup st.2 "items" with
  | some (.obj items) =>
    match JObj.lookup items "properties" with
    | some (.obj properties) =>
      match cleanProperties clean properties with
      | none => none
      | some (m, properties') =>
        some (st.1 || m,
          JObj.store st.2 "items" (.obj (JObj.store items "properties" (.obj properties'))))
    | _ => some st
  | _ => some st

/-- The function `cleanParameters`, with a bound on the depth of its recursion: `none` when the
bound is reached.  The result is `(modified, params)` with `params` as the call leaves it. -/
def cleanParametersFuel : Nat → JObj → Option (Bool × JObj)
  | 0, _ => none
  | fuel + 1, params =>
    match cleanBlockProperties (cleanParametersFuel fuel) (removeUnsupported params) with
    | none => none
    | some st1 =>
      match cleanBlockItems (cleanParametersFuel fuel) st1 with
      | none => none
      | some st2 => cleanBlockItemsProperties (cleanParametersFuel fuel) st2

/-- The function `cleanParameters`, run with a recursion bound above the depth of `params`
(every such bound gives this result, `cleanParametersFuel_of_depth_lt`). -/
def cleanParameters (params : JObj) : Bool × JObj :=
  (cleanParametersFuel (JVal.depth (.obj params) + 1) params).getD (false, params)

/-- The object `q` is reached from the schema `p` by steps `properties.<name>` (the child being
an object) and `items` (being an object): the objects `cleanParameters` visits. -/
inductive SchemaReach : JObj → JObj → Prop where
  | here (p : JObj) : SchemaReach p p
  | property {p properties child q : JObj} {propName : String} :
      JObj.lookup p "properties" = some (.obj properties) →
      JObj.lookup properties propName = some (.obj child) →
      SchemaReach child q → SchemaReach p q
  | items {p items q : JObj} :
      JObj.lookup p "items" = some (.obj items) → SchemaReach items q → SchemaReach p q

/-- The object has none of the five unsupported keys. -/
def NoUnsupported (q : JObj) : Prop :=
  ∀ field ∈ unsupportedFields, JObj.lookup q field = none

/-- No object reached from the schema `p` has an unsupported key. -/
def SchemaClean (p : JObj) : Prop :=
  ∀ q, SchemaReach p q → NoUnsupported q

/-- Whether a key is one of `unsupportedFields`. -/
def isUnsupported (k : String) : Bool :=
  unsupportedFields.contains k

mutual
/-- Whether some JSON object at any depth inside the value has an unsupported key. -/
def JVal.hasUnsupported : JVal → Bool
  | .obj kvs => JVal.hasUnsupportedFields kvs
  | .arr xs => JVal.hasUnsupportedList xs
  | _ => false

/-- Whether some object inside an element of the array has an unsupported key. -/
def JVal.hasUnsupportedList : List JVal → Bool
  | [] => false
  | x :: xs => x.hasUnsupported || JVal.hasUnsupportedList xs

/-- Whether an entry of the map has an unsupported key, or a value with one inside. -/
def JVal.hasUnsupportedFields : List (String × JVal) → Bool
  | [] => false
  | (k, v) :: rest => isUnsupported k || v.hasUnsupported || JVal.hasUnsupportedFields rest
end

/-- The step "Check if it has parametersJsonSchema instead of parameters" on a declaration
`funcMap`: whether it set `modified`, and `funcMap` after it. -/
def renameParametersJsonSchema (funcMap : JObj) : Bool × JObj :=
  match JObj.lookup funcMap "parametersJsonSchema" with
  | some parametersJsonSchema =>
    (true, JObj.delete (JObj.store funcMap "parameters" parametersJsonSchema)
      "parametersJsonSchema")
  | none => (false, funcMap)

/-- The step "Clean up the parameters object" on a declaration `funcMap`: whether it set
`modified`, and `funcMap` after it. -/
def cleanDeclParameters (funcMap : JObj) : Bool × JObj :=
  match JObj.lookup funcMap "parameters" with
  | some (.obj parameters) =>
    ((cleanParameters parameters).1,
      JObj.store funcMap "parameters" (.obj (cleanParameters parameters).2))
  | _ => (false, funcMap)

/-- The loop body of `fixToolDefinitions` over one element of `functionDeclarations`:
returns whether it set `modified`, and the element as the iteration leaves it. -/
def fixFuncDecl (funcDecl : JVal) : Bool × JVal :=
  match funcDecl with
  | .obj funcMap =>
    let renamed := renameParametersJsonSchema funcMap
    let cleaned := cleanDeclParameters renamed.2
    (renamed.1 || cleaned.1, .obj cleaned.2)
  | _ => (false, funcDecl)

/-- The loop `for _, funcDecl := range functionDeclarations`. -/
def fixFuncDecls : List JVal → Bool × List JVal
  | [] => (false, [])
  | funcDecl :: rest =>
    let r := fixFuncDecl funcDecl
    let rs := fixFuncDecls rest
    (r.1 || rs.1, r.2 :: rs.2)

/-- The loop body of `fixToolDefinitions` over one element of `tools`. -/
def fixTool (tool : JVal) : Bool × JVal :=
  match tool with
  | .obj toolMap =>
    match JObj.lookup toolMap "functionDeclarations" with
    | some (.arr funcDecls) =>
      let toolMap1 :=
        JObj.delete (JObj.store toolMap "function_declarations" (.arr funcDecls))
          "functionDeclarations"
      (true, .obj (JObj.store toolMap1 "function_declarations" (.arr (fixFuncDecls funcDecls).2)))
    | _ =>
      match JObj.lookup toolMap "function_declarations" with
      | some (.arr funcDecls) =>
        let r := fixFuncDecls funcDecls
        (r.1, .obj (JObj.store toolMap "function_declarations" (.arr r.2)))
      | _ => (false, tool)
  | _ => (false, tool)

/-- The loop `for _, tool := range tools`. -/
def fixTools : List JVal → Bool × List JVal
  | [] => (false, [])
  | tool :: rest =>
    let r := fixTool tool
    let rs := fixTools rest
    (r.1 || rs.1, r.2 :: rs.2)

/-- The part of `fixToolDefinitions` between `json.Unmarshal` and `json.Marshal`: `none` on the
two paths that return the original `bodyBytes` (no tools, or `modified` still false), otherwise
the request body to marshal. -/
def fixToolDefinitionsObj (requestBody : JObj) : Option JObj :=
  match JObj.lookup requestBody "tools" with
  | some (.arr tools) =>
    if tools.length = 0 then none
    else
      let r := fixTools tools
      if r.1 then some (JObj.store requestBody "tools" (.arr r.2)) else none
  | _ => none

/-- The function `fixToolDefinitions`. -/
def fixToolDefinitions {β : Type} (c : JSONCodec β) (bodyBytes : β) : β :=
  match c.unmarshal bodyBytes with
  | none => bodyBytes
  | some requestBody =>
    match fixToolDefinitionsObj requestBody with
    | none => bodyBytes
    | some fixed =>
      match c.marshal fixed with
      | none => bodyBytes
      | some fixedBody => fixedBody

/-- The `switch level` of `fixSystemInstruction`. -/
def thinkingBudget (level : String) : ℚ :=
  if level = "high" then 26240
  else if level = "medium" then 13120
  else if level = "low" then 6560
  else 26240

/-- The first block of `fixSystemInstruction` (the `role` field of `systemInstruction`). -/
def fixRole (requestBody : JObj) : Bool × JObj :=
  match JObj.lookup requestBody "systemInstruction" with
  | some (.obj sysInst) =>
    match JObj.lookup sysInst "role" with
    | some _ =>
      (true, JObj.store requestBody "systemInstruction" (.obj (JObj.delete sysInst "role")))
    | none => (false, requestBody)
  | _ => (false, requestBody)

/-- The second block of `fixSystemInstruction` (`thinkingLevel` to `thinkingBudget`). -/
def fixThinking (requestBody : JObj) : Bool × JObj :=
  match JObj.lookup requestBody "generationConfig" with
  | some (.obj genConfig) =>
    match JObj.lookup genConfig "thinkingConfig" with
    | some (.obj thinkingCfg) =>
      match JObj.lookup thinkingCfg "thinkingLevel" with
      | some (.str level) =>
        let thinkingCfg1 :=
          JObj.delete (JObj.store thinkingCfg "thinkingBudget" (.num (thinkingBudget level)))
            "thinkingLevel"
        (true, JObj.store requestBody "generationConfig"
          (.obj (JObj.store genConfig "thinkingConfig" (.obj thinkingCfg1))))
      | _ => (false, requestBody)
    | _ => (false, requestBody)
  | _ => (false, requestBody)

/-- The part of `fixSystemInstruction` between `json.Unmarshal` and `json.Marshal`:
`(modified, requestBody)`. -/
def fixSystemInstructionObj (requestBody : JObj) : Bool × JObj :=
  let r1 := fixRole requestBody
  let r2 := fixThinking r1.2
  (r1.1 || r2.1, r2.2)

/-- The function `fixSystemInstruction`. -/
def fixSystemInstruction {β : Type} (c : JSONCodec β) (bodyBytes : β) : β :=
  match c.unmarshal bodyBytes with
  | none => bodyBytes
  | some requestBody =>
    let r := fixSystemInstructionObj requestBody
    if r.1 then
      match c.marshal r.2 with
      | none => bodyBytes
      | some fixedBody => fixedBody
    else bodyBytes

/-- The rewriter X of the ingress handler: `fixToolDefinitions`, then `fixSystemInstruction`. -/
def rewriteBody {β : Type} (c : JSONCodec β) (bodyBytes : β) : β :=
  fixSystemInstruction c (fixToolDefinitions c bodyBytes)

/-! ## proxy.go: the response assembler -/

/-- The least value of the Go type `int`, which is 64 bits wide. -/
def minInt : Int := -9223372036854775808

/-- The greatest value of the Go type `int`, which is 64 bits wide. -/
def maxInt : Int := 9223372036854775807

/-- A number with its fraction discarded (rounding towards zero). -/
def truncInt (q : ℚ) : Int := Int.tdiv q.num q.den

/-- The number, with its fraction discarded, is a value of the type `int`. -/
def InIntRange (q : ℚ) : Prop := minInt ≤ truncInt q ∧ truncInt q ≤ maxInt

/-- The conversion `int(x)` of a `float64`: the fraction is discarded when the result is a
value of `int`.  For any other `x` the Go specification leaves the result to the
implementation; it is given here as the amd64 build gives it, the least `int`.  Statements
about the value of a conversion are made for numbers within `InIntRange` only, where every
implementation agrees. -/
def goInt (q : ℚ) : Int :=
  if minInt ≤ truncInt q ∧ truncInt q ≤ maxInt then truncInt q else minInt

/-- The struct `WSMessage` (its field `Type` is `MsgType` here, `Type` being reserved). -/
structure WSMessage where
  ID : String
  MsgType : String
  Payload : JObj

/-- A call on the `http.ResponseWriter` `w` (and on its `http.Flusher`). -/
inductive WCall where
  | headerAdd (key value : String) : WCall
  | headerSet (key value : String) : WCall
  | writeHeader (code : Int) : WCall
  | write (data : String) : WCall
  | flush : WCall
  | error (msg : String) (code : Int) : WCall

/-- A call `addLog(level, message, data)`. -/
structure LogEntry where
  level : String
  message : String
  data : JObj

/-- The read `payload[k]` as an `interface{}`: `nil` when the key is absent. -/
def payloadValue (payload : JObj) (k : String) : JVal :=
  (JObj.lookup payload k).getD .null

/-- The inner loop of `setResponseHeaders` over the values of one header. -/
def addHeaderValues (key : String) : List JVal → List WCall
  | [] => []
  | .str strV :: rest => .headerAdd key strV :: addHeaderValues key rest
  | _ :: rest => addHeaderValues key rest

/-- The loop `for key, value := range headers` of `setResponseHeaders`. -/
def setHeaderEntries : List (String × JVal) → List WCall
  | [] => []
  | (key, value) :: rest =>
    (match value with
      | .arr values => addHeaderValues key values
      | .str strV => [.headerSet key strV]
      | _ => []) ++ setHeaderEntries rest

/-- The function `setResponseHeaders`: the calls it makes on `w.Header()`. -/
def setResponseHeaders (payload : JObj) : List WCall :=
  match JObj.lookup payload "headers" with
  | some (.obj headers) => setHeaderEntries headers
  | _ => []

/-- The function `writeStatusCode`: the call it makes on `w`. -/
def writeStatusCode (payload : JObj) : List WCall :=
  match JObj.lookup payload "status" with
  | some (.num status) => [.writeHeader (goInt status)]
  | _ => [.writeHeader 200]

/-- The variable `bodyData` of `writeBody` as a string. -/
def bodyData (payload : JObj) : String :=
  let fromBody : String :=
    match JObj.lookup payload "body" with
    | some (.str body) => body
    | _ => ""
  match JObj.lookup payload "data" with
  | some (.str data) => data
  | _ => fromBody

/-- The function `writeBody`: the call it makes on `w` (`len(bodyData) > 0` is
`bodyData ≠ ""`). -/
def writeBody (payload : JObj) : List WCall :=
  if bodyData payload = "" then [] else [.write (bodyData payload)]

/-- The calls `flusher.Flush()` under `if flusher != nil`. -/
def flushCalls (flusher : Bool) : List WCall :=
  if flusher then [.flush] else []

/-- The local `reqID` of the assembler: `payload.request_id` when a string, else `msg.ID`. -/
def frameReqID (msg : WSMessage) : String :=
  match JObj.lookup msg.Payload "request_id" with
  | some (.str id) => id
  | _ => msg.ID

/-- The local `statusCode` of the `http_response` and `stream_start` cases. -/
def frameStatusCode (msg : WSMessage) : Int :=
  match JObj.lookup msg.Payload "status" with
  | some (.num status) => goInt status
  | _ => 0

/-- The local state of `processWebSocketResponse`, with the calls made on `w` and the
`addLog` records so far. -/
structure AState where
  headersSet : Bool
  errorBodyChunks : List String
  errorStatusCode : Int
  errorRequestID : String
  calls : List WCall
  logs : List LogEntry

/-- The state at the entry of the `for` loop. -/
def AState.init : AState :=
  ⟨false, [], 0, "", [], []⟩

/-- What one run of the `select` receives. -/
inductive Ev where
  | frame (msg : WSMessage) : Ev
  | closed : Ev
  | ctxDone : Ev

/-- The case `"http_response"`. -/
def onHttpResponse (s : AState) (msg : WSMessage) : AState × Bool :=
  if s.headersSet then (s, true)
  else
    ({ s with
        calls := s.calls ++ setResponseHeaders msg.Payload ++ writeStatusCode msg.Payload
          ++ writeBody msg.Payload
        logs := s.logs ++ [⟨"INFO",
          "[RESPONSE " ++ frameReqID msg ++ "] Status: " ++ toString (frameStatusCode msg),
          [("body", payloadValue msg.Payload "body"),
           ("headers", payloadValue msg.Payload "headers"),
           ("request_id", .str (frameReqID msg)),
           ("status", .num (frameStatusCode msg))]⟩] }, true)

/-- The case `"stream_start"`. -/
def onStreamStart (flusher : Bool) (s : AState) (msg : WSMessage) : AState × Bool :=
  if s.headersSet then (s, false)
  else
    let statusCode := frameStatusCode msg
    let s1 : AState :=
      if statusCode ≥ 400 then
        { s with
          errorStatusCode := statusCode
          errorRequestID := frameReqID msg
          errorBodyChunks := []
          logs := s.logs ++ [⟨"WARN",
            "[STREAM ERROR " ++ frameReqID msg ++ "] Status: " ++ toString statusCode
              ++ " - Waiting for error body in chunks",
            [("headers", payloadValue msg.Payload "headers"),
             ("request_id", .str (frameReqID msg)),
             ("status", .num statusCode)]⟩] }
      else s
    ({ s1 with
        calls := s1.calls ++ setResponseHeaders msg.Payload ++ writeStatusCode msg.Payload
          ++ flushCalls flusher
        headersSet := true }, false)

/-- The case `"stream_chunk"`. -/
def onStreamChunk (flusher : Bool) (s : AState) (msg : WSMessage) : AState × Bool :=
  let s1 : AState :=
    if s.headersSet then s
    else { s with calls := s.calls ++ [.writeHeader 200], headersSet := true }
  let s2 : AState :=
    if s1.errorStatusCode ≥ 400 then
      match JObj.lookup msg.Payload "data" with
      | some (.str data) => { s1 with errorBodyChunks := s1.errorBodyChunks ++ [data] }
      | _ => s1
    else s1
  ({ s2 with calls := s2.calls ++ writeBody msg.Payload ++ flushCalls flusher }, false)

/-- The case `"stream_end"`. -/
def onStreamEnd (s : AState) : AState × Bool :=
  let s1 : AState :=
    if s.headersSet then s else { s with calls := s.calls ++ [.writeHeader 200] }
  let s2 : AState :=
    if s1.errorStatusCode ≥ 400 ∧ s1.errorBodyChunks.length > 0 then
      { s1 with
        logs := s1.logs ++ [⟨"ERROR",
          "[STREAM ERROR " ++ s1.errorRequestID ++ "] Complete error response from Gemini API",
          [("error_body", .str (String.join s1.errorBodyChunks)),
           ("request_id", .str s1.errorRequestID),
           ("status", .num s1.errorStatusCode)]⟩] }
    else s1
  (s2, true)

/-- The local `errMsg` of the case `"error"`. -/
def frameErrMsg (msg : WSMessage) : String :=
  match JObj.lookup msg.Payload "error" with
  | some (.str payloadErr) => payloadErr
  | _ => "Bad Gateway: Client reported an error"

/-- The local `statusCode` of the case `"error"` (`http.StatusBadGateway` is 502). -/
def frameErrStatus (msg : WSMessage) : Int :=
  match JObj.lookup msg.Payload "status" with
  | some (.num code) => goInt code
  | _ => 502

/-- The case `"error"`. -/
def onError (s : AState) (msg : WSMessage) : AState × Bool :=
  if s.headersSet then (s, true)
  else
    ({ s with
        calls := s.calls ++ [.error (frameErrMsg msg) (frameErrStatus msg)]
        logs := s.logs ++ [⟨"ERROR",
          "[ERROR " ++ frameReqID msg ++ "] Status: " ++ toString (frameErrStatus msg),
          [("body", payloadValue msg.Payload "body"),
           ("error", .str (frameErrMsg msg)),
           ("headers", payloadValue msg.Payload "headers"),
           ("method", payloadValue msg.Payload "method"),
           ("payload", .obj msg.Payload),
           ("request_id", .str (frameReqID msg)),
           ("status", .num (frameErrStatus msg)),
           ("url", payloadValue msg.Payload "url")]⟩] }, true)

/-- One run of the `select` of `processWebSocketResponse`: the state after it, and whether the
function returned. -/
def step (flusher : Bool) (s : AState) : Ev → AState × Bool
  | .frame msg =>
    if msg.MsgType = "http_response" then onHttpResponse s msg
    else if msg.MsgType = "stream_start" then onStreamStart flusher s msg
    else if msg.MsgType = "stream_chunk" then onStreamChunk flusher s msg
    else if msg.MsgType = "stream_end" then onStreamEnd s
    else if msg.MsgType = "error" then onError s msg
    else (s, false)
  | .closed =>
    if s.headersSet then (s, true)
    else
      ({ s with calls := s.calls ++
          [.error "Internal Server Error: Response channel closed unexpectedly" 500] }, true)
  | .ctxDone =>
    if s.headersSet then (s, true)
    else ({ s with calls := s.calls ++ [.error "Gateway Timeout" 504] }, true)

/-- The result of running the assembler on a list of events: the last state, whether the
function returned, and the events it did not take. -/
structure Run where
  state : AState
  returned : Bool
  rest : List Ev

/-- The `for` loop of `processWebSocketResponse` from state `s`. -/
def runFrom (flusher : Bool) (s : AState) : List Ev → Run
  | [] => ⟨s, false, []⟩
  | ev :: evs =>
    let r := step flusher s ev
    if r.2 then ⟨r.1, true, evs⟩ else runFrom flusher r.1 evs

/-- The function `processWebSocketResponse`: `flusher` tells whether `w` is an `http.Flusher`,
`evs` is what the successive runs of the `select` receive. -/
def processWebSocketResponse (flusher : Bool) (evs : List Ev) : Run :=
  runFrom flusher AState.init evs

/-- The status codes passed to `w.WriteHeader` and `http.Error`, in call order. -/
def statusCalls : List WCall → List Int
  | [] => []
  | .writeHeader code :: rest => code :: statusCalls rest
  | .error _ code :: rest => code :: statusCalls rest
  | _ :: rest => statusCalls rest

/-- The data passed to `w.Write`, concatenated in call order. -/
def writtenBody : List WCall → String
  | [] => ""
  | .write data :: rest => data ++ writtenBody rest
  | _ :: rest => writtenBody rest

/-- Whether a call is `w.Write`. -/
def WCall.isWrite : WCall → Bool
  | .write _ => true
  | _ => false

/-- Whether a call sets a header or a status (`Header().Add`, `Header().Set`, `WriteHeader`,
`http.Error`). -/
def WCall.isHead : WCall → Bool
  | .headerAdd _ _ => true
  | .headerSet _ _ => true
  | .writeHeader _ => true
  | .error _ _ => true
  | _ => false

/-- The calls that writing the chunk data `d1, ..., dn` one after the other makes on `w`: a
`Write` for each non-empty chunk, each followed by the flush. -/
def chunkCalls (flusher : Bool) : List String → List WCall
  | [] => []
  | d :: ds => (if d = "" then [] else [.write d]) ++ flushCalls flusher ++ chunkCalls flusher ds

/-! ## proxy.go and websocket.go: the ingress handler -/

/-- The Go type `http.Header`, `map[string][]string`, as the list of its entries. -/
abbrev Header := List (String × List String)

/-- The map read `v, ok := h[k]` on a header map. -/
def Header.lookup (h : Header) (k : String) : Option (List String) :=
  match h with
  | [] => none
  | (k', v) :: rest => if k' = k then some v else Header.lookup rest k

/-- The call `r.Header.Get("x-goog-api-key")`: the first value under the canonical form of the
key, or the empty string. -/
def headerGetApiKey (h : Header) : String :=
  match Header.lookup h "X-Goog-Api-Key" with
  | some (v :: _) => v
  | _ => ""

/-- What the handler reads of the `*http.Request`: `URL` is `r.URL.String()` and `queryKey` is
`r.URL.Query().Get("key")`. -/
structure Request where
  Method : String
  URL : String
  queryKey : String
  Header : Header

/-- The function `authenticateHTTPRequest`; `expectedAPIKey` is `os.Getenv("AUTH_API_KEY")`. -/
def authenticateHTTPRequest (expectedAPIKey : String) (r : Request) : Except String String :=
  let apiKey := if headerGetApiKey r.Header = "" then r.queryKey else headerGetApiKey r.Header
  if expectedAPIKey = "" then .error "server configuration error"
  else if apiKey = expectedAPIKey then .ok "user-1"
  else .error "invalid API key"

/-- The condition under which the header loop of `handleProxyRequest` keeps the key `k`. -/
def forwarded (k : String) : Bool :=
  k != "Connection" && k != "Keep-Alive" && k != "Proxy-Authenticate"
    && k != "Proxy-Authorization" && k != "Te" && k != "Trailers"
    && k != "Transfer-Encoding" && k != "Upgrade"

/-- The loop `for k, v := range r.Header` of `handleProxyRequest`: the map `headers`. -/
def forwardHeaders : Header → Header
  | [] => []
  | (k, v) :: rest => if forwarded k then (k, v) :: forwardHeaders rest else forwardHeaders rest

/-- The value `requestPayload` of `handleProxyRequest`, a `WSMessage` whose payload has the keys
`method`, `url`, `headers` and `body`. -/
structure RequestFrame (β : Type) where
  ID : String
  MsgType : String
  method : String
  url : String
  headers : Header
  body : β

/-- The table `pendingRequests`: request id to response channel (the frames in its buffer). -/
abbrev Pending := List (String × List WSMessage)

/-- The call `pendingRequests.Store(reqID, respChan)`. -/
def Pending.store (t : Pending) (reqID : String) (respChan : List WSMessage) : Pending :=
  (reqID, respChan) :: t.filter (fun e => e.1 != reqID)

/-- The call `pendingRequests.Delete(reqID)`. -/
def Pending.delete (t : Pending) (reqID : String) : Pending :=
  t.filter (fun e => e.1 != reqID)

/-- A mutation of `pendingRequests`. -/
inductive PendingOp where
  | store (reqID : String) : PendingOp
  | delete (reqID : String) : PendingOp

/-- The outcomes of what `handleProxyRequest` calls outside the repository's sources:
`reqID` is `uuid.NewString()`, `getConnection` is `globalPool.GetConnection` (`none` for an
error), `body` is `io.ReadAll(r.Body)` (`none` for an error), `writeOK` tells whether
`safeWriteJSON` returned no error, `flusher` whether `w` is an `http.Flusher`, and `events` is
what the runs of the assembler's `select` receive. -/
structure Env (β : Type) where
  authAPIKey : String
  reqID : String
  getConnection : String → Option Nat
  body : Option β
  writeOK : Bool
  flusher : Bool
  events : List Ev

/-- What a run of `handleProxyRequest` did: the table when it returns and the mutations it made,
the calls on `w`, the frames passed to `safeWriteJSON` with their connection, and the run of
`processWebSocketResponse` when it was called. -/
structure HandlerResult (β : Type) where
  pending : Pending
  pendingOps : List PendingOp
  calls : List WCall
  sent : List (Nat × RequestFrame β)
  assembler : Option Run

/-- The steps 4 to 7 of `handleProxyRequest`, between the registration and the deferred
`pendingRequests.Delete`: the calls on `w`, the frames sent, the run of the assembler. -/
def handleRegistered {β : Type} (c : JSONCodec β) (env : Env β) (r : Request)
    (userID reqID : String) : List WCall × List (Nat × RequestFrame β) × Option Run :=
  match env.getConnection userID with
  | none => ([.error "Service Unavailable: No active client connected" 503], [], none)
  | some selectedConn =>
    match env.body with
    | none => ([.error "Failed to read request body" 500], [], none)
    | some bodyBytes =>
      let requestPayload : RequestFrame β :=
        { ID := reqID
          MsgType := "http_request"
          method := r.Method
          url := "https://generativelanguage.googleapis.com" ++ r.URL
          headers := forwardHeaders r.Header
          body := fixSystemInstruction c (fixToolDefinitions c bodyBytes) }
      if env.writeOK then
        let run := processWebSocketResponse env.flusher env.events
        (run.state.calls, [(selectedConn, requestPayload)], some run)
      else
        ([.error "Bad Gateway: Failed to send request to client" 502],
          [(selectedConn, requestPayload)], none)

/-- The function `handleProxyRequest`, called with the table `pending`. -/
def handleProxyRequest {β : Type} (c : JSONCodec β) (env : Env β) (pending : Pending)
    (r : Request) : HandlerResult β :=
  match authenticateHTTPRequest env.authAPIKey r with
  | .error _ =>
    { pending := pending
      pendingOps := []
      calls := [.error "Proxy authentication failed" 401]
      sent := []
      assembler := none }
  | .ok userID =>
    let reqID := env.reqID
    let pending1 := Pending.store pending reqID []
    let out := handleRegistered c env r userID reqID
    { pending := Pending.delete pending1 reqID
      pendingOps := [.store reqID, .delete reqID]
      calls := out.1
      sent := out.2.1
      assembler := out.2.2 }

/-! ## Properties of request bodies, and sample bodies -/

/-- A declaration the loop body of `fixToolDefinitions` has nothing to do on: when it is an
object it has no `parametersJsonSchema`, and its `parameters`, when an object, is clean. -/
def DeclSettled (v : JVal) : Prop :=
  ∀ d, v = .obj d → JObj.lookup d "parametersJsonSchema" = none ∧
    ∀ params, JObj.lookup d "parameters" = some (.obj params) → SchemaClean params

/-- A tool the loop body of `fixToolDefinitions` has nothing to do on. -/
def ToolSettled (t : JVal) : Prop :=
  ∀ tm, t = .obj tm → (∀ fd, JObj.lookup tm "functionDeclarations" ≠ some (.arr fd)) ∧
    ∀ decls, JObj.lookup tm "function_declarations" = some (.arr decls) →
      ∀ x ∈ decls, DeclSettled x

/-- A request body whose tools are all settled. -/
def BodySettled (o : JObj) : Prop :=
  ∀ tools, JObj.lookup o "tools" = some (.arr tools) → ∀ t ∈ tools, ToolSettled t

/-- The `systemInstruction` of the body, when an object, has no `role`. -/
def RoleFree (o : JObj) : Prop :=
  ∀ si, JObj.lookup o "systemInstruction" = some (.obj si) → JObj.lookup si "role" = none

/-- The `generationConfig.thinkingConfig` of the body, when an object, has no string
`thinkingLevel`. -/
def LevelFree (o : JObj) : Prop :=
  ∀ gc tc, JObj.lookup o "generationConfig" = some (.obj gc) →
    JObj.lookup gc "thinkingConfig" = some (.obj tc) →
    ∀ level, JObj.lookup tc "thinkingLevel" ≠ some (.str level)

/-- The property `P` holds of every object `tools[*].function_declarations[*].parameters` of
the body. -/
def ToolsParametersAll (P : JObj → Prop) (o : JObj) : Prop :=
  ∀ (tools : List JVal) (tool : JObj) (decls : List JVal) (decl params : JObj),
    JObj.lookup o "tools" = some (.arr tools) → JVal.obj tool ∈ tools →
    JObj.lookup tool "function_declarations" = some (.arr decls) → JVal.obj decl ∈ decls →
    JObj.lookup decl "parameters" = some (.obj params) → P params

/-- The schema `{"properties":{"x":{"anyOf":[{"default":"a","type":"string"},{"type":"null"}]}},
"type":"object"}`. -/
def anyOfParams : JObj :=
  [("properties", .obj [("x", .obj [("anyOf", .arr
      [.obj [("default", .str "a"), ("type", .str "string")],
       .obj [("type", .str "null")]])])]),
   ("type", .str "object")]

/-- The body `{"tools":[{"function_declarations":[{"name":"f","parameters":P}]}]}` with `P` the
schema `anyOfParams`. -/
def anyOfBody : JObj :=
  [("tools", .arr [.obj [("function_declarations", .arr
    [.obj [("name", .str "f"), ("parameters", .obj anyOfParams)]])]])]

/-- The request body of scenario S5. -/
def s5Body : JObj :=
  [("generationConfig", .obj [("thinkingConfig", .obj [("thinkingLevel", .str "low")])]),
   ("systemInstruction",
      .obj [("parts", .arr [.obj [("text", .str "s")]]), ("role", .str "user")]),
   ("tools", .arr [.obj [("functionDeclarations", .arr
      [.obj [("name", .str "f"),
             ("parametersJsonSchema", .obj
                [("additionalProperties", .bool false),
                 ("properties", .obj [("x", .obj [("maximum", .num 10),
                                                  ("type", .str "number")])]),
                 ("type", .str "object")])]])]])]

/-- An environment in which the request is authenticated, a connection is selected, the body
`{}` is read and the frame is written; the tunnel then answers with one `http_response`. -/
def demoEnv : Env JObj where
  authAPIKey := "k"
  reqID := "req-1"
  getConnection := fun _ => some 0
  body := some []
  writeOK := true
  flusher := true
  events := [.frame ⟨"req-1", "http_response", [("body", .str "ok"), ("status", .num 200)]⟩]

/-- A request with the API key of `demoEnv`, a hop-by-hop header and a two-valued header. -/
def demoRequest : Request where
  Method := "POST"
  URL := "/v1beta/models/x:generateContent"
  queryKey := ""
  Header := [("Accept", ["a", "b"]), ("Connection", ["keep-alive"]), ("X-Goog-Api-Key", ["k"])]

/-- The body the rewriter is expected to emit in scenario S5. -/
def s5Expected : JObj :=
  [("generationConfig", .obj [("thinkingConfig", .obj [("thinkingBudget", .num 6560)])]),
   ("systemInstruction", .obj [("parts", .arr [.obj [("text", .str "s")]])]),
   ("tools", .arr [.obj [("function_declarations", .arr
      [.obj [("name", .str "f"),
             ("parameters", .obj
                [("properties", .obj [("x", .obj [("type", .str "number")])]),
                 ("type", .str "object")])]])]])]

/-- The local `functionDeclarations` of the loop body of `fixToolDefinitions` over the tool
`toolMap`: the array the inner loop runs over, `none` when the loop body does `continue`. -/
def processedDecls (toolMap : JObj) : Option (List JVal) :=
  match JObj.lookup toolMap "functionDeclarations" with
  | some (.arr funcDecls) => some funcDecls
  | _ =>
    match JObj.lookup toolMap "function_declarations" with
    | some (.arr funcDecls) => some funcDecls
    | _ => none

/-- A `parameters` value after the step "Clean up the parameters object": cleaned by
`cleanParameters` when it is an object, as it was otherwise. -/
def cleanedValue (v : JVal) : JVal :=
  match v with
  | .obj parameters => .obj (cleanParameters parameters).2
  | _ => v

/-- The body `{"tools":[{"functionDeclarations":[{"name":"a"}],
"function_declarations":[{"name":"b"}]}]}`, whose tool has both spellings of the key. -/
def bothKeysBody : JObj :=
  [("tools", .arr [.obj [("functionDeclarations", .arr [.obj [("name", .str "a")]]),
                         ("function_declarations", .arr [.obj [("name", .str "b")]])]])]

/-- The JSON number 429.5, a status with a fraction. -/
def fractionalStatus : ℚ := mkRat 859 2

/-- The JSON number 1e19, a status above the greatest `int`. -/
def hugeStatus : ℚ := 10000000000000000000

/-- A request whose header `x-goog-api-key` is wrong and whose query parameter `key` is "k". -/
def wrongHeaderRequest : Request where
  Method := "POST"
  URL := "/v1beta/models/m:generateContent?key=k"
  queryKey := "k"
  Header := [("X-Goog-Api-Key", ["wrong"])]

/-- The strings `payload.data` of a list of frames, in order (a frame whose `data` is absent or
not a string gives none). -/
def chunkData : List WSMessage → List String
  | [] => []
  | m :: rest =>
    match JObj.lookup m.Payload "data" with
    | some (.str data) => data :: chunkData rest
    | _ => chunkData rest

/-- The record that the `stream_end` case passes to `addLog` for a stream with an error status:
level, message, and the fields `error_body`, `request_id`, `status`. -/
def streamErrorRecord (reqID : String) (status : Int) (chunks : List String) : LogEntry :=
  ⟨"ERROR", "[STREAM ERROR " ++ reqID ++ "] Complete error response from Gemini API",
    [("error_body", .str (String.join chunks)),
     ("request_id", .str reqID),
     ("status", .num status)]⟩

/-- The levels of the records passed to `addLog`, in call order. -/
def logLevels (logs : List LogEntry) : List String :=
  logs.map LogEntry.level
/-! ## websocket.go: the read pump and the response channels -/

/-- The capacity of a response channel: `make(chan *WSMessage, 10)` in `handleProxyRequest`. -/
def respChanCap : Nat := 10

/-- The call `pendingRequests.Load(id)`: the buffer of the channel stored under `id`. -/
def Pending.load (t : Pending) (id : String) : Option (List WSMessage) :=
  match t with
  | [] => none
  | (k, ch) :: rest => if k = id then some ch else Pending.load rest id

/-- The table in which the channel that `Load(id)` returns has the buffer `ch`. -/
def Pending.setChan (t : Pending) (id : String) (ch : List WSMessage) : Pending :=
  match t with
  | [] => []
  | (k, old) :: rest =>
    if k = id then (k, ch) :: rest else (k, old) :: Pending.setChan rest id ch

/-- The statement `select { case respChan <- &msg: ... default: ... }` of `readPump`: the
buffer after it, and whether the send was done. -/
def chanOffer (ch : List WSMessage) (msg : WSMessage) : List WSMessage × Bool :=
  if ch.length < respChanCap then (ch ++ [msg], true) else (ch, false)

/-- The receive `msg, ok := <-respChan` on an open channel: the frame at the head of the buffer
and the buffer left, `none` while the buffer is empty. -/
def chanRecv (ch : List WSMessage) : Option (WSMessage × List WSMessage) :=
  match ch with
  | [] => none
  | m :: rest => some (m, rest)

/-- What `readPump` did with one frame. -/
inductive PumpOutcome where
  | pong (id : String) : PumpOutcome
  | routed : PumpOutcome
  | dropFull : PumpOutcome
  | dropMissing : PumpOutcome
  | unknownType : PumpOutcome

/-- Whether `msg.Type` is one of the five types of the second `case` of `readPump`. -/
def isResponseType (t : String) : Bool :=
  t = "http_response" || t = "stream_start" || t = "stream_chunk" || t = "stream_end"
    || t = "error"

/-- The `switch msg.Type` of `readPump` on a frame that was unmarshalled: the table after it and
what was done. -/
def readPumpDispatch (pending : Pending) (msg : WSMessage) : Pending × PumpOutcome :=
  if msg.MsgType = "ping" then (pending, .pong msg.ID)
  else if isResponseType msg.MsgType then
    match Pending.load pending msg.ID with
    | some respChan =>
      let r := chanOffer respChan msg
      (Pending.setChan pending msg.ID r.1, if r.2 then .routed else .dropFull)
    | none => (pending, .dropMissing)
  else (pending, .unknownType)

/-- What happens at the two ends of the response channel of one request: `readPump` takes a
frame off the tunnel, or the assembler of the request runs its receive. -/
inductive SinkOp where
  | pump (msg : WSMessage) : SinkOp
  | recv : SinkOp

/-- The table and the frames the assembler of request `id` has received, after one operation
(a receive on an empty buffer receives nothing). -/
def sinkStep (id : String) (st : Pending × List WSMessage) : SinkOp → Pending × List WSMessage
  | .pump msg => ((readPumpDispatch st.1 msg).1, st.2)
  | .recv =>
    match Pending.load st.1 id with
    | some ch =>
      (match chanRecv ch with
        | some (m, rest) => (Pending.setChan st.1 id rest, st.2 ++ [m])
        | none => st)
    | none => st

/-- The table and the frames received after a list of operations. -/
def runSink (id : String) (st : Pending × List WSMessage) (ops : List SinkOp) :
    Pending × List WSMessage :=
  ops.foldl (sinkStep id) st

/-- The frames that `readPump` took off the tunnel with envelope id `id` and a response type. -/
def pumpedFor (id : String) : List SinkOp → List WSMessage
  | [] => []
  | .pump msg :: rest =>
    if msg.ID = id ∧ isResponseType msg.MsgType = true then msg :: pumpedFor id rest
    else pumpedFor id rest
  | .recv :: rest => pumpedFor id rest

/-- A frame with the payload `p`. -/
def chunkFrame (id : String) (p : JObj) : WSMessage :=
  ⟨id, "stream_chunk", p⟩

/-! ## logging.go -/

/-- The variable `maxLogBuffer`. -/
def maxLogBuffer : Nat := 1000

/-- The function `addLog` on the buffer `logBuffer` (the `Timestamp` of the entry, read from
the clock, is not part of `LogEntry` here): the buffer after the call. -/
def addLog (logBuffer : List LogEntry) (level message : String) (data : JObj) :
    List LogEntry :=
  let logBuffer1 := logBuffer ++ [LogEntry.mk level message data]
  if logBuffer1.length > maxLogBuffer then logBuffer1.drop 1 else logBuffer1

/-- The buffer after a sequence of `addLog` calls, one for each entry of `entries`. -/
def addLogs (logBuffer : List LogEntry) (entries : List LogEntry) : List LogEntry :=
  entries.foldl (fun b e => addLog b e.level e.message e.data) logBuffer

/-- The environment `demoEnv` with no tunnel connected: `GetConnection` returns an error. -/
def noClientEnv : Env JObj :=
  { demoEnv with getConnection := fun _ => none }

/-! ## The reference definition of the schema cleanup -/

mutual
/-- Reference definition, at a value in schema position (`parameters`, a `properties.<name>`
child, `items`): an object is cleaned as a schema object, any other value is left alone. -/
def JVal.cleanedSchema : JVal → JVal
  | .obj kvs => .obj (cleanSchemaFields kvs)
  | .null => .null
  | .bool b => .bool b
  | .num q => .num q
  | .str s => .str s
  | .arr xs => .arr xs

/-- Reference definition, at the value of a `properties` key: in an object every entry is kept
under its name, with its value cleaned as a schema; any other value is left alone. -/
def JVal.cleanedProperties : JVal → JVal
  | .obj kvs => .obj (cleanPropertiesFields kvs)
  | .null => .null
  | .bool b => .bool b
  | .num q => .num q
  | .str s => .str s
  | .arr xs => .arr xs

/-- Reference definition, on the entries of a schema object: the entries whose key is one of
the five unsupported keys are removed, the value of `properties` is cleaned as a properties map,
the value of `items` as a schema, and every other entry is kept as it is. -/
def cleanSchemaFields : List (String × JVal) → List (String × JVal)
  | [] => []
  | (k, v) :: rest =>
    if isUnsupported k then cleanSchemaFields rest
    else if k = "properties" then (k, v.cleanedProperties) :: cleanSchemaFields rest
    else if k = "items" then (k, v.cleanedSchema) :: cleanSchemaFields rest
    else (k, v) :: cleanSchemaFields rest

/-- Reference definition, on the entries of a properties map. -/
def cleanPropertiesFields : List (String × JVal) → List (String × JVal)
  | [] => []
  | (name, v) :: rest => (name, v.cleanedSchema) :: cleanPropertiesFields rest
end

/-- Reference definition of `cleanParameters`: the schema `p` with the five unsupported keys
removed at `p` itself and at every object reached by steps `properties.<name>` and `items`. -/
def cleanParametersRef (p : JObj) : JObj :=
  cleanSchemaFields p

/-- The schema `{"default":1,"items":{"maximum":3,"type":"string"},
"properties":{"default":{"oneOf":[],"type":"string"}},"type":"object"}`, with a property that
is named `default`. -/
def namedDefaultParams : JObj :=
  [("default", .num 1),
   ("items", .obj [("maximum", .num 3), ("type", .str "string")]),
   ("properties", .obj [("default", .obj [("oneOf", .arr []), ("type", .str "string")])]),
   ("type", .str "object")]


/-! ## The order on keys -/

theorem ltNats_irrefl (a : List Nat) : ltNats a a = false := by
  induction a with
  | nil => rfl
  | cons x xs ih => simp [ltNats, ih]

theorem ltNats_trans : ∀ (a b c : List Nat), ltNats a b = true → ltNats b c = true →
    ltNats a c = true
  | _, [], _, h, _ => by cases ‹List Nat› <;> simp [ltNats] at h
  | _, _ :: _, [], _, h => by simp [ltNats] at h
  | [], _ :: _, _ :: _, _, _ => by simp [ltNats]
  | x :: xs, y :: ys, z :: zs, h1, h2 => by
    simp only [ltNats, Bool.or_eq_true, Bool.and_eq_true, decide_eq_true_eq, beq_iff_eq] at *
    rcases h1 with h1 | ⟨rfl, h1⟩
    · rcases h2 with h2 | ⟨rfl, _⟩
      · exact Or.inl (lt_trans h1 h2)
      · exact Or.inl h1
    · rcases h2 with h2 | ⟨rfl, h2⟩
      · exact Or.inl h2
      · exact Or.inr ⟨rfl, ltNats_trans xs ys zs h1 h2⟩

theorem ltNats_total : ∀ (a b : List Nat), ltNats a b = false → a ≠ b → ltNats b a = true
  | [], [], _, h => absurd rfl h
  | [], _ :: _, h, _ => by simp [ltNats] at h
  | _ :: _, [], _, _ => by simp [ltNats]
  | x :: xs, y :: ys, h1, h2 => by
    simp only [ltNats, Bool.or_eq_false_iff, Bool.and_eq_false_imp, decide_eq_false_iff_not,
      beq_iff_eq, Bool.or_eq_true, Bool.and_eq_true, decide_eq_true_eq, not_lt] at *
    rcases Nat.lt_or_ge y x with hlt | hge
    · exact Or.inl hlt
    · have hxy : x = y := le_antisymm hge h1.1
      subst hxy
      refine Or.inr ⟨rfl, ltNats_total xs ys (h1.2 rfl) ?_⟩
      intro h; exact h2 (by rw [h])

theorem codes_injective (a b : String)
    (h : a.data.map Char.toNat = b.data.map Char.toNat) : a = b := by
  apply String.ext
  have hinj : Function.Injective Char.toNat := by
    intro x y hxy
    rw [← Char.ofNat_toNat x, ← Char.ofNat_toNat y, hxy]
  exact List.map_injective_iff.2 hinj h

theorem keyLt_irrefl (a : String) : keyLt a a = false := ltNats_irrefl _

theorem keyLt_trans {a b c : String} (h1 : keyLt a b = true) (h2 : keyLt b c = true) :
    keyLt a c = true := ltNats_trans _ _ _ h1 h2

theorem keyLt_total {a b : String} (h1 : keyLt a b = false) (h2 : a ≠ b) :
    keyLt b a = true :=
  ltNats_total _ _ h1 (fun h => h2 (codes_injective a b h))

theorem keyLt_asymm {a b : String} (h : keyLt a b = true) : keyLt b a = false := by
  cases hba : keyLt b a with
  | false => rfl
  | true => have := keyLt_trans h hba; rw [keyLt_irrefl] at this; cases this

theorem keyLt_ne {a b : String} (h : keyLt a b = true) : a ≠ b := by
  rintro rfl; rw [keyLt_irrefl] at h; cases h

theorem sortedKeys_iff (ks : List String) :
    sortedKeys ks = true ↔ ks.Pairwise (fun a b => keyLt a b = true) := by
  induction ks with
  | nil => simp [sortedKeys]
  | cons a ks ih =>
    cases ks with
    | nil => simp [sortedKeys]
    | cons b ks =>
      simp only [sortedKeys, Bool.and_eq_true, ih, List.pairwise_cons] at *
      constructor
      · rintro ⟨hab, hb, hks⟩
        refine ⟨?_, hb, hks⟩
        intro k hk
        rcases List.mem_cons.1 hk with rfl | hk
        · exact hab
        · exact keyLt_trans hab (hb k hk)
      · rintro ⟨ha, hb, hks⟩
        exact ⟨ha b (List.mem_cons_self _ _), hb, hks⟩

/-! ## Maps -/

theorem lookup_delete (o : JObj) (k k' : String) :
    JObj.lookup (JObj.delete o k) k' = if k' = k then none else JObj.lookup o k' := by
  induction o with
  | nil => simp [JObj.delete, JObj.lookup]
  | cons e o ih =>
    obtain ⟨k0, v0⟩ := e
    by_cases h0 : k0 = k
    · subst h0
      by_cases h1 : k' = k0
      · subst h1; simp [JObj.delete, JObj.lookup, ih]
      · have h1' : ¬ k0 = k' := fun h => h1 h.symm
        simp [JObj.delete, JObj.lookup, ih, h1, h1']
    · by_cases h1 : k0 = k'
      · subst h1; simp [JObj.delete, JObj.lookup, h0]
      · simp [JObj.delete, JObj.lookup, ih, h0, h1]

theorem lookup_store (o : JObj) (k : String) (v : JVal) (k' : String) :
    JObj.lookup (JObj.store o k v) k' = if k' = k then some v else JObj.lookup o k' := by
  induction o with
  | nil =>
    by_cases h : k = k'
    · subst h; simp [JObj.store, JObj.lookup]
    · have h' : ¬ k' = k := fun e => h e.symm
      simp [JObj.store, JObj.lookup, h, h']
  | cons e o ih =>
    obtain ⟨k0, v0⟩ := e
    by_cases hk : k' = k
    · subst hk
      by_cases h0 : k0 = k'
      · simp [JObj.store, JObj.lookup, h0]
      · by_cases hlt : keyLt k' k0 = true
        · simp [JObj.store, JObj.lookup, h0, hlt]
        · simp [JObj.store, JObj.lookup, h0, hlt, ih]
    · have hk' : ¬ k = k' := fun e => hk e.symm
      by_cases h0 : k0 = k
      · subst h0; simp [JObj.store, JObj.lookup, hk, hk']
      · by_cases hlt : keyLt k k0 = true
        · simp [JObj.store, JObj.lookup, h0, hlt, hk, hk']
        · simp [JObj.store, JObj.lookup, h0, hlt, ih, hk]

theorem lookup_store_self (o : JObj) (k : String) (v : JVal) :
    JObj.lookup (JObj.store o k v) k = some v := by
  simp [lookup_store]

theorem lookup_store_ne (o : JObj) (k : String) (v : JVal) (k' : String) (h : k' ≠ k) :
    JObj.lookup (JObj.store o k v) k' = JObj.lookup o k' := by
  simp [lookup_store, h]

theorem lookup_delete_self (o : JObj) (k : String) :
    JObj.lookup (JObj.delete o k) k = none := by
  simp [lookup_delete]

theorem lookup_delete_ne (o : JObj) (k k' : String) (h : k' ≠ k) :
    JObj.lookup (JObj.delete o k) k' = JObj.lookup o k' := by
  simp [lookup_delete, h]

theorem lookup_mem (o : JObj) (k : String) (v : JVal) (h : JObj.lookup o k = some v) :
    (k, v) ∈ o := by
  induction o with
  | nil => simp [JObj.lookup] at h
  | cons e o ih =>
    obtain ⟨k0, v0⟩ := e
    by_cases h0 : k0 = k
    · subst h0
      simp [JObj.lookup] at h
      subst h
      exact List.mem_cons_self _ _
    · simp [JObj.lookup, h0] at h
      exact List.mem_cons_of_mem _ (ih h)

theorem lookup_none_of_not_mem (o : JObj) (k : String) (h : k ∉ o.map Prod.fst) :
    JObj.lookup o k = none := by
  cases hl : JObj.lookup o k with
  | none => rfl
  | some v => exact absurd (List.mem_map_of_mem Prod.fst (lookup_mem o k v hl)) h

theorem mem_delete (o : JObj) (k : String) (e : String × JVal) (h : e ∈ JObj.delete o k) :
    e ∈ o := by
  induction o with
  | nil => simp [JObj.delete] at h
  | cons e0 o ih =>
    obtain ⟨k0, v0⟩ := e0
    by_cases h0 : k0 = k
    · simp [JObj.delete, h0] at h
      exact List.mem_cons_of_mem _ (ih (by simpa [h0] using h))
    · simp only [JObj.delete, h0, if_false, List.mem_cons] at h
      rcases h with h | h
      · exact h ▸ List.mem_cons_self _ _
      · exact List.mem_cons_of_mem _ (ih h)

theorem keys_delete_sublist (o : JObj) (k : String) :
    List.Sublist ((JObj.delete o k).map Prod.fst) (o.map Prod.fst) := by
  induction o with
  | nil => simp [JObj.delete]
  | cons e0 o ih =>
    obtain ⟨k0, v0⟩ := e0
    by_cases h0 : k0 = k
    · simp only [JObj.delete, h0, if_true, List.map_cons]
      exact List.Sublist.cons _ (by simpa [h0] using ih)
    · simp only [JObj.delete, h0, if_false, List.map_cons]
      exact List.Sublist.cons₂ _ ih

theorem mem_store (o : JObj) (k : String) (v : JVal) (e : String × JVal)
    (h : e ∈ JObj.store o k v) : e = (k, v) ∨ e ∈ o := by
  induction o with
  | nil =>
    simp only [JObj.store, List.mem_singleton] at h
    exact Or.inl h
  | cons e0 o ih =>
    obtain ⟨k0, v0⟩ := e0
    by_cases h0 : k0 = k
    · simp only [JObj.store, h0, if_true, List.mem_cons] at h
      rcases h with h | h
      · exact Or.inl h
      · exact Or.inr (List.mem_cons_of_mem _ h)
    · by_cases hlt : keyLt k k0 = true
      · rw [show JObj.store ((k0, v0) :: o) k v = (k, v) :: (k0, v0) :: o from by
          simp [JObj.store, h0, hlt]] at h
        simp only [List.mem_cons] at h
        rcases h with h | h | h
        · exact Or.inl h
        · exact Or.inr (h ▸ List.mem_cons_self _ _)
        · exact Or.inr (List.mem_cons_of_mem _ h)
      · rw [show JObj.store ((k0, v0) :: o) k v = (k0, v0) :: JObj.store o k v from by
          simp [JObj.store, h0, hlt]] at h
        rcases List.mem_cons.1 h with h | h
        · exact Or.inr (h ▸ List.mem_cons_self _ _)
        · rcases ih h with h | h
          · exact Or.inl h
          · exact Or.inr (List.mem_cons_of_mem _ h)

theorem sorted_store (o : JObj) (k : String) (v : JVal)
    (h : (o.map Prod.fst).Pairwise (fun a b => keyLt a b = true)) :
    ((JObj.store o k v).map Prod.fst).Pairwise (fun a b => keyLt a b = true) := by
  induction o with
  | nil => simp [JObj.store]
  | cons e0 o ih =>
    obtain ⟨k0, v0⟩ := e0
    simp only [List.map_cons, List.pairwise_cons] at h
    by_cases h0 : k0 = k
    · subst h0
      simp only [JObj.store, if_true, List.map_cons, List.pairwise_cons]
      exact h
    · by_cases hlt : keyLt k k0 = true
      · rw [show JObj.store ((k0, v0) :: o) k v = (k, v) :: (k0, v0) :: o from by
          simp [JObj.store, h0, hlt]]
        simp only [List.map_cons, List.pairwise_cons]
        refine ⟨?_, h⟩
        intro a ha
        rcases List.mem_cons.1 ha with rfl | ha
        · exact hlt
        · exact keyLt_trans hlt (h.1 a ha)
      · rw [show JObj.store ((k0, v0) :: o) k v = (k0, v0) :: JObj.store o k v from by
          simp [JObj.store, h0, hlt]]
        simp only [List.map_cons, List.pairwise_cons]
        refine ⟨?_, ih h.2⟩
        intro a ha
        obtain ⟨e, he, rfl⟩ := List.mem_map.1 ha
        rcases mem_store o k v e he with rfl | he
        · exact keyLt_total (by simpa using hlt) (fun e => h0 e.symm)
        · exact h.1 _ (List.mem_map_of_mem _ he)

theorem store_self (o : JObj) (k : String) (v : JVal)
    (hs : (o.map Prod.fst).Pairwise (fun a b => keyLt a b = true))
    (h : JObj.lookup o k = some v) : JObj.store o k v = o := by
  induction o with
  | nil => simp [JObj.lookup] at h
  | cons e0 o ih =>
    obtain ⟨k0, v0⟩ := e0
    simp only [List.map_cons, List.pairwise_cons] at hs
    by_cases h0 : k0 = k
    · subst h0
      simp [JObj.lookup] at h
      subst h
      simp [JObj.store]
    · simp only [JObj.lookup, h0, if_false] at h
      have hlt : keyLt k0 k = true := hs.1 k (List.mem_map_of_mem Prod.fst (lookup_mem o k v h))
      simp [JObj.store, h0, keyLt_asymm hlt, ih hs.2 h]

theorem wfFields_iff (kvs : List (String × JVal)) :
    JVal.wfFields kvs = true ↔ ∀ e ∈ kvs, e.2.wf = true := by
  induction kvs with
  | nil => simp [JVal.wfFields]
  | cons e kvs ih =>
    obtain ⟨k, v⟩ := e
    simp [JVal.wfFields, ih]

theorem wfList_iff (xs : List JVal) :
    JVal.wfList xs = true ↔ ∀ x ∈ xs, x.wf = true := by
  induction xs with
  | nil => simp [JVal.wfList]
  | cons x xs ih => simp [JVal.wfList, ih]

theorem wf_obj_iff (o : JObj) :
    JVal.wf (.obj o) = true ↔
      (o.map Prod.fst).Pairwise (fun a b => keyLt a b = true) ∧ ∀ e ∈ o, e.2.wf = true := by
  simp [JVal.wf, sortedKeys_iff, wfFields_iff]

theorem wf_arr_iff (xs : List JVal) :
    JVal.wf (.arr xs) = true ↔ ∀ x ∈ xs, x.wf = true := by
  simp [JVal.wf, wfList_iff]

theorem wf_lookup (o : JObj) (k : String) (v : JVal) (h : JVal.wf (.obj o) = true)
    (hl : JObj.lookup o k = some v) : v.wf = true :=
  ((wf_obj_iff o).1 h).2 _ (lookup_mem o k v hl)

theorem wf_delete (o : JObj) (k : String) (h : JVal.wf (.obj o) = true) :
    JVal.wf (.obj (JObj.delete o k)) = true := by
  rw [wf_obj_iff] at *
  exact ⟨h.1.sublist (keys_delete_sublist o k), fun e he => h.2 e (mem_delete o k e he)⟩

theorem wf_store (o : JObj) (k : String) (v : JVal) (h : JVal.wf (.obj o) = true)
    (hv : v.wf = true) : JVal.wf (.obj (JObj.store o k v)) = true := by
  rw [wf_obj_iff] at *
  refine ⟨sorted_store o k v h.1, fun e he => ?_⟩
  rcases mem_store o k v e he with rfl | he
  · exact hv
  · exact h.2 e he

theorem store_lookup_self (o : JObj) (k : String) (v : JVal) (h : JVal.wf (.obj o) = true)
    (hl : JObj.lookup o k = some v) : JObj.store o k v = o :=
  store_self o k v ((wf_obj_iff o).1 h).1 hl


/-! ## Depth -/

theorem depthFields_le_iff (o : JObj) (n : Nat) :
    JVal.depthFields o ≤ n ↔ ∀ e ∈ o, e.2.depth ≤ n := by
  induction o with
  | nil => simp [JVal.depthFields]
  | cons e o ih =>
    obtain ⟨k, v⟩ := e
    simp [JVal.depthFields, ih]

theorem depth_le_of_mem (o : JObj) (e : String × JVal) (h : e ∈ o) :
    e.2.depth ≤ JVal.depthFields o :=
  (depthFields_le_iff o _).1 (le_refl _) e h

theorem depth_lookup (o : JObj) (k : String) (v : JVal) (h : JObj.lookup o k = some v) :
    v.depth ≤ JVal.depthFields o :=
  depth_le_of_mem o (k, v) (lookup_mem o k v h)

theorem depthFields_delete (o : JObj) (k : String) :
    JVal.depthFields (JObj.delete o k) ≤ JVal.depthFields o := by
  rw [depthFields_le_iff]
  intro e he
  exact depth_le_of_mem o e (mem_delete o k e he)

theorem depthFields_store (o : JObj) (k : String) (v : JVal) (n : Nat)
    (ho : JVal.depthFields o ≤ n) (hv : v.depth ≤ n) :
    JVal.depthFields (JObj.store o k v) ≤ n := by
  rw [depthFields_le_iff]
  intro e he
  rcases mem_store o k v e he with rfl | he
  · exact hv
  · exact le_trans (depth_le_of_mem o e he) ho

theorem depth_obj (o : JObj) : JVal.depth (.obj o) = JVal.depthFields o + 1 := by
  simp [JVal.depth]

/-! ## cleanParameters: the loop over the unsupported fields -/

theorem removeField_lookup (st : Bool × JObj) (f k : String) :
    JObj.lookup (removeField st f).2 k = if k = f then none else JObj.lookup st.2 k := by
  unfold removeField
  cases h : JObj.lookup st.2 f with
  | none =>
    by_cases hk : k = f
    · subst hk; simp [h]
    · simp [hk]
  | some v => simp [lookup_delete]

theorem removeFields_lookup (fs : List String) :
    ∀ (st : Bool × JObj) (k : String),
      JObj.lookup (fs.foldl removeField st).2 k
        = if k ∈ fs then none else JObj.lookup st.2 k := by
  induction fs with
  | nil => intro st k; simp
  | cons f fs ih =>
    intro st k
    simp only [List.foldl_cons]
    rw [ih, removeField_lookup]
    by_cases h1 : k ∈ fs
    · simp [h1]
    · by_cases h2 : k = f
      · simp [h2]
      · simp [h1, h2]

theorem removeUnsupported_lookup (p : JObj) (k : String) :
    JObj.lookup (removeUnsupported p).2 k
      = if k ∈ unsupportedFields then none else JObj.lookup p k :=
  removeFields_lookup unsupportedFields (false, p) k

theorem removeField_wf (st : Bool × JObj) (f : String) (h : JVal.wf (.obj st.2) = true) :
    JVal.wf (.obj (removeField st f).2) = true := by
  unfold removeField
  cases JObj.lookup st.2 f with
  | none => exact h
  | some v => exact wf_delete _ _ h

theorem removeFields_wf (fs : List String) :
    ∀ st : Bool × JObj, JVal.wf (.obj st.2) = true →
      JVal.wf (.obj (fs.foldl removeField st).2) = true := by
  induction fs with
  | nil => intro st h; exact h
  | cons f fs ih => intro st h; exact ih _ (removeField_wf st f h)

theorem removeUnsupported_wf (p : JObj) (h : JVal.wf (.obj p) = true) :
    JVal.wf (.obj (removeUnsupported p).2) = true :=
  removeFields_wf unsupportedFields (false, p) h

theorem removeField_unmod (st : Bool × JObj) (f : String)
    (h : (removeField st f).1 = false) : st.1 = false ∧ (removeField st f).2 = st.2 := by
  unfold removeField at h ⊢
  cases hl : JObj.lookup st.2 f with
  | none => rw [hl] at h; exact ⟨h, rfl⟩
  | some v => rw [hl] at h; simp at h

theorem removeFields_unmod (fs : List String) :
    ∀ st : Bool × JObj, (fs.foldl removeField st).1 = false →
      st.1 = false ∧ (fs.foldl removeField st).2 = st.2 := by
  induction fs with
  | nil => intro st h; exact ⟨h, rfl⟩
  | cons f fs ih =>
    intro st h
    have h1 := ih _ h
    have h2 := removeField_unmod st f h1.1
    exact ⟨h2.1, h1.2.trans h2.2⟩

theorem removeUnsupported_unmod (p : JObj) (h : (removeUnsupported p).1 = false) :
    (removeUnsupported p).2 = p :=
  (removeFields_unmod unsupportedFields (false, p) h).2

theorem removeFields_fixed (fs : List String) :
    ∀ st : Bool × JObj, (∀ f ∈ fs, JObj.lookup st.2 f = none) →
      fs.foldl removeField st = st := by
  induction fs with
  | nil => intro st _; rfl
  | cons f fs ih =>
    intro st h
    have hf : removeField st f = st := by
      unfold removeField
      rw [h f (List.mem_cons_self _ _)]
    simp only [List.foldl_cons, hf]
    exact ih st (fun g hg => h g (List.mem_cons_of_mem _ hg))

theorem removeUnsupported_fixed (p : JObj) (h : NoUnsupported p) :
    removeUnsupported p = (false, p) :=
  removeFields_fixed unsupportedFields (false, p) h

theorem removeField_depth (st : Bool × JObj) (f : String) :
    JVal.depthFields (removeField st f).2 ≤ JVal.depthFields st.2 := by
  unfold removeField
  cases JObj.lookup st.2 f with
  | none => exact le_refl _
  | some v => exact depthFields_delete _ _

theorem removeFields_depth (fs : List String) :
    ∀ st : Bool × JObj,
      JVal.depthFields (fs.foldl removeField st).2 ≤ JVal.depthFields st.2 := by
  induction fs with
  | nil => intro st; exact le_refl _
  | cons f fs ih => intro st; exact le_trans (ih _) (removeField_depth st f)

theorem removeUnsupported_depth (p : JObj) :
    JVal.depthFields (removeUnsupported p).2 ≤ JVal.depthFields p :=
  removeFields_depth unsupportedFields (false, p)

/-! ## cleanParameters: the loop over the properties -/

theorem cleanProperties_cons_obj (clean : JObj → Option (Bool × JObj)) (name : String)
    (c c' : JObj) (m1 m2 : Bool) (rest rest' : List (String × JVal))
    (h1 : clean c = some (m1, c')) (h2 : cleanProperties clean rest = some (m2, rest')) :
    cleanProperties clean ((name, .obj c) :: rest)
      = some (m1 || m2, (name, .obj c') :: rest') := by
  simp [cleanProperties, h1, h2]

theorem cleanProperties_cons_other (clean : JObj → Option (Bool × JObj)) (name : String)
    (prop : JVal) (m2 : Bool) (rest rest' : List (String × JVal))
    (h1 : ∀ c, prop ≠ .obj c) (h2 : cleanProperties clean rest = some (m2, rest')) :
    cleanProperties clean ((name, prop) :: rest) = some (m2, (name, prop) :: rest') := by
  cases prop with
  | obj c => exact absurd rfl (h1 c)
  | _ => simp [cleanProperties, h2]

theorem cleanProperties_cons_inv (clean : JObj → Option (Bool × JObj)) (name : String)
    (prop : JVal) (rest : List (String × JVal)) (m : Bool) (props' : List (String × JVal))
    (h : cleanProperties clean ((name, prop) :: rest) = some (m, props')) :
    ∃ m2 rest', cleanProperties clean rest = some (m2, rest') ∧
      ((∃ c m1 c', prop = .obj c ∧ clean c = some (m1, c') ∧ m = (m1 || m2) ∧
          props' = (name, .obj c') :: rest') ∨
        ((∀ c, prop ≠ .obj c) ∧ m = m2 ∧ props' = (name, prop) :: rest')) := by
  cases hr : cleanProperties clean rest with
  | none =>
    cases prop with
    | obj c =>
      cases hc : clean c with
      | none => simp [cleanProperties, hc] at h
      | some r => simp [cleanProperties, hc, hr] at h
    | _ => simp [cleanProperties, hr] at h
  | some r2 =>
    obtain ⟨m2, rest'⟩ := r2
    refine ⟨m2, rest', rfl, ?_⟩
    cases prop with
    | obj c =>
      cases hc : clean c with
      | none => simp [cleanProperties, hc] at h
      | some r =>
        obtain ⟨m1, c'⟩ := r
        simp only [cleanProperties, hc, hr, Option.some.injEq, Prod.mk.injEq] at h
        exact Or.inl ⟨c, m1, c', rfl, hc, h.1.symm, h.2.symm⟩
    | _ =>
      simp only [cleanProperties, hr, Option.some.injEq, Prod.mk.injEq] at h
      exact Or.inr ⟨(by intro c hc; cases hc), h.1.symm, h.2.symm⟩


theorem cleanProperties_keys (clean : JObj → Option (Bool × JObj)) :
    ∀ (props : List (String × JVal)) (m : Bool) (props' : List (String × JVal)),
      cleanProperties clean props = some (m, props') →
      props'.map Prod.fst = props.map Prod.fst := by
  intro props
  induction props with
  | nil => intro m props' h; simp [cleanProperties] at h; simp [h.2]
  | cons e rest ih =>
    obtain ⟨name, prop⟩ := e
    intro m props' h
    obtain ⟨m2, rest', hr, hcase⟩ := cleanProperties_cons_inv clean name prop rest m props' h
    have := ih m2 rest' hr
    rcases hcase with ⟨c, m1, c', -, -, -, rfl⟩ | ⟨-, -, rfl⟩ <;> simp [this]

theorem cleanProperties_lookup_obj (clean : JObj → Option (Bool × JObj)) :
    ∀ (props : List (String × JVal)) (m : Bool) (props' : List (String × JVal)),
      cleanProperties clean props = some (m, props') →
      ∀ (name : String) (c' : JObj), JObj.lookup props' name = some (.obj c') →
        ∃ c m1, JObj.lookup props name = some (.obj c) ∧ clean c = some (m1, c') := by
  intro props
  induction props with
  | nil =>
    intro m props' h name c' hl
    simp [cleanProperties] at h
    rw [h.2] at hl
    simp [JObj.lookup] at hl
  | cons e rest ih =>
    obtain ⟨name0, prop⟩ := e
    intro m props' h name c' hl
    obtain ⟨m2, rest', hr, hcase⟩ := cleanProperties_cons_inv clean name0 prop rest m props' h
    by_cases hn : name0 = name
    · subst hn
      rcases hcase with ⟨c, m1, c1, rfl, hc, -, rfl⟩ | ⟨hno, -, rfl⟩
      · simp only [JObj.lookup, if_true, Option.some.injEq, JVal.obj.injEq] at hl
        subst hl
        exact ⟨c, m1, by simp [JObj.lookup], hc⟩
      · simp only [JObj.lookup, if_true, Option.some.injEq] at hl
        exact absurd hl (hno c')
    · have hl' : JObj.lookup rest' name = some (.obj c') := by
        rcases hcase with ⟨c, m1, c1, -, -, -, rfl⟩ | ⟨-, -, rfl⟩ <;>
          simpa [JObj.lookup, hn] using hl
      obtain ⟨c, m1, h1, h2⟩ := ih m2 rest' hr name c' hl'
      exact ⟨c, m1, by simpa [JObj.lookup, hn] using h1, h2⟩

theorem cleanProperties_wf (clean : JObj → Option (Bool × JObj))
    (hclean : ∀ c r, clean c = some r → JVal.wf (.obj c) = true → JVal.wf (.obj r.2) = true) :
    ∀ (props : List (String × JVal)) (m : Bool) (props' : List (String × JVal)),
      cleanProperties clean props = some (m, props') →
      (∀ e ∈ props, e.2.wf = true) → ∀ e ∈ props', e.2.wf = true := by
  intro props
  induction props with
  | nil =>
    intro m props' h _ e he
    simp [cleanProperties] at h
    rw [h.2] at he
    cases he
  | cons e0 rest ih =>
    obtain ⟨name0, prop⟩ := e0
    intro m props' h hwf e he
    obtain ⟨m2, rest', hr, hcase⟩ := cleanProperties_cons_inv clean name0 prop rest m props' h
    have hrest := ih m2 rest' hr (fun e he => hwf e (List.mem_cons_of_mem _ he))
    have h0 := hwf _ (List.mem_cons_self _ _)
    rcases hcase with ⟨c, m1, c1, rfl, hc, -, rfl⟩ | ⟨-, -, rfl⟩
    · rcases List.mem_cons.1 he with rfl | he
      · exact hclean c (m1, c1) hc h0
      · exact hrest e he
    · rcases List.mem_cons.1 he with rfl | he
      · exact h0
      · exact hrest e he

theorem cleanProperties_unmod (clean : JObj → Option (Bool × JObj))
    (hclean : ∀ c r, clean c = some r → JVal.wf (.obj c) = true → r.1 = false → r.2 = c) :
    ∀ (props : List (String × JVal)) (props' : List (String × JVal)),
      cleanProperties clean props = some (false, props') →
      (∀ e ∈ props, e.2.wf = true) → props' = props := by
  intro props
  induction props with
  | nil => intro props' h _; simp [cleanProperties] at h; exact h
  | cons e0 rest ih =>
    obtain ⟨name0, prop⟩ := e0
    intro props' h hwf
    obtain ⟨m2, rest', hr, hcase⟩ :=
      cleanProperties_cons_inv clean name0 prop rest false props' h
    have h0 := hwf _ (List.mem_cons_self _ _)
    rcases hcase with ⟨c, m1, c1, rfl, hc, hm, rfl⟩ | ⟨-, hm, rfl⟩
    · have hm' : m1 = false ∧ m2 = false := by
        cases m1 <;> cases m2 <;> simp at hm
        exact ⟨rfl, rfl⟩
      obtain ⟨rfl, rfl⟩ := hm'
      rw [ih rest' hr (fun e he => hwf e (List.mem_cons_of_mem _ he))]
      have := hclean c (false, c1) hc h0 rfl
      simp only at this
      rw [this]
    · subst hm
      rw [ih rest' hr (fun e he => hwf e (List.mem_cons_of_mem _ he))]

theorem cleanProperties_flag (clean : JObj → Option (Bool × JObj)) :
    ∀ (props : List (String × JVal)) (props' : List (String × JVal)),
      cleanProperties clean props = some (false, props') →
      ∀ name c r, (name, JVal.obj c) ∈ props → clean c = some r → r.1 = false := by
  intro props
  induction props with
  | nil => intro props' _ name c r hmem; cases hmem
  | cons e0 rest ih =>
    obtain ⟨name0, prop⟩ := e0
    intro props' h name c r hmem hc
    obtain ⟨m2, rest', hr, hcase⟩ :=
      cleanProperties_cons_inv clean name0 prop rest false props' h
    rcases hcase with ⟨c0, m1, c1, rfl, hc0, hm, rfl⟩ | ⟨hno, hm, rfl⟩
    · have hm' : m1 = false ∧ m2 = false := by
        cases m1 <;> cases m2 <;> simp at hm
        exact ⟨rfl, rfl⟩
      obtain ⟨rfl, rfl⟩ := hm'
      rcases List.mem_cons.1 hmem with heq | hmem
      · simp only [Prod.mk.injEq, JVal.obj.injEq] at heq
        obtain ⟨-, rfl⟩ := heq
        rw [hc0] at hc
        cases hc
        rfl
      · exact ih rest' hr name c r hmem hc
    · subst hm
      rcases List.mem_cons.1 hmem with heq | hmem
      · simp only [Prod.mk.injEq] at heq
        exact absurd heq.2.symm (hno c)
      · exact ih rest' hr name c r hmem hc

theorem cleanProperties_fixed (clean : JObj → Option (Bool × JObj)) :
    ∀ (props : List (String × JVal)) (m : Bool) (props' : List (String × JVal)),
      cleanProperties clean props = some (m, props') →
      (∀ name c r, (name, JVal.obj c) ∈ props → clean c = some r → r = (false, c)) →
      m = false ∧ props' = props := by
  intro props
  induction props with
  | nil => intro m props' h _; simp [cleanProperties] at h; exact h
  | cons e0 rest ih =>
    obtain ⟨name0, prop⟩ := e0
    intro m props' h hfix
    obtain ⟨m2, rest', hr, hcase⟩ := cleanProperties_cons_inv clean name0 prop rest m props' h
    obtain ⟨rfl, rfl⟩ := ih m2 rest' hr
      (fun name c r hmem => hfix name c r (List.mem_cons_of_mem _ hmem))
    rcases hcase with ⟨c, m1, c1, rfl, hc, hm, rfl⟩ | ⟨-, hm, rfl⟩
    · have := hfix name0 c (m1, c1) (List.mem_cons_self _ _) hc
      simp only [Prod.mk.injEq] at this
      obtain ⟨rfl, rfl⟩ := this
      exact ⟨by simpa using hm, rfl⟩
    · exact ⟨hm, rfl⟩

theorem cleanProperties_depth (clean : JObj → Option (Bool × JObj))
    (hclean : ∀ c r, clean c = some r → JVal.depthFields r.2 ≤ JVal.depthFields c) :
    ∀ (props : List (String × JVal)) (m : Bool) (props' : List (String × JVal)),
      cleanProperties clean props = some (m, props') →
      JVal.depthFields props' ≤ JVal.depthFields props := by
  intro props
  induction props with
  | nil => intro m props' h; simp [cleanProperties] at h; simp [h.2]
  | cons e0 rest ih =>
    obtain ⟨name0, prop⟩ := e0
    intro m props' h
    obtain ⟨m2, rest', hr, hcase⟩ := cleanProperties_cons_inv clean name0 prop rest m props' h
    have hrest := ih m2 rest' hr
    rcases hcase with ⟨c, m1, c1, rfl, hc, -, rfl⟩ | ⟨-, -, rfl⟩
    · have := hclean c (m1, c1) hc
      simp only [JVal.depthFields, JVal.depth] at *
      omega
    · simp only [JVal.depthFields] at *
      omega

theorem cleanProperties_total (clean : JObj → Option (Bool × JObj)) :
    ∀ (props : List (String × JVal)),
      (∀ name c, (name, JVal.obj c) ∈ props → ∃ r, clean c = some r) →
      ∃ r, cleanProperties clean props = some r := by
  intro props
  induction props with
  | nil => intro _; exact ⟨_, rfl⟩
  | cons e0 rest ih =>
    obtain ⟨name0, prop⟩ := e0
    intro h
    obtain ⟨⟨m2, rest'⟩, hr⟩ := ih (fun name c hmem => h name c (List.mem_cons_of_mem _ hmem))
    cases prop with
    | obj c =>
      obtain ⟨⟨m1, c1⟩, hc⟩ := h name0 c (List.mem_cons_self _ _)
      exact ⟨_, cleanProperties_cons_obj clean name0 c c1 m1 m2 rest rest' hc hr⟩
    | _ =>
      exact ⟨_, cleanProperties_cons_other clean name0 _ m2 rest rest'
        (by intro c hc; cases hc) hr⟩

theorem cleanProperties_mono (clean clean' : JObj → Option (Bool × JObj))
    (hmono : ∀ c r, clean c = some r → clean' c = some r) :
    ∀ (props : List (String × JVal)) (r : Bool × List (String × JVal)),
      cleanProperties clean props = some r → cleanProperties clean' props = some r := by
  intro props
  induction props with
  | nil => intro r h; simpa [cleanProperties] using h
  | cons e0 rest ih =>
    obtain ⟨name0, prop⟩ := e0
    rintro ⟨m, props'⟩ h
    obtain ⟨m2, rest', hr, hcase⟩ := cleanProperties_cons_inv clean name0 prop rest m props' h
    have hr' := ih _ hr
    rcases hcase with ⟨c, m1, c1, rfl, hc, rfl, rfl⟩ | ⟨hno, rfl, rfl⟩
    · exact cleanProperties_cons_obj clean' name0 c c1 m1 m2 rest rest' (hmono _ _ hc) hr'
    · exact cleanProperties_cons_other clean' name0 prop m rest rest' hno hr'


/-! ## cleanParameters: the three recursive blocks -/

theorem cleanBlockProperties_inv (clean : JObj → Option (Bool × JObj)) (st st' : Bool × JObj)
    (h : cleanBlockProperties clean st = some st') :
    (st' = st ∧ ∀ props, JObj.lookup st.2 "properties" ≠ some (.obj props)) ∨
    ∃ props m props', JObj.lookup st.2 "properties" = some (.obj props) ∧
      cleanProperties clean props = some (m, props') ∧
      st' = (st.1 || m, JObj.store st.2 "properties" (.obj props')) := by
  unfold cleanBlockProperties at h
  cases hl : JObj.lookup st.2 "properties" with
  | none => rw [hl] at h; simp at h; exact Or.inl ⟨h.symm, by simp⟩
  | some v =>
    cases v with
    | obj props =>
      rw [hl] at h
      cases hc : cleanProperties clean props with
      | none => simp [hc] at h
      | some r =>
        obtain ⟨m, props'⟩ := r
        simp only [hc, Option.some.injEq] at h
        exact Or.inr ⟨props, m, props', rfl, hc, h.symm⟩
    | _ => rw [hl] at h; simp at h; exact Or.inl ⟨h.symm, by simp⟩

theorem cleanBlockItems_inv (clean : JObj → Option (Bool × JObj)) (st st' : Bool × JObj)
    (h : cleanBlockItems clean st = some st') :
    (st' = st ∧ ∀ it, JObj.lookup st.2 "items" ≠ some (.obj it)) ∨
    ∃ it mi it', JObj.lookup st.2 "items" = some (.obj it) ∧
      clean it = some (mi, it') ∧
      st' = (st.1 || mi, JObj.store st.2 "items" (.obj it')) := by
  unfold cleanBlockItems at h
  cases hl : JObj.lookup st.2 "items" with
  | none => rw [hl] at h; simp at h; exact Or.inl ⟨h.symm, by simp⟩
  | some v =>
    cases v with
    | obj it =>
      rw [hl] at h
      cases hc : clean it with
      | none => simp [hc] at h
      | some r =>
        obtain ⟨mi, it'⟩ := r
        simp only [hc, Option.some.injEq] at h
        exact Or.inr ⟨it, mi, it', rfl, hc, h.symm⟩
    | _ => rw [hl] at h; simp at h; exact Or.inl ⟨h.symm, by simp⟩

theorem cleanBlockItemsProperties_inv (clean : JObj → Option (Bool × JObj))
    (st st' : Bool × JObj) (h : cleanBlockItemsProperties clean st = some st') :
    (st' = st ∧ ∀ it props, JObj.lookup st.2 "items" = some (.obj it) →
        JObj.lookup it "properties" ≠ some (.obj props)) ∨
    ∃ it props m props', JObj.lookup st.2 "items" = some (.obj it) ∧
      JObj.lookup it "properties" = some (.obj props) ∧
      cleanProperties clean props = some (m, props') ∧
      st' = (st.1 || m,
        JObj.store st.2 "items" (.obj (JObj.store it "properties" (.obj props')))) := by
  unfold cleanBlockItemsProperties at h
  cases hl : JObj.lookup st.2 "items" with
  | none => rw [hl] at h; simp at h; exact Or.inl ⟨h.symm, by simp⟩
  | some v =>
    cases v with
    | obj it =>
      rw [hl] at h
      simp only at h
      cases hp : JObj.lookup it "properties" with
      | none =>
        rw [hp] at h; simp at h
        refine Or.inl ⟨h.symm, ?_⟩
        intro it2 props hit
        cases hit
        simp [hp]
      | some w =>
        cases w with
        | obj props =>
          rw [hp] at h
          cases hc : cleanProperties clean props with
          | none => simp [hc] at h
          | some r =>
            obtain ⟨m, props'⟩ := r
            simp only [hc, Option.some.injEq] at h
            exact Or.inr ⟨it, props, m, props', rfl, hp, hc, h.symm⟩
        | _ =>
          rw [hp] at h; simp at h
          refine Or.inl ⟨h.symm, ?_⟩
          intro it2 props hit
          cases hit
          simp [hp]
    | _ => rw [hl] at h; simp at h; exact Or.inl ⟨h.symm, by simp⟩

theorem cleanParametersFuel_succ_inv (n : Nat) (p : JObj) (r : Bool × JObj)
    (h : cleanParametersFuel (n + 1) p = some r) :
    ∃ st1 st2,
      cleanBlockProperties (cleanParametersFuel n) (removeUnsupported p) = some st1 ∧
      cleanBlockItems (cleanParametersFuel n) st1 = some st2 ∧
      cleanBlockItemsProperties (cleanParametersFuel n) st2 = some r := by
  simp only [cleanParametersFuel] at h
  cases h1 : cleanBlockProperties (cleanParametersFuel n) (removeUnsupported p) with
  | none => simp [h1] at h
  | some st1 =>
    cases h2 : cleanBlockItems (cleanParametersFuel n) st1 with
    | none => simp [h1, h2] at h
    | some st2 =>
      simp only [h1, h2] at h
      exact ⟨st1, st2, rfl, h2, h⟩


theorem mem_lookup_sorted (o : JObj) (k : String) (v : JVal)
    (hs : (o.map Prod.fst).Pairwise (fun a b => keyLt a b = true)) (h : (k, v) ∈ o) :
    JObj.lookup o k = some v := by
  induction o with
  | nil => cases h
  | cons e0 o ih =>
    obtain ⟨k0, v0⟩ := e0
    simp only [List.map_cons, List.pairwise_cons] at hs
    rcases List.mem_cons.1 h with heq | hmem
    · cases heq; simp [JObj.lookup]
    · have hne : k0 ≠ k := keyLt_ne (hs.1 k (List.mem_map_of_mem Prod.fst hmem))
      simp [JObj.lookup, hne, ih hs.2 hmem]

theorem wf_props_of_keys (props props' : List (String × JVal))
    (hk : props'.map Prod.fst = props.map Prod.fst) (h : JVal.wf (.obj props) = true)
    (hv : ∀ e ∈ props', e.2.wf = true) : JVal.wf (.obj props') = true := by
  rw [wf_obj_iff] at *
  exact ⟨hk ▸ h.1, hv⟩

/-! ### Canonical form is kept -/

theorem cleanBlockProperties_wf (clean : JObj → Option (Bool × JObj))
    (hclean : ∀ c r, clean c = some r → JVal.wf (.obj c) = true → JVal.wf (.obj r.2) = true)
    (st st' : Bool × JObj) (h : cleanBlockProperties clean st = some st')
    (hwf : JVal.wf (.obj st.2) = true) : JVal.wf (.obj st'.2) = true := by
  rcases cleanBlockProperties_inv clean st st' h with ⟨rfl, -⟩ | ⟨props, m, props', hl, hc, rfl⟩
  · exact hwf
  · have hp := wf_lookup _ _ _ hwf hl
    exact wf_store _ _ _ hwf (wf_props_of_keys props props'
      (cleanProperties_keys clean props m props' hc) hp
      (cleanProperties_wf clean hclean props m props' hc ((wf_obj_iff props).1 hp).2))

theorem cleanBlockItems_wf (clean : JObj → Option (Bool × JObj))
    (hclean : ∀ c r, clean c = some r → JVal.wf (.obj c) = true → JVal.wf (.obj r.2) = true)
    (st st' : Bool × JObj) (h : cleanBlockItems clean st = some st')
    (hwf : JVal.wf (.obj st.2) = true) : JVal.wf (.obj st'.2) = true := by
  rcases cleanBlockItems_inv clean st st' h with ⟨rfl, -⟩ | ⟨it, mi, it', hl, hc, rfl⟩
  · exact hwf
  · exact wf_store _ _ _ hwf (hclean it (mi, it') hc (wf_lookup _ _ _ hwf hl))

theorem cleanBlockItemsProperties_wf (clean : JObj → Option (Bool × JObj))
    (hclean : ∀ c r, clean c = some r → JVal.wf (.obj c) = true → JVal.wf (.obj r.2) = true)
    (st st' : Bool × JObj) (h : cleanBlockItemsProperties clean st = some st')
    (hwf : JVal.wf (.obj st.2) = true) : JVal.wf (.obj st'.2) = true := by
  rcases cleanBlockItemsProperties_inv clean st st' h with
    ⟨rfl, -⟩ | ⟨it, props, m, props', hl, hp, hc, rfl⟩
  · exact hwf
  · have hit := wf_lookup _ _ _ hwf hl
    have hprops := wf_lookup _ _ _ hit hp
    exact wf_store _ _ _ hwf (wf_store _ _ _ hit (wf_props_of_keys props props'
      (cleanProperties_keys clean props m props' hc) hprops
      (cleanProperties_wf clean hclean props m props' hc ((wf_obj_iff props).1 hprops).2)))

theorem cleanParametersFuel_wf :
    ∀ (n : Nat) (p : JObj) (r : Bool × JObj), cleanParametersFuel n p = some r →
      JVal.wf (.obj p) = true → JVal.wf (.obj r.2) = true := by
  intro n
  induction n with
  | zero => intro p r h; simp [cleanParametersFuel] at h
  | succ n ih =>
    intro p r h hwf
    obtain ⟨st1, st2, h1, h2, h3⟩ := cleanParametersFuel_succ_inv n p r h
    exact cleanBlockItemsProperties_wf _ ih st2 r h3
      (cleanBlockItems_wf _ ih st1 st2 h2
        (cleanBlockProperties_wf _ ih _ st1 h1 (removeUnsupported_wf p hwf)))

/-! ### Depth does not grow, and enough fuel gives a result -/

theorem cleanBlockProperties_depth (clean : JObj → Option (Bool × JObj))
    (hclean : ∀ c r, clean c = some r → JVal.depthFields r.2 ≤ JVal.depthFields c)
    (st st' : Bool × JObj) (h : cleanBlockProperties clean st = some st') :
    JVal.depthFields st'.2 ≤ JVal.depthFields st.2 := by
  rcases cleanBlockProperties_inv clean st st' h with ⟨rfl, -⟩ | ⟨props, m, props', hl, hc, rfl⟩
  · exact le_refl _
  · refine depthFields_store _ _ _ _ (le_refl _) ?_
    have h1 := depth_lookup _ _ _ hl
    have h2 := cleanProperties_depth clean hclean props m props' hc
    simp only [JVal.depth] at *
    omega

theorem cleanBlockItems_depth (clean : JObj → Option (Bool × JObj))
    (hclean : ∀ c r, clean c = some r → JVal.depthFields r.2 ≤ JVal.depthFields c)
    (st st' : Bool × JObj) (h : cleanBlockItems clean st = some st') :
    JVal.depthFields st'.2 ≤ JVal.depthFields st.2 := by
  rcases cleanBlockItems_inv clean st st' h with ⟨rfl, -⟩ | ⟨it, mi, it', hl, hc, rfl⟩
  · exact le_refl _
  · refine depthFields_store _ _ _ _ (le_refl _) ?_
    have h1 := depth_lookup _ _ _ hl
    have h2 := hclean it (mi, it') hc
    simp only [JVal.depth] at *
    omega

theorem cleanBlockItemsProperties_depth (clean : JObj → Option (Bool × JObj))
    (hclean : ∀ c r, clean c = some r → JVal.depthFields r.2 ≤ JVal.depthFields c)
    (st st' : Bool × JObj) (h : cleanBlockItemsProperties clean st = some st') :
    JVal.depthFields st'.2 ≤ JVal.depthFields st.2 := by
  rcases cleanBlockItemsProperties_inv clean st st' h with
    ⟨rfl, -⟩ | ⟨it, props, m, props', hl, hp, hc, rfl⟩
  · exact le_refl _
  · refine depthFields_store _ _ _ _ (le_refl _) ?_
    have h1 := depth_lookup _ _ _ hl
    have h2 := depth_lookup _ _ _ hp
    have h3 := cleanProperties_depth clean hclean props m props' hc
    have h4 : JVal.depthFields (JObj.store it "properties" (.obj props'))
        ≤ JVal.depthFields it := by
      refine depthFields_store _ _ _ _ (le_refl _) ?_
      simp only [JVal.depth] at *
      omega
    simp only [JVal.depth] at *
    omega

theorem cleanParametersFuel_depth :
    ∀ (n : Nat) (p : JObj) (r : Bool × JObj), cleanParametersFuel n p = some r →
      JVal.depthFields r.2 ≤ JVal.depthFields p := by
  intro n
  induction n with
  | zero => intro p r h; simp [cleanParametersFuel] at h
  | succ n ih =>
    intro p r h
    obtain ⟨st1, st2, h1, h2, h3⟩ := cleanParametersFuel_succ_inv n p r h
    exact le_trans (cleanBlockItemsProperties_depth _ ih st2 r h3)
      (le_trans (cleanBlockItems_depth _ ih st1 st2 h2)
        (le_trans (cleanBlockProperties_depth _ ih _ st1 h1) (removeUnsupported_depth p)))

theorem cleanBlockProperties_total (clean : JObj → Option (Bool × JObj)) (N : Nat)
    (hclean : ∀ c, JVal.depthFields c < N → ∃ r, clean c = some r)
    (st : Bool × JObj) (hd : JVal.depthFields st.2 ≤ N) :
    ∃ st', cleanBlockProperties clean st = some st' := by
  unfold cleanBlockProperties
  cases hl : JObj.lookup st.2 "properties" with
  | none => exact ⟨_, rfl⟩
  | some v =>
    cases v with
    | obj props =>
      have h1 := depth_lookup _ _ _ hl
      obtain ⟨⟨m, props'⟩, hc⟩ := cleanProperties_total clean props (by
        intro name c hmem
        have h2 := depth_le_of_mem props _ hmem
        simp only [JVal.depth] at *
        exact hclean c (by omega))
      simp [hc]
    | _ => exact ⟨_, rfl⟩

theorem cleanBlockItems_total (clean : JObj → Option (Bool × JObj)) (N : Nat)
    (hclean : ∀ c, JVal.depthFields c < N → ∃ r, clean c = some r)
    (st : Bool × JObj) (hd : JVal.depthFields st.2 ≤ N) :
    ∃ st', cleanBlockItems clean st = some st' := by
  unfold cleanBlockItems
  cases hl : JObj.lookup st.2 "items" with
  | none => exact ⟨_, rfl⟩
  | some v =>
    cases v with
    | obj it =>
      have h1 := depth_lookup _ _ _ hl
      obtain ⟨⟨mi, it'⟩, hc⟩ := hclean it (by simp only [JVal.depth] at *; omega)
      simp [hc]
    | _ => exact ⟨_, rfl⟩

theorem cleanBlockItemsProperties_total (clean : JObj → Option (Bool × JObj)) (N : Nat)
    (hclean : ∀ c, JVal.depthFields c < N → ∃ r, clean c = some r)
    (st : Bool × JObj) (hd : JVal.depthFields st.2 ≤ N) :
    ∃ st', cleanBlockItemsProperties clean st = some st' := by
  unfold cleanBlockItemsProperties
  cases hl : JObj.lookup st.2 "items" with
  | none => exact ⟨_, rfl⟩
  | some v =>
    cases v with
    | obj it =>
      have h1 := depth_lookup _ _ _ hl
      dsimp only
      cases hp : JObj.lookup it "properties" with
      | none => exact ⟨_, rfl⟩
      | some w =>
        cases w with
        | obj props =>
          have h2 := depth_lookup _ _ _ hp
          obtain ⟨⟨m, props'⟩, hc⟩ := cleanProperties_total clean props (by
            intro name c hmem
            have h3 := depth_le_of_mem props _ hmem
            simp only [JVal.depth] at *
            exact hclean c (by omega))
          simp [hc]
        | _ => exact ⟨_, rfl⟩
    | _ => exact ⟨_, rfl⟩

/-- With a bound above the depth of `params`, the recursion of `cleanParameters` never reaches
the bound. -/
theorem cleanParametersFuel_total :
    ∀ (n : Nat) (p : JObj), JVal.depthFields p < n → ∃ r, cleanParametersFuel n p = some r := by
  intro n
  induction n with
  | zero => intro p h; omega
  | succ n ih =>
    intro p hp
    have h0 : JVal.depthFields (removeUnsupported p).2 ≤ n :=
      le_trans (removeUnsupported_depth p) (by omega)
    obtain ⟨st1, h1⟩ := cleanBlockProperties_total _ n ih (removeUnsupported p) h0
    have hd1 := le_trans (cleanBlockProperties_depth _ (cleanParametersFuel_depth n) _ st1 h1) h0
    obtain ⟨st2, h2⟩ := cleanBlockItems_total _ n ih st1 hd1
    have hd2 := le_trans (cleanBlockItems_depth _ (cleanParametersFuel_depth n) _ st2 h2) hd1
    obtain ⟨st3, h3⟩ := cleanBlockItemsProperties_total _ n ih st2 hd2
    exact ⟨st3, by simp [cleanParametersFuel, h1, h2, h3]⟩

theorem cleanParameters_eq (p : JObj) :
    cleanParametersFuel (JVal.depth (.obj p) + 1) p = some (cleanParameters p) := by
  obtain ⟨r, hr⟩ := cleanParametersFuel_total (JVal.depth (.obj p) + 1) p
    (by simp only [JVal.depth]; omega)
  simp [cleanParameters, hr]


/-! ### A call that reports no modification leaves the schema as it was -/

theorem or_false_split {a b : Bool} (h : (a || b) = false) : a = false ∧ b = false := by
  cases a <;> cases b <;> simp at h
  exact ⟨rfl, rfl⟩

theorem cleanBlockProperties_unmod (clean : JObj → Option (Bool × JObj))
    (hclean : ∀ c r, clean c = some r → JVal.wf (.obj c) = true → r.1 = false → r.2 = c)
    (st st' : Bool × JObj) (h : cleanBlockProperties clean st = some st')
    (hwf : JVal.wf (.obj st.2) = true) (hm : st'.1 = false) :
    st.1 = false ∧ st'.2 = st.2 := by
  rcases cleanBlockProperties_inv clean st st' h with ⟨rfl, -⟩ | ⟨props, m, props', hl, hc, rfl⟩
  · exact ⟨hm, rfl⟩
  · obtain ⟨h1, rfl⟩ := or_false_split hm
    refine ⟨h1, ?_⟩
    have hp := wf_lookup _ _ _ hwf hl
    rw [cleanProperties_unmod clean hclean props props' hc ((wf_obj_iff props).1 hp).2]
    exact store_lookup_self _ _ _ hwf hl

theorem cleanBlockItems_unmod (clean : JObj → Option (Bool × JObj))
    (hclean : ∀ c r, clean c = some r → JVal.wf (.obj c) = true → r.1 = false → r.2 = c)
    (st st' : Bool × JObj) (h : cleanBlockItems clean st = some st')
    (hwf : JVal.wf (.obj st.2) = true) (hm : st'.1 = false) :
    st.1 = false ∧ st'.2 = st.2 := by
  rcases cleanBlockItems_inv clean st st' h with ⟨rfl, -⟩ | ⟨it, mi, it', hl, hc, rfl⟩
  · exact ⟨hm, rfl⟩
  · obtain ⟨h1, rfl⟩ := or_false_split hm
    refine ⟨h1, ?_⟩
    have := hclean it (false, it') hc (wf_lookup _ _ _ hwf hl) rfl
    simp only at this
    rw [this]
    exact store_lookup_self _ _ _ hwf hl

theorem cleanBlockItemsProperties_unmod (clean : JObj → Option (Bool × JObj))
    (hclean : ∀ c r, clean c = some r → JVal.wf (.obj c) = true → r.1 = false → r.2 = c)
    (st st' : Bool × JObj) (h : cleanBlockItemsProperties clean st = some st')
    (hwf : JVal.wf (.obj st.2) = true) (hm : st'.1 = false) :
    st.1 = false ∧ st'.2 = st.2 := by
  rcases cleanBlockItemsProperties_inv clean st st' h with
    ⟨rfl, -⟩ | ⟨it, props, m, props', hl, hp, hc, rfl⟩
  · exact ⟨hm, rfl⟩
  · obtain ⟨h1, rfl⟩ := or_false_split hm
    refine ⟨h1, ?_⟩
    have hit := wf_lookup _ _ _ hwf hl
    have hprops := wf_lookup _ _ _ hit hp
    rw [cleanProperties_unmod clean hclean props props' hc ((wf_obj_iff props).1 hprops).2]
    show JObj.store st.2 "items" (.obj (JObj.store it "properties" (.obj props))) = st.2
    rw [store_lookup_self _ _ _ hit hp]
    exact store_lookup_self _ _ _ hwf hl

/-- When `cleanParameters` reports no modification the schema is as it was. -/
theorem cleanParametersFuel_unmod :
    ∀ (n : Nat) (p : JObj) (r : Bool × JObj), cleanParametersFuel n p = some r →
      JVal.wf (.obj p) = true → r.1 = false → r.2 = p := by
  intro n
  induction n with
  | zero => intro p r h; simp [cleanParametersFuel] at h
  | succ n ih =>
    intro p r h hwf hm
    obtain ⟨st1, st2, h1, h2, h3⟩ := cleanParametersFuel_succ_inv n p r h
    have w0 := removeUnsupported_wf p hwf
    have w1 := cleanBlockProperties_wf _ (cleanParametersFuel_wf n) _ st1 h1 w0
    have w2 := cleanBlockItems_wf _ (cleanParametersFuel_wf n) st1 st2 h2 w1
    obtain ⟨m2, e3⟩ := cleanBlockItemsProperties_unmod _ ih st2 r h3 w2 hm
    obtain ⟨m1, e2⟩ := cleanBlockItems_unmod _ ih st1 st2 h2 w1 m2
    obtain ⟨m0, e1⟩ := cleanBlockProperties_unmod _ ih _ st1 h1 w0 m1
    rw [e3, e2, e1]
    exact removeUnsupported_unmod p m0

/-! ### What the result of a call looks like -/

theorem schemaClean_noUnsupported {p : JObj} (h : SchemaClean p) : NoUnsupported p :=
  h p (.here p)

theorem schemaClean_property {p props c : JObj} {name : String} (h : SchemaClean p)
    (h1 : JObj.lookup p "properties" = some (.obj props))
    (h2 : JObj.lookup props name = some (.obj c)) : SchemaClean c :=
  fun q hq => h q (.property h1 h2 hq)

theorem schemaClean_items {p it : JObj} (h : SchemaClean p)
    (h1 : JObj.lookup p "items" = some (.obj it)) : SchemaClean it :=
  fun q hq => h q (.items h1 hq)

theorem schemaClean_intro {p : JObj} (h0 : NoUnsupported p)
    (h1 : ∀ props name c, JObj.lookup p "properties" = some (.obj props) →
      JObj.lookup props name = some (.obj c) → SchemaClean c)
    (h2 : ∀ it, JObj.lookup p "items" = some (.obj it) → SchemaClean it) : SchemaClean p := by
  intro q hq
  cases hq with
  | here => exact h0
  | property hp hc hr => exact h1 _ _ _ hp hc q hr
  | items hi hr => exact h2 _ hi q hr

theorem unsupported_ne_properties {f : String} (h : f ∈ unsupportedFields) :
    f ≠ "properties" := by
  rintro rfl; revert h; decide

theorem unsupported_ne_items {f : String} (h : f ∈ unsupportedFields) : f ≠ "items" := by
  rintro rfl; revert h; decide

theorem cleanBlockProperties_lookup_ne (clean : JObj → Option (Bool × JObj))
    (st st' : Bool × JObj) (h : cleanBlockProperties clean st = some st') (k : String)
    (hk : k ≠ "properties") : JObj.lookup st'.2 k = JObj.lookup st.2 k := by
  rcases cleanBlockProperties_inv clean st st' h with ⟨rfl, -⟩ | ⟨props, m, props', -, -, rfl⟩
  · rfl
  · exact lookup_store_ne _ _ _ _ hk

theorem cleanBlockItems_lookup_ne (clean : JObj → Option (Bool × JObj))
    (st st' : Bool × JObj) (h : cleanBlockItems clean st = some st') (k : String)
    (hk : k ≠ "items") : JObj.lookup st'.2 k = JObj.lookup st.2 k := by
  rcases cleanBlockItems_inv clean st st' h with ⟨rfl, -⟩ | ⟨it, mi, it', -, -, rfl⟩
  · rfl
  · exact lookup_store_ne _ _ _ _ hk

theorem cleanBlockItemsProperties_lookup_ne (clean : JObj → Option (Bool × JObj))
    (st st' : Bool × JObj) (h : cleanBlockItemsProperties clean st = some st') (k : String)
    (hk : k ≠ "items") : JObj.lookup st'.2 k = JObj.lookup st.2 k := by
  rcases cleanBlockItemsProperties_inv clean st st' h with
    ⟨rfl, -⟩ | ⟨it, props, m, props', -, -, -, rfl⟩
  · rfl
  · exact lookup_store_ne _ _ _ _ hk

theorem cleanBlockProperties_children (clean : JObj → Option (Bool × JObj))
    (hclean : ∀ c r, clean c = some r → SchemaClean r.2)
    (st st' : Bool × JObj) (h : cleanBlockProperties clean st = some st') :
    ∀ props' name c', JObj.lookup st'.2 "properties" = some (.obj props') →
      JObj.lookup props' name = some (.obj c') → SchemaClean c' := by
  intro props1 name c' hl hc'
  rcases cleanBlockProperties_inv clean st st' h with ⟨rfl, hno⟩ | ⟨props, m, props', -, hc, rfl⟩
  · exact absurd hl (hno props1)
  · rw [lookup_store_self] at hl
    simp only [Option.some.injEq, JVal.obj.injEq] at hl
    subst hl
    obtain ⟨c, m1, -, hcc⟩ := cleanProperties_lookup_obj clean props m props' hc name c' hc'
    exact hclean c (m1, c') hcc

theorem cleanBlockItems_child (clean : JObj → Option (Bool × JObj))
    (hclean : ∀ c r, clean c = some r → SchemaClean r.2)
    (st st' : Bool × JObj) (h : cleanBlockItems clean st = some st') :
    ∀ it', JObj.lookup st'.2 "items" = some (.obj it') → SchemaClean it' := by
  intro it1 hl
  rcases cleanBlockItems_inv clean st st' h with ⟨rfl, hno⟩ | ⟨it, mi, it', -, hc, rfl⟩
  · exact absurd hl (hno it1)
  · rw [lookup_store_self] at hl
    simp only [Option.some.injEq, JVal.obj.injEq] at hl
    subst hl
    exact hclean it (mi, it') hc

theorem cleanBlockItemsProperties_child (clean : JObj → Option (Bool × JObj))
    (hclean : ∀ c r, clean c = some r → SchemaClean r.2)
    (st st' : Bool × JObj) (h : cleanBlockItemsProperties clean st = some st')
    (hprev : ∀ it, JObj.lookup st.2 "items" = some (.obj it) → SchemaClean it) :
    ∀ it', JObj.lookup st'.2 "items" = some (.obj it') → SchemaClean it' := by
  intro it1 hl
  rcases cleanBlockItemsProperties_inv clean st st' h with
    ⟨rfl, -⟩ | ⟨it, props, m, props', hit, -, hc, rfl⟩
  · exact hprev it1 hl
  · rw [lookup_store_self] at hl
    simp only [Option.some.injEq, JVal.obj.injEq] at hl
    subst hl
    have hci := hprev it hit
    refine schemaClean_intro ?_ ?_ ?_
    · intro f hf
      rw [lookup_store_ne _ _ _ _ (unsupported_ne_properties hf)]
      exact schemaClean_noUnsupported hci f hf
    · intro props1 name c' hl1 hc'
      rw [lookup_store_self] at hl1
      simp only [Option.some.injEq, JVal.obj.injEq] at hl1
      subst hl1
      obtain ⟨c, m1, -, hcc⟩ := cleanProperties_lookup_obj clean props m props' hc name c' hc'
      exact hclean c (m1, c') hcc
    · intro it2 hl2
      rw [lookup_store_ne _ _ _ _ (by decide)] at hl2
      exact schemaClean_items hci hl2

/-- After `cleanParameters`, no object reached through `properties.<name>` and `items` has an
unsupported key. -/
theorem cleanParametersFuel_clean :
    ∀ (n : Nat) (p : JObj) (r : Bool × JObj), cleanParametersFuel n p = some r →
      SchemaClean r.2 := by
  intro n
  induction n with
  | zero => intro p r h; simp [cleanParametersFuel] at h
  | succ n ih =>
    intro p r h
    obtain ⟨st1, st2, h1, h2, h3⟩ := cleanParametersFuel_succ_inv n p r h
    refine schemaClean_intro ?_ ?_ ?_
    · intro f hf
      rw [cleanBlockItemsProperties_lookup_ne _ st2 r h3 f (unsupported_ne_items hf),
        cleanBlockItems_lookup_ne _ st1 st2 h2 f (unsupported_ne_items hf),
        cleanBlockProperties_lookup_ne _ _ st1 h1 f (unsupported_ne_properties hf),
        removeUnsupported_lookup]
      simp [hf]
    · intro props name c hl hc
      rw [cleanBlockItemsProperties_lookup_ne _ st2 r h3 "properties" (by decide),
        cleanBlockItems_lookup_ne _ st1 st2 h2 "properties" (by decide)] at hl
      exact cleanBlockProperties_children _ ih _ st1 h1 props name c hl hc
    · exact cleanBlockItemsProperties_child _ ih st2 r h3
        (cleanBlockItems_child _ ih st1 st2 h2)

/-! ### A clean schema is left as it is -/

theorem cleanProperties_fixed_of_clean (clean : JObj → Option (Bool × JObj))
    (hclean : ∀ c r, clean c = some r → JVal.wf (.obj c) = true → SchemaClean c →
      r = (false, c))
    (props : List (String × JVal)) (m : Bool) (props' : List (String × JVal))
    (hc : cleanProperties clean props = some (m, props'))
    (hwf : JVal.wf (.obj props) = true)
    (hch : ∀ name c, JObj.lookup props name = some (.obj c) → SchemaClean c) :
    m = false ∧ props' = props := by
  refine cleanProperties_fixed clean props m props' hc ?_
  intro name c r hmem hcc
  have hl := mem_lookup_sorted props name _ ((wf_obj_iff props).1 hwf).1 hmem
  exact hclean c r hcc (wf_lookup _ _ _ hwf hl) (hch name c hl)

theorem cleanBlockProperties_fixed (clean : JObj → Option (Bool × JObj))
    (hclean : ∀ c r, clean c = some r → JVal.wf (.obj c) = true → SchemaClean c →
      r = (false, c))
    (st st' : Bool × JObj) (h : cleanBlockProperties clean st = some st')
    (hwf : JVal.wf (.obj st.2) = true) (hcl : SchemaClean st.2) : st' = st := by
  rcases cleanBlockProperties_inv clean st st' h with ⟨rfl, -⟩ | ⟨props, m, props', hl, hc, rfl⟩
  · rfl
  · obtain ⟨rfl, rfl⟩ := cleanProperties_fixed_of_clean clean hclean props m props' hc
      (wf_lookup _ _ _ hwf hl) (fun name c hcc => schemaClean_property hcl hl hcc)
    rw [store_lookup_self _ _ _ hwf hl]
    simp

theorem cleanBlockItems_fixed (clean : JObj → Option (Bool × JObj))
    (hclean : ∀ c r, clean c = some r → JVal.wf (.obj c) = true → SchemaClean c →
      r = (false, c))
    (st st' : Bool × JObj) (h : cleanBlockItems clean st = some st')
    (hwf : JVal.wf (.obj st.2) = true) (hcl : SchemaClean st.2) : st' = st := by
  rcases cleanBlockItems_inv clean st st' h with ⟨rfl, -⟩ | ⟨it, mi, it', hl, hc, rfl⟩
  · rfl
  · have := hclean it (mi, it') hc (wf_lookup _ _ _ hwf hl) (schemaClean_items hcl hl)
    simp only [Prod.mk.injEq] at this
    obtain ⟨rfl, rfl⟩ := this
    rw [store_lookup_self _ _ _ hwf hl]
    simp

theorem cleanBlockItemsProperties_fixed (clean : JObj → Option (Bool × JObj))
    (hclean : ∀ c r, clean c = some r → JVal.wf (.obj c) = true → SchemaClean c →
      r = (false, c))
    (st st' : Bool × JObj) (h : cleanBlockItemsProperties clean st = some st')
    (hwf : JVal.wf (.obj st.2) = true) (hcl : SchemaClean st.2) : st' = st := by
  rcases cleanBlockItemsProperties_inv clean st st' h with
    ⟨rfl, -⟩ | ⟨it, props, m, props', hl, hp, hc, rfl⟩
  · rfl
  · have hit := wf_lookup _ _ _ hwf hl
    have hci := schemaClean_items hcl hl
    obtain ⟨rfl, rfl⟩ := cleanProperties_fixed_of_clean clean hclean props m props' hc
      (wf_lookup _ _ _ hit hp) (fun name c hcc => schemaClean_property hci hp hcc)
    rw [store_lookup_self _ _ _ hit hp, store_lookup_self _ _ _ hwf hl]
    simp

/-- On a schema that is already clean, `cleanParameters` reports no modification and changes
nothing. -/
theorem cleanParametersFuel_fixed :
    ∀ (n : Nat) (p : JObj) (r : Bool × JObj), cleanParametersFuel n p = some r →
      JVal.wf (.obj p) = true → SchemaClean p → r = (false, p) := by
  intro n
  induction n with
  | zero => intro p r h; simp [cleanParametersFuel] at h
  | succ n ih =>
    intro p r h hwf hcl
    obtain ⟨st1, st2, h1, h2, h3⟩ := cleanParametersFuel_succ_inv n p r h
    rw [removeUnsupported_fixed p (schemaClean_noUnsupported hcl)] at h1
    have e1 := cleanBlockProperties_fixed _ ih _ st1 h1 hwf hcl
    subst e1
    have e2 := cleanBlockItems_fixed _ ih _ st2 h2 hwf hcl
    subst e2
    exact cleanBlockItemsProperties_fixed _ ih _ r h3 hwf hcl


/-! ### The function `cleanParameters` -/

theorem cleanParameters_wf (p : JObj) (h : JVal.wf (.obj p) = true) :
    JVal.wf (.obj (cleanParameters p).2) = true :=
  cleanParametersFuel_wf _ p _ (cleanParameters_eq p) h

theorem cleanParameters_clean (p : JObj) : SchemaClean (cleanParameters p).2 :=
  cleanParametersFuel_clean _ p _ (cleanParameters_eq p)

theorem cleanParameters_unmod (p : JObj) (h : JVal.wf (.obj p) = true)
    (hm : (cleanParameters p).1 = false) : (cleanParameters p).2 = p :=
  cleanParametersFuel_unmod _ p _ (cleanParameters_eq p) h hm

theorem cleanParameters_fixed (p : JObj) (h : JVal.wf (.obj p) = true) (hc : SchemaClean p) :
    cleanParameters p = (false, p) :=
  cleanParametersFuel_fixed _ p _ (cleanParameters_eq p) h hc

/-! ## fixToolDefinitions on a parsed body -/

theorem renameParametersJsonSchema_wf (d : JObj) (h : JVal.wf (.obj d) = true) :
    JVal.wf (.obj (renameParametersJsonSchema d).2) = true := by
  unfold renameParametersJsonSchema
  cases hl : JObj.lookup d "parametersJsonSchema" with
  | none => exact h
  | some v => exact wf_delete _ _ (wf_store _ _ _ h (wf_lookup _ _ _ h hl))

theorem renameParametersJsonSchema_none (d : JObj) :
    JObj.lookup (renameParametersJsonSchema d).2 "parametersJsonSchema" = none := by
  unfold renameParametersJsonSchema
  cases hl : JObj.lookup d "parametersJsonSchema" with
  | none => exact hl
  | some v => exact lookup_delete_self _ _

theorem renameParametersJsonSchema_unmod (d : JObj)
    (h : (renameParametersJsonSchema d).1 = false) : (renameParametersJsonSchema d).2 = d := by
  unfold renameParametersJsonSchema at h ⊢
  cases hl : JObj.lookup d "parametersJsonSchema" with
  | none => rfl
  | some v => rw [hl] at h; simp at h

theorem renameParametersJsonSchema_fixed (d : JObj)
    (h : JObj.lookup d "parametersJsonSchema" = none) :
    renameParametersJsonSchema d = (false, d) := by
  unfold renameParametersJsonSchema
  rw [h]

theorem cleanDeclParameters_wf (d : JObj) (h : JVal.wf (.obj d) = true) :
    JVal.wf (.obj (cleanDeclParameters d).2) = true := by
  unfold cleanDeclParameters
  cases hl : JObj.lookup d "parameters" with
  | none => exact h
  | some v =>
    cases v with
    | obj params => exact wf_store _ _ _ h (cleanParameters_wf params (wf_lookup _ _ _ h hl))
    | _ => exact h

theorem cleanDeclParameters_lookup_ne (d : JObj) (k : String) (hk : k ≠ "parameters") :
    JObj.lookup (cleanDeclParameters d).2 k = JObj.lookup d k := by
  unfold cleanDeclParameters
  cases hl : JObj.lookup d "parameters" with
  | none => rfl
  | some v =>
    cases v with
    | obj params => exact lookup_store_ne _ _ _ _ hk
    | _ => rfl

theorem cleanDeclParameters_clean (d params : JObj)
    (h : JObj.lookup (cleanDeclParameters d).2 "parameters" = some (.obj params)) :
    SchemaClean params := by
  unfold cleanDeclParameters at h
  cases hl : JObj.lookup d "parameters" with
  | none => rw [hl] at h; simp only at h; rw [hl] at h; cases h
  | some v =>
    cases v with
    | obj p0 =>
      rw [hl] at h
      simp only [lookup_store_self, Option.some.injEq, JVal.obj.injEq] at h
      subst h
      exact cleanParameters_clean p0
    | _ => rw [hl] at h; simp only at h; rw [hl] at h; cases h

theorem cleanDeclParameters_unmod (d : JObj) (h : JVal.wf (.obj d) = true)
    (hm : (cleanDeclParameters d).1 = false) : (cleanDeclParameters d).2 = d := by
  unfold cleanDeclParameters at hm ⊢
  cases hl : JObj.lookup d "parameters" with
  | none => rfl
  | some v =>
    cases v with
    | obj params =>
      rw [hl] at hm
      simp only at hm ⊢
      rw [cleanParameters_unmod params (wf_lookup _ _ _ h hl) hm]
      exact store_lookup_self _ _ _ h hl
    | _ => rfl

theorem cleanDeclParameters_fixed (d : JObj) (h : JVal.wf (.obj d) = true)
    (hc : ∀ params, JObj.lookup d "parameters" = some (.obj params) → SchemaClean params) :
    cleanDeclParameters d = (false, d) := by
  unfold cleanDeclParameters
  cases hl : JObj.lookup d "parameters" with
  | none => rfl
  | some v =>
    cases v with
    | obj params =>
      simp only
      rw [cleanParameters_fixed params (wf_lookup _ _ _ h hl) (hc params hl)]
      simp only
      rw [store_lookup_self _ _ _ h hl]
    | _ => rfl

theorem fixFuncDecl_wf (v : JVal) (h : v.wf = true) : (fixFuncDecl v).2.wf = true := by
  cases v with
  | obj d => exact cleanDeclParameters_wf _ (renameParametersJsonSchema_wf d h)
  | _ => exact h

theorem fixFuncDecl_settled (v : JVal) : DeclSettled (fixFuncDecl v).2 := by
  intro d hd
  cases v with
  | obj d0 =>
    simp only [fixFuncDecl, JVal.obj.injEq] at hd
    subst hd
    refine ⟨?_, fun params hp => cleanDeclParameters_clean _ params hp⟩
    rw [cleanDeclParameters_lookup_ne _ _ (by decide)]
    exact renameParametersJsonSchema_none d0
  | _ => simp [fixFuncDecl] at hd

theorem fixFuncDecl_unmod (v : JVal) (h : v.wf = true) (hm : (fixFuncDecl v).1 = false) :
    (fixFuncDecl v).2 = v := by
  cases v with
  | obj d =>
    simp only [fixFuncDecl] at hm ⊢
    obtain ⟨h1, h2⟩ := or_false_split hm
    have e1 := renameParametersJsonSchema_unmod d h1
    rw [e1] at h2 ⊢
    rw [cleanDeclParameters_unmod d h h2]
  | _ => rfl

theorem fixFuncDecl_fixed (v : JVal) (h : v.wf = true) (hs : DeclSettled v) :
    fixFuncDecl v = (false, v) := by
  cases v with
  | obj d =>
    obtain ⟨h1, h2⟩ := hs d rfl
    simp only [fixFuncDecl, renameParametersJsonSchema_fixed d h1,
      cleanDeclParameters_fixed d h h2]
    rfl
  | _ => rfl

theorem fixFuncDecls_wf (xs : List JVal) (h : ∀ x ∈ xs, x.wf = true) :
    ∀ x ∈ (fixFuncDecls xs).2, x.wf = true := by
  induction xs with
  | nil => intro x hx; cases hx
  | cons a xs ih =>
    intro x hx
    simp only [fixFuncDecls, List.mem_cons] at hx
    rcases hx with rfl | hx
    · exact fixFuncDecl_wf a (h a (List.mem_cons_self _ _))
    · exact ih (fun y hy => h y (List.mem_cons_of_mem _ hy)) x hx

theorem fixFuncDecls_settled (xs : List JVal) : ∀ x ∈ (fixFuncDecls xs).2, DeclSettled x := by
  induction xs with
  | nil => intro x hx; cases hx
  | cons a xs ih =>
    intro x hx
    simp only [fixFuncDecls, List.mem_cons] at hx
    rcases hx with rfl | hx
    · exact fixFuncDecl_settled a
    · exact ih x hx

theorem fixFuncDecls_unmod (xs : List JVal) (h : ∀ x ∈ xs, x.wf = true)
    (hm : (fixFuncDecls xs).1 = false) : (fixFuncDecls xs).2 = xs := by
  induction xs with
  | nil => rfl
  | cons a xs ih =>
    simp only [fixFuncDecls] at hm ⊢
    obtain ⟨h1, h2⟩ := or_false_split hm
    rw [fixFuncDecl_unmod a (h a (List.mem_cons_self _ _)) h1,
      ih (fun y hy => h y (List.mem_cons_of_mem _ hy)) h2]

theorem fixFuncDecls_fixed (xs : List JVal) (h : ∀ x ∈ xs, x.wf = true)
    (hs : ∀ x ∈ xs, DeclSettled x) : fixFuncDecls xs = (false, xs) := by
  induction xs with
  | nil => rfl
  | cons a xs ih =>
    simp only [fixFuncDecls]
    rw [fixFuncDecl_fixed a (h a (List.mem_cons_self _ _)) (hs a (List.mem_cons_self _ _)),
      ih (fun y hy => h y (List.mem_cons_of_mem _ hy))
        (fun y hy => hs y (List.mem_cons_of_mem _ hy))]
    rfl


theorem fixTool_obj_cases (tm : JObj) :
    (∃ fd, JObj.lookup tm "functionDeclarations" = some (.arr fd) ∧
      fixTool (.obj tm) = (true, .obj (JObj.store
        (JObj.delete (JObj.store tm "function_declarations" (.arr fd)) "functionDeclarations")
        "function_declarations" (.arr (fixFuncDecls fd).2)))) ∨
    ((∀ fd, JObj.lookup tm "functionDeclarations" ≠ some (.arr fd)) ∧
      ∃ fd, JObj.lookup tm "function_declarations" = some (.arr fd) ∧
        fixTool (.obj tm) = ((fixFuncDecls fd).1,
          .obj (JObj.store tm "function_declarations" (.arr (fixFuncDecls fd).2)))) ∨
    ((∀ fd, JObj.lookup tm "functionDeclarations" ≠ some (.arr fd)) ∧
      (∀ fd, JObj.lookup tm "function_declarations" ≠ some (.arr fd)) ∧
      fixTool (.obj tm) = (false, .obj tm)) := by
  have second : (∀ fd, JObj.lookup tm "functionDeclarations" ≠ some (.arr fd)) →
      fixTool (.obj tm) = (match JObj.lookup tm "function_declarations" with
        | some (.arr funcDecls) => ((fixFuncDecls funcDecls).1,
            JVal.obj (JObj.store tm "function_declarations" (.arr (fixFuncDecls funcDecls).2)))
        | _ => (false, .obj tm)) := by
    intro hno
    dsimp only [fixTool]
    split
    · next fd h1 => exact absurd h1 (hno fd)
    · rfl
  cases h1 : JObj.lookup tm "functionDeclarations" with
  | none =>
    have hno : ∀ fd, JObj.lookup tm "functionDeclarations" ≠ some (.arr fd) := by simp [h1]
    rw [← h1]
    cases h2 : JObj.lookup tm "function_declarations" with
    | none => exact Or.inr (Or.inr ⟨hno, by simp, by rw [second hno, h2]⟩)
    | some w =>
      cases w with
      | arr fd => exact Or.inr (Or.inl ⟨hno, fd, rfl, by rw [second hno, h2]⟩)
      | _ => exact Or.inr (Or.inr ⟨hno, by simp, by rw [second hno, h2]⟩)
  | some v =>
    cases v with
    | arr fd => exact Or.inl ⟨fd, rfl, by simp [fixTool, h1]⟩
    | _ =>
      have hno : ∀ fd, JObj.lookup tm "functionDeclarations" ≠ some (.arr fd) := by simp [h1]
      rw [← h1]
      cases h2 : JObj.lookup tm "function_declarations" with
      | none => exact Or.inr (Or.inr ⟨hno, by simp, by rw [second hno, h2]⟩)
      | some w =>
        cases w with
        | arr fd => exact Or.inr (Or.inl ⟨hno, fd, rfl, by rw [second hno, h2]⟩)
        | _ => exact Or.inr (Or.inr ⟨hno, by simp, by rw [second hno, h2]⟩)

theorem wf_arr_fixFuncDecls (fd : List JVal) (h : JVal.wf (.arr fd) = true) :
    JVal.wf (.arr (fixFuncDecls fd).2) = true := by
  rw [wf_arr_iff] at *
  exact fixFuncDecls_wf fd h

theorem fixTool_wf (t : JVal) (h : t.wf = true) : (fixTool t).2.wf = true := by
  cases t with
  | obj tm =>
    rcases fixTool_obj_cases tm with ⟨fd, h1, e⟩ | ⟨-, fd, h2, e⟩ | ⟨-, -, e⟩
    · rw [e]
      have hfd := wf_lookup _ _ _ h h1
      exact wf_store _ _ _ (wf_delete _ _ (wf_store _ _ _ h hfd)) (wf_arr_fixFuncDecls fd hfd)
    · rw [e]
      exact wf_store _ _ _ h (wf_arr_fixFuncDecls fd (wf_lookup _ _ _ h h2))
    · rw [e]; exact h
  | _ => exact h

theorem fixTool_settled (t : JVal) : ToolSettled (fixTool t).2 := by
  intro tm' htm
  cases t with
  | obj tm =>
    rcases fixTool_obj_cases tm with ⟨fd, h1, e⟩ | ⟨hno, fd, h2, e⟩ | ⟨hno, hno2, e⟩
    · rw [e] at htm
      simp only [JVal.obj.injEq] at htm
      subst htm
      constructor
      · intro fd'
        rw [lookup_store_ne _ _ _ _ (by decide), lookup_delete_self]
        simp
      · intro decls hd x hx
        rw [lookup_store_self] at hd
        simp only [Option.some.injEq, JVal.arr.injEq] at hd
        subst hd
        exact fixFuncDecls_settled fd x hx
    · rw [e] at htm
      simp only [JVal.obj.injEq] at htm
      subst htm
      constructor
      · intro fd'
        rw [lookup_store_ne _ _ _ _ (by decide)]
        exact hno fd'
      · intro decls hd x hx
        rw [lookup_store_self] at hd
        simp only [Option.some.injEq, JVal.arr.injEq] at hd
        subst hd
        exact fixFuncDecls_settled fd x hx
    · rw [e] at htm
      simp only [JVal.obj.injEq] at htm
      subst htm
      exact ⟨hno, fun decls hd => absurd hd (hno2 decls)⟩
  | _ => simp [fixTool] at htm

theorem fixTool_unmod (t : JVal) (h : t.wf = true) (hm : (fixTool t).1 = false) :
    (fixTool t).2 = t := by
  cases t with
  | obj tm =>
    rcases fixTool_obj_cases tm with ⟨fd, h1, e⟩ | ⟨-, fd, h2, e⟩ | ⟨-, -, e⟩
    · rw [e] at hm; cases hm
    · rw [e] at hm ⊢
      simp only at hm ⊢
      have hfd := wf_lookup _ _ _ h h2
      rw [fixFuncDecls_unmod fd ((wf_arr_iff fd).1 hfd) hm, store_lookup_self _ _ _ h h2]
    · rw [e]
  | _ => rfl

theorem fixTool_fixed (t : JVal) (h : t.wf = true) (hs : ToolSettled t) :
    fixTool t = (false, t) := by
  cases t with
  | obj tm =>
    obtain ⟨hs1, hs2⟩ := hs tm rfl
    rcases fixTool_obj_cases tm with ⟨fd, h1, e⟩ | ⟨-, fd, h2, e⟩ | ⟨-, -, e⟩
    · exact absurd h1 (hs1 fd)
    · have hfd := wf_lookup _ _ _ h h2
      rw [e, fixFuncDecls_fixed fd ((wf_arr_iff fd).1 hfd) (hs2 fd h2)]
      simp only
      rw [store_lookup_self _ _ _ h h2]
    · exact e
  | _ => rfl

theorem fixTools_wf (xs : List JVal) (h : ∀ x ∈ xs, x.wf = true) :
    ∀ x ∈ (fixTools xs).2, x.wf = true := by
  induction xs with
  | nil => intro x hx; cases hx
  | cons a xs ih =>
    intro x hx
    simp only [fixTools, List.mem_cons] at hx
    rcases hx with rfl | hx
    · exact fixTool_wf a (h a (List.mem_cons_self _ _))
    · exact ih (fun y hy => h y (List.mem_cons_of_mem _ hy)) x hx

theorem fixTools_settled (xs : List JVal) : ∀ x ∈ (fixTools xs).2, ToolSettled x := by
  induction xs with
  | nil => intro x hx; cases hx
  | cons a xs ih =>
    intro x hx
    simp only [fixTools, List.mem_cons] at hx
    rcases hx with rfl | hx
    · exact fixTool_settled a
    · exact ih x hx

theorem fixTools_unmod (xs : List JVal) (h : ∀ x ∈ xs, x.wf = true)
    (hm : (fixTools xs).1 = false) : (fixTools xs).2 = xs := by
  induction xs with
  | nil => rfl
  | cons a xs ih =>
    simp only [fixTools] at hm ⊢
    obtain ⟨h1, h2⟩ := or_false_split hm
    rw [fixTool_unmod a (h a (List.mem_cons_self _ _)) h1,
      ih (fun y hy => h y (List.mem_cons_of_mem _ hy)) h2]

theorem fixTools_fixed (xs : List JVal) (h : ∀ x ∈ xs, x.wf = true)
    (hs : ∀ x ∈ xs, ToolSettled x) : fixTools xs = (false, xs) := by
  induction xs with
  | nil => rfl
  | cons a xs ih =>
    simp only [fixTools]
    rw [fixTool_fixed a (h a (List.mem_cons_self _ _)) (hs a (List.mem_cons_self _ _)),
      ih (fun y hy => h y (List.mem_cons_of_mem _ hy))
        (fun y hy => hs y (List.mem_cons_of_mem _ hy))]
    rfl

theorem fixToolDefinitionsObj_cases (o : JObj) :
    (∃ tools, JObj.lookup o "tools" = some (.arr tools) ∧ tools.length ≠ 0 ∧
      (fixTools tools).1 = true ∧
      fixToolDefinitionsObj o = some (JObj.store o "tools" (.arr (fixTools tools).2))) ∨
    (∃ tools, JObj.lookup o "tools" = some (.arr tools) ∧ tools.length ≠ 0 ∧
      (fixTools tools).1 = false ∧ fixToolDefinitionsObj o = none) ∨
    (JObj.lookup o "tools" = some (.arr []) ∧ fixToolDefinitionsObj o = none) ∨
    ((∀ tools, JObj.lookup o "tools" ≠ some (.arr tools)) ∧ fixToolDefinitionsObj o = none) := by
  unfold fixToolDefinitionsObj
  cases h1 : JObj.lookup o "tools" with
  | none => exact Or.inr (Or.inr (Or.inr ⟨by simp, rfl⟩))
  | some v =>
    cases v with
    | arr tools =>
      cases tools with
      | nil => exact Or.inr (Or.inr (Or.inl ⟨rfl, rfl⟩))
      | cons t ts =>
        cases hm : (fixTools (t :: ts)).1 with
        | true => exact Or.inl ⟨t :: ts, rfl, by simp, hm, by simp [hm]⟩
        | false => exact Or.inr (Or.inl ⟨t :: ts, rfl, by simp, hm, by simp [hm]⟩)
    | _ => exact Or.inr (Or.inr (Or.inr ⟨by simp, rfl⟩))

theorem fixToolDefinitionsObj_wf (o o1 : JObj) (h : JVal.wf (.obj o) = true)
    (h1 : fixToolDefinitionsObj o = some o1) : JVal.wf (.obj o1) = true := by
  rcases fixToolDefinitionsObj_cases o with
    ⟨tools, hl, -, -, e⟩ | ⟨tools, -, -, -, e⟩ | ⟨-, e⟩ | ⟨-, e⟩
  · rw [e] at h1
    cases h1
    have ht := wf_lookup _ _ _ h hl
    refine wf_store _ _ _ h ?_
    rw [wf_arr_iff] at *
    exact fixTools_wf tools ht
  all_goals rw [e] at h1; cases h1

theorem fixToolDefinitionsObj_settled (o : JObj) (h : JVal.wf (.obj o) = true) :
    BodySettled ((fixToolDefinitionsObj o).getD o) := by
  intro tools' hl' t ht
  rcases fixToolDefinitionsObj_cases o with
    ⟨tools, hl, -, -, e⟩ | ⟨tools, hl, -, hm, e⟩ | ⟨hl, e⟩ | ⟨hno, e⟩
  · rw [e] at hl'
    simp only [Option.getD_some, lookup_store_self, Option.some.injEq, JVal.arr.injEq] at hl'
    subst hl'
    exact fixTools_settled tools t ht
  · rw [e] at hl'
    simp only [Option.getD_none, hl, Option.some.injEq, JVal.arr.injEq] at hl'
    subst hl'
    have hw := (wf_arr_iff tools).1 (wf_lookup _ _ _ h hl)
    have := fixTools_settled tools t
    rw [fixTools_unmod tools hw hm] at this
    exact this ht
  · rw [e] at hl'
    simp only [Option.getD_none, hl, Option.some.injEq, JVal.arr.injEq] at hl'
    subst hl'
    cases ht
  · rw [e] at hl'
    exact absurd hl' (hno tools')

theorem fixToolDefinitionsObj_fixed (o : JObj) (h : JVal.wf (.obj o) = true)
    (hs : BodySettled o) : fixToolDefinitionsObj o = none := by
  rcases fixToolDefinitionsObj_cases o with
    ⟨tools, hl, -, hm, e⟩ | ⟨tools, -, -, -, e⟩ | ⟨-, e⟩ | ⟨-, e⟩
  · have hw := (wf_arr_iff tools).1 (wf_lookup _ _ _ h hl)
    rw [fixTools_fixed tools hw (hs tools hl)] at hm
    cases hm
  all_goals exact e


/-! ## fixSystemInstruction on a parsed body -/

theorem fixRole_cases (o : JObj) :
    (∃ si rv, JObj.lookup o "systemInstruction" = some (.obj si) ∧
      JObj.lookup si "role" = some rv ∧
      fixRole o = (true, JObj.store o "systemInstruction" (.obj (JObj.delete si "role")))) ∨
    (fixRole o = (false, o) ∧ RoleFree o) := by
  unfold fixRole RoleFree
  cases h1 : JObj.lookup o "systemInstruction" with
  | none => exact Or.inr ⟨rfl, by simp⟩
  | some v =>
    cases v with
    | obj si =>
      dsimp only
      cases h2 : JObj.lookup si "role" with
      | none =>
        refine Or.inr ⟨rfl, ?_⟩
        intro si' hsi
        simp only [Option.some.injEq, JVal.obj.injEq] at hsi
        subst hsi
        exact h2
      | some rv => exact Or.inl ⟨si, rv, rfl, h2, rfl⟩
    | _ => exact Or.inr ⟨rfl, by simp⟩

theorem fixThinking_cases (o : JObj) :
    (∃ gc tc level, JObj.lookup o "generationConfig" = some (.obj gc) ∧
      JObj.lookup gc "thinkingConfig" = some (.obj tc) ∧
      JObj.lookup tc "thinkingLevel" = some (.str level) ∧
      fixThinking o = (true, JObj.store o "generationConfig"
        (.obj (JObj.store gc "thinkingConfig" (.obj (JObj.delete
          (JObj.store tc "thinkingBudget" (.num (thinkingBudget level))) "thinkingLevel")))))) ∨
    (fixThinking o = (false, o) ∧ LevelFree o) := by
  unfold fixThinking LevelFree
  cases h1 : JObj.lookup o "generationConfig" with
  | none => exact Or.inr ⟨rfl, by simp⟩
  | some v =>
    cases v with
    | obj gc =>
      dsimp only
      cases h2 : JObj.lookup gc "thinkingConfig" with
      | none =>
        refine Or.inr ⟨rfl, ?_⟩
        intro gc' tc hgc htc
        simp only [Option.some.injEq, JVal.obj.injEq] at hgc
        subst hgc
        rw [h2] at htc
        cases htc
      | some w =>
        cases w with
        | obj tc =>
          dsimp only
          cases h3 : JObj.lookup tc "thinkingLevel" with
          | none =>
            refine Or.inr ⟨rfl, ?_⟩
            intro gc' tc' hgc htc level
            simp only [Option.some.injEq, JVal.obj.injEq] at hgc
            subst hgc
            rw [h2] at htc
            simp only [Option.some.injEq, JVal.obj.injEq] at htc
            subst htc
            simp [h3]
          | some u =>
            cases u with
            | str level => exact Or.inl ⟨gc, tc, level, rfl, h2, h3, rfl⟩
            | _ =>
              refine Or.inr ⟨rfl, ?_⟩
              intro gc' tc' hgc htc level
              simp only [Option.some.injEq, JVal.obj.injEq] at hgc
              subst hgc
              rw [h2] at htc
              simp only [Option.some.injEq, JVal.obj.injEq] at htc
              subst htc
              simp [h3]
        | _ =>
          refine Or.inr ⟨rfl, ?_⟩
          intro gc' tc hgc htc
          simp only [Option.some.injEq, JVal.obj.injEq] at hgc
          subst hgc
          rw [h2] at htc
          cases htc
    | _ => exact Or.inr ⟨rfl, by simp⟩

theorem fixRole_wf (o : JObj) (h : JVal.wf (.obj o) = true) :
    JVal.wf (.obj (fixRole o).2) = true := by
  rcases fixRole_cases o with ⟨si, rv, h1, -, e⟩ | ⟨e, -⟩
  · rw [e]
    exact wf_store _ _ _ h (wf_delete _ _ (wf_lookup _ _ _ h h1))
  · rw [e]; exact h

theorem fixRole_lookup_ne (o : JObj) (k : String) (hk : k ≠ "systemInstruction") :
    JObj.lookup (fixRole o).2 k = JObj.lookup o k := by
  rcases fixRole_cases o with ⟨si, rv, -, -, e⟩ | ⟨e, -⟩
  · rw [e]; exact lookup_store_ne _ _ _ _ hk
  · rw [e]

theorem fixRole_unmod (o : JObj) (h : (fixRole o).1 = false) : (fixRole o).2 = o := by
  rcases fixRole_cases o with ⟨si, rv, -, -, e⟩ | ⟨e, -⟩
  · rw [e] at h; cases h
  · rw [e]

theorem fixRole_roleFree (o : JObj) : RoleFree (fixRole o).2 := by
  rcases fixRole_cases o with ⟨si, rv, -, -, e⟩ | ⟨e, hf⟩
  · rw [e]
    intro si' hsi
    simp only [lookup_store_self, Option.some.injEq, JVal.obj.injEq] at hsi
    subst hsi
    exact lookup_delete_self _ _
  · rw [e]; exact hf

theorem fixRole_fixed (o : JObj) (h : RoleFree o) : fixRole o = (false, o) := by
  rcases fixRole_cases o with ⟨si, rv, h1, h2, -⟩ | ⟨e, -⟩
  · rw [h si h1] at h2; cases h2
  · exact e

theorem fixThinking_wf (o : JObj) (h : JVal.wf (.obj o) = true) :
    JVal.wf (.obj (fixThinking o).2) = true := by
  rcases fixThinking_cases o with ⟨gc, tc, level, h1, h2, -, e⟩ | ⟨e, -⟩
  · rw [e]
    have hgc := wf_lookup _ _ _ h h1
    have htc := wf_lookup _ _ _ hgc h2
    exact wf_store _ _ _ h (wf_store _ _ _ hgc (wf_delete _ _ (wf_store _ _ _ htc rfl)))
  · rw [e]; exact h

theorem fixThinking_lookup_ne (o : JObj) (k : String) (hk : k ≠ "generationConfig") :
    JObj.lookup (fixThinking o).2 k = JObj.lookup o k := by
  rcases fixThinking_cases o with ⟨gc, tc, level, -, -, -, e⟩ | ⟨e, -⟩
  · rw [e]; exact lookup_store_ne _ _ _ _ hk
  · rw [e]

theorem fixThinking_unmod (o : JObj) (h : (fixThinking o).1 = false) :
    (fixThinking o).2 = o := by
  rcases fixThinking_cases o with ⟨gc, tc, level, -, -, -, e⟩ | ⟨e, -⟩
  · rw [e] at h; cases h
  · rw [e]

theorem fixThinking_levelFree (o : JObj) : LevelFree (fixThinking o).2 := by
  rcases fixThinking_cases o with ⟨gc, tc, level, -, -, -, e⟩ | ⟨e, hf⟩
  · rw [e]
    intro gc' tc' hgc htc level'
    simp only [lookup_store_self, Option.some.injEq, JVal.obj.injEq] at hgc
    subst hgc
    simp only [lookup_store_self, Option.some.injEq, JVal.obj.injEq] at htc
    subst htc
    rw [lookup_delete_self]
    simp
  · rw [e]; exact hf

theorem fixThinking_fixed (o : JObj) (h : LevelFree o) : fixThinking o = (false, o) := by
  rcases fixThinking_cases o with ⟨gc, tc, level, h1, h2, h3, -⟩ | ⟨e, -⟩
  · exact absurd h3 (h gc tc h1 h2 level)
  · exact e

theorem fixSystemInstructionObj_wf (o : JObj) (h : JVal.wf (.obj o) = true) :
    JVal.wf (.obj (fixSystemInstructionObj o).2) = true :=
  fixThinking_wf _ (fixRole_wf o h)

theorem fixSystemInstructionObj_tools (o : JObj) :
    JObj.lookup (fixSystemInstructionObj o).2 "tools" = JObj.lookup o "tools" := by
  simp only [fixSystemInstructionObj]
  rw [fixThinking_lookup_ne _ _ (by decide), fixRole_lookup_ne _ _ (by decide)]

theorem fixSystemInstructionObj_unmod (o : JObj) (h : (fixSystemInstructionObj o).1 = false) :
    (fixSystemInstructionObj o).2 = o := by
  simp only [fixSystemInstructionObj] at h ⊢
  obtain ⟨h1, h2⟩ := or_false_split h
  rw [fixThinking_unmod _ h2, fixRole_unmod _ h1]

theorem fixSystemInstructionObj_idem (o : JObj) :
    fixSystemInstructionObj (fixSystemInstructionObj o).2
      = (false, (fixSystemInstructionObj o).2) := by
  have hrole : RoleFree (fixSystemInstructionObj o).2 := by
    intro si hsi
    simp only [fixSystemInstructionObj] at hsi
    rw [fixThinking_lookup_ne _ _ (by decide)] at hsi
    exact fixRole_roleFree o si hsi
  have hlevel : LevelFree (fixSystemInstructionObj o).2 := fixThinking_levelFree _
  have e1 := fixRole_fixed _ hrole
  have e2 := fixThinking_fixed _ hlevel
  rw [fixSystemInstructionObj.eq_1 (fixSystemInstructionObj o).2, e1]
  simp only [e2]
  rfl

/-! ## The rewriter on bytes -/

theorem canonical_lawful : JSONCodec.canonical.Lawful := by
  constructor
  · intro b o h
    simp only [JSONCodec.canonical] at h
    split at h
    · cases h; assumption
    · cases h
  · intro o h
    exact ⟨o, rfl, by simp [JSONCodec.canonical, h]⟩

theorem fixToolDefinitions_unmarshal {β : Type} (c : JSONCodec β) (hc : c.Lawful) (b : β)
    (o : JObj) (hb : c.unmarshal b = some o) :
    c.unmarshal (fixToolDefinitions c b) = some ((fixToolDefinitionsObj o).getD o) := by
  cases h1 : fixToolDefinitionsObj o with
  | none =>
    simp [fixToolDefinitions, hb, h1]
  | some o1 =>
    obtain ⟨b1, hm, hu⟩ := hc.2 o1 (fixToolDefinitionsObj_wf o o1 (hc.1 b o hb) h1)
    simp only [fixToolDefinitions, hb, h1, hm]
    simpa using hu

theorem fixSystemInstruction_unmarshal {β : Type} (c : JSONCodec β) (hc : c.Lawful) (b : β)
    (o : JObj) (hb : c.unmarshal b = some o) :
    c.unmarshal (fixSystemInstruction c b) = some (fixSystemInstructionObj o).2 := by
  cases h1 : (fixSystemInstructionObj o).1 with
  | false =>
    have e := fixSystemInstructionObj_unmod o h1
    simp only [fixSystemInstruction, hb, h1, Bool.false_eq_true, if_false]
    rw [e]
  | true =>
    obtain ⟨b1, hm, hu⟩ := hc.2 _ (fixSystemInstructionObj_wf o (hc.1 b o hb))
    simp only [fixSystemInstruction, hb, h1, hm, if_true]
    exact hu

theorem fixToolDefinitions_of_none {β : Type} (c : JSONCodec β) (b : β) (o : JObj)
    (hb : c.unmarshal b = some o) (h : fixToolDefinitionsObj o = none) :
    fixToolDefinitions c b = b := by
  simp [fixToolDefinitions, hb, h]

theorem fixSystemInstruction_of_unmod {β : Type} (c : JSONCodec β) (b : β) (o : JObj)
    (hb : c.unmarshal b = some o) (h : (fixSystemInstructionObj o).1 = false) :
    fixSystemInstruction c b = b := by
  simp [fixSystemInstruction, hb, h]

theorem rewriteBody_of_not_json {β : Type} (c : JSONCodec β) (b : β)
    (hb : c.unmarshal b = none) : rewriteBody c b = b := by
  simp [rewriteBody, fixToolDefinitions, fixSystemInstruction, hb]

theorem rewriteBody_unmarshal {β : Type} (c : JSONCodec β) (hc : c.Lawful) (b : β) (o : JObj)
    (hb : c.unmarshal b = some o) :
    c.unmarshal (rewriteBody c b)
      = some (fixSystemInstructionObj ((fixToolDefinitionsObj o).getD o)).2 :=
  fixSystemInstruction_unmarshal c hc _ _ (fixToolDefinitions_unmarshal c hc b o hb)

theorem rewriteBody_settled (o : JObj) (h : JVal.wf (.obj o) = true) :
    BodySettled (fixSystemInstructionObj ((fixToolDefinitionsObj o).getD o)).2 := by
  intro tools hl
  rw [fixSystemInstructionObj_tools] at hl
  exact fixToolDefinitionsObj_settled o h tools hl


/-! ### The result does not depend on the bound -/

theorem cleanBlockProperties_mono (clean clean' : JObj → Option (Bool × JObj))
    (hmono : ∀ c r, clean c = some r → clean' c = some r) (st st' : Bool × JObj)
    (h : cleanBlockProperties clean st = some st') :
    cleanBlockProperties clean' st = some st' := by
  rcases cleanBlockProperties_inv clean st st' h with ⟨rfl, hno⟩ | ⟨props, m, props', hl, hc, rfl⟩
  · unfold cleanBlockProperties
    split
    · next props hl => exact absurd hl (hno props)
    · rfl
  · simp [cleanBlockProperties, hl, cleanProperties_mono clean clean' hmono props _ hc]

theorem cleanBlockItems_mono (clean clean' : JObj → Option (Bool × JObj))
    (hmono : ∀ c r, clean c = some r → clean' c = some r) (st st' : Bool × JObj)
    (h : cleanBlockItems clean st = some st') :
    cleanBlockItems clean' st = some st' := by
  rcases cleanBlockItems_inv clean st st' h with ⟨rfl, hno⟩ | ⟨it, mi, it', hl, hc, rfl⟩
  · unfold cleanBlockItems
    split
    · next it hl => exact absurd hl (hno it)
    · rfl
  · simp [cleanBlockItems, hl, hmono _ _ hc]

theorem cleanBlockItemsProperties_mono (clean clean' : JObj → Option (Bool × JObj))
    (hmono : ∀ c r, clean c = some r → clean' c = some r) (st st' : Bool × JObj)
    (h : cleanBlockItemsProperties clean st = some st') :
    cleanBlockItemsProperties clean' st = some st' := by
  rcases cleanBlockItemsProperties_inv clean st st' h with
    ⟨rfl, hno⟩ | ⟨it, props, m, props', hl, hp, hc, rfl⟩
  · unfold cleanBlockItemsProperties
    split
    · next it hl =>
      split
      · next props hp => exact absurd hp (hno it props hl)
      · rfl
    · rfl
  · simp [cleanBlockItemsProperties, hl, hp, cleanProperties_mono clean clean' hmono props _ hc]

theorem cleanParametersFuel_mono :
    ∀ (n : Nat) (p : JObj) (r : Bool × JObj), cleanParametersFuel n p = some r →
      cleanParametersFuel (n + 1) p = some r := by
  intro n
  induction n with
  | zero => intro p r h; simp [cleanParametersFuel] at h
  | succ n ih =>
    intro p r h
    obtain ⟨st1, st2, h1, h2, h3⟩ := cleanParametersFuel_succ_inv n p r h
    have h1' := cleanBlockProperties_mono _ (cleanParametersFuel (n + 1)) ih _ _ h1
    have h2' := cleanBlockItems_mono _ (cleanParametersFuel (n + 1)) ih _ _ h2
    have h3' := cleanBlockItemsProperties_mono _ (cleanParametersFuel (n + 1)) ih _ _ h3
    rw [cleanParametersFuel, h1']
    simp only [h2']
    exact h3'

theorem cleanParametersFuel_mono_le (m n : Nat) (hmn : m ≤ n) (p : JObj) (r : Bool × JObj)
    (h : cleanParametersFuel m p = some r) : cleanParametersFuel n p = some r := by
  induction hmn with
  | refl => exact h
  | step _ ih => exact cleanParametersFuel_mono _ p r ih

/-- Every bound above the depth of `params` gives the result of `cleanParameters`. -/
theorem cleanParametersFuel_of_depth_lt (n : Nat) (p : JObj) (h : JVal.depthFields p < n) :
    cleanParametersFuel n p = some (cleanParameters p) := by
  obtain ⟨r, hr⟩ := cleanParametersFuel_total n p h
  rcases Nat.le_total n (JVal.depth (.obj p) + 1) with hle | hle
  · have := cleanParametersFuel_mono_le _ _ hle p r hr
    rw [cleanParameters_eq] at this
    rw [hr, ← Option.some.inj this]
  · exact cleanParametersFuel_mono_le _ _ hle p _ (cleanParameters_eq p)

/-! ## The rewriter on request bodies -/

theorem toolsParametersAll_of_settled (o : JObj) (h : BodySettled o) :
    ToolsParametersAll SchemaClean o := by
  intro tools tool decls decl params ht htm hd hdm hp
  exact ((h tools ht _ htm tool rfl).2 decls hd _ hdm decl rfl).2 params hp

/-- C1, counterexample: a body that parses as a JSON object and that the rewriter returns
unchanged, although an object inside `tools[0].function_declarations[0].parameters` (under
`properties.x.anyOf[0]`) has the key `default`. -/
theorem schema_cleanup_any_depth_counterexample :
    JSONCodec.canonical.unmarshal anyOfBody = some anyOfBody ∧
    JSONCodec.canonical.unmarshal (rewriteBody JSONCodec.canonical anyOfBody)
      = some anyOfBody ∧
    ¬ ToolsParametersAll (fun params => JVal.hasUnsupported (.obj params) = false)
      anyOfBody := by
  refine ⟨rfl, rfl, ?_⟩
  intro h
  have := h _ _ _ _ anyOfParams rfl (List.mem_cons_self _ _) rfl (List.mem_cons_self _ _) rfl
  revert this
  decide

/-- C1, amended: for every body that parses as a JSON object, the body the rewriter returns
parses as a JSON object in which every object `tools[*].function_declarations[*].parameters`
is clean along the paths `cleanParameters` follows: no object reached from it by steps
`properties.<name>` (an object) and `items` (an object) has any of the keys
`additionalProperties`, `default`, `optional`, `maximum`, `oneOf`. -/
theorem schema_cleanup_reachable {β : Type} (c : JSONCodec β) (hc : c.Lawful) (b : β)
    (o : JObj) (hb : c.unmarshal b = some o) :
    ∃ o', c.unmarshal (rewriteBody c b) = some o' ∧ ToolsParametersAll SchemaClean o' :=
  ⟨_, rewriteBody_unmarshal c hc b o hb,
    toolsParametersAll_of_settled _ (rewriteBody_settled o (hc.1 b o hb))⟩

/-- Witness of C1: the body of scenario S5 with the canonical codec. -/
theorem schema_cleanup_reachable_witness :
    ∃ o', JSONCodec.canonical.unmarshal (rewriteBody JSONCodec.canonical s5Body) = some o' ∧
      ToolsParametersAll SchemaClean o' :=
  schema_cleanup_reachable JSONCodec.canonical canonical_lawful s5Body s5Body rfl

/-- C2: with X the rewriter (`fixToolDefinitions`, then `fixSystemInstruction`), for every
body `b` the bytes `X(X(b))` are the bytes `X(b)`, so the two parse to the same JSON; and when
`b` does not parse as a JSON object, `X(b)` is `b`. -/
theorem rewriter_idempotent {β : Type} (c : JSONCodec β) (hc : c.Lawful) (b : β) :
    rewriteBody c (rewriteBody c b) = rewriteBody c b ∧
    c.unmarshal (rewriteBody c (rewriteBody c b)) = c.unmarshal (rewriteBody c b) ∧
    (c.unmarshal b = none → rewriteBody c b = b) := by
  have key : rewriteBody c (rewriteBody c b) = rewriteBody c b := by
    cases hb : c.unmarshal b with
    | none => rw [rewriteBody_of_not_json c b hb, rewriteBody_of_not_json c b hb]
    | some o =>
      have hwf := hc.1 b o hb
      have hu := rewriteBody_unmarshal c hc b o hb
      have hwf2 := hc.1 _ _ hu
      have e1 := fixToolDefinitions_of_none c _ _ hu
        (fixToolDefinitionsObj_fixed _ hwf2 (rewriteBody_settled o hwf))
      have e2 := fixSystemInstruction_of_unmod c _ _ hu
        (by rw [fixSystemInstructionObj_idem])
      rw [rewriteBody.eq_1 c (rewriteBody c b), e1, e2]
  exact ⟨key, by rw [key], rewriteBody_of_not_json c b⟩

/-- Witness of C2: the body of scenario S5 with the canonical codec. -/
theorem rewriter_idempotent_witness :
    rewriteBody JSONCodec.canonical (rewriteBody JSONCodec.canonical s5Body)
      = rewriteBody JSONCodec.canonical s5Body :=
  (rewriter_idempotent JSONCodec.canonical canonical_lawful s5Body).1


/-! ## The response assembler: calls on the writer -/

theorem statusCalls_append (a b : List WCall) :
    statusCalls (a ++ b) = statusCalls a ++ statusCalls b := by
  induction a with
  | nil => rfl
  | cons c a ih => cases c <;> simp [statusCalls, ih]

theorem statusCalls_addHeaderValues (key : String) (vs : List JVal) :
    statusCalls (addHeaderValues key vs) = [] := by
  induction vs with
  | nil => rfl
  | cons v vs ih => cases v <;> simp [addHeaderValues, statusCalls, ih]

theorem statusCalls_setHeaderEntries (hs : List (String × JVal)) :
    statusCalls (setHeaderEntries hs) = [] := by
  induction hs with
  | nil => rfl
  | cons e hs ih =>
    obtain ⟨k, v⟩ := e
    cases v <;>
      simp [setHeaderEntries, statusCalls_append, statusCalls, ih, statusCalls_addHeaderValues]

theorem statusCalls_setResponseHeaders (p : JObj) : statusCalls (setResponseHeaders p) = [] := by
  unfold setResponseHeaders
  split
  · exact statusCalls_setHeaderEntries _
  · rfl

theorem statusCalls_writeBody (p : JObj) : statusCalls (writeBody p) = [] := by
  unfold writeBody
  split <;> rfl

theorem statusCalls_flushCalls (fl : Bool) : statusCalls (flushCalls fl) = [] := by
  cases fl <;> rfl

theorem onStreamStart_calls (fl : Bool) (s : AState) (msg : WSMessage)
    (h : s.headersSet = false) :
    (onStreamStart fl s msg).1.calls =
      s.calls ++ setResponseHeaders msg.Payload ++ writeStatusCode msg.Payload
        ++ flushCalls fl := by
  unfold onStreamStart
  rw [h]
  by_cases h4 : frameStatusCode msg ≥ 400 <;> simp [h4]

theorem onStreamStart_headersSet (fl : Bool) (s : AState) (msg : WSMessage) :
    (onStreamStart fl s msg).1.headersSet = true := by
  simp only [onStreamStart]
  split_ifs <;> simp_all

theorem onStreamStart_snd (fl : Bool) (s : AState) (msg : WSMessage) :
    (onStreamStart fl s msg).2 = false := by
  simp only [onStreamStart]
  split_ifs <;> rfl

theorem onStreamChunk_calls (fl : Bool) (s : AState) (msg : WSMessage) :
    (onStreamChunk fl s msg).1.calls =
      s.calls ++ (if s.headersSet then [] else [.writeHeader 200]) ++ writeBody msg.Payload
        ++ flushCalls fl := by
  simp only [onStreamChunk]
  split_ifs <;> (try split) <;> simp

theorem onStreamChunk_headersSet (fl : Bool) (s : AState) (msg : WSMessage) :
    (onStreamChunk fl s msg).1.headersSet = true := by
  simp only [onStreamChunk]
  split_ifs <;> (try split) <;> simp_all

theorem onStreamEnd_calls (s : AState) :
    (onStreamEnd s).1.calls = s.calls ++ (if s.headersSet then [] else [.writeHeader 200]) := by
  simp only [onStreamEnd]
  split_ifs <;> simp

theorem onStreamEnd_headersSet (s : AState) :
    (onStreamEnd s).1.headersSet = s.headersSet := by
  simp only [onStreamEnd]
  split_ifs <;> simp

theorem step_committed (fl : Bool) (s : AState) (ev : Ev) (h : s.headersSet = true) :
    (step fl s ev).1.headersSet = true ∧
      statusCalls (step fl s ev).1.calls = statusCalls s.calls := by
  cases ev with
  | frame msg =>
    simp only [step]
    split_ifs
    · simp [onHttpResponse, h]
    · simp [onStreamStart, h]
    · simp [onStreamChunk_calls, onStreamChunk_headersSet, h, statusCalls_append,
        statusCalls_writeBody, statusCalls_flushCalls]
    · simp [onStreamEnd_calls, onStreamEnd_headersSet, h]
    · simp [onError, h]
    · simp [h]
  | closed => simp [step, h]
  | ctxDone => simp [step, h]

theorem runFrom_committed (fl : Bool) (evs : List Ev) :
    ∀ s : AState, s.headersSet = true →
      (runFrom fl s evs).state.headersSet = true ∧
        statusCalls (runFrom fl s evs).state.calls = statusCalls s.calls := by
  induction evs with
  | nil => intro s h; exact ⟨h, rfl⟩
  | cons ev evs ih =>
    intro s h
    have hs := step_committed fl s ev h
    simp only [runFrom]
    split_ifs
    · exact hs
    · have := ih _ hs.1
      exact ⟨this.1, this.2.trans hs.2⟩

theorem runFrom_cons_continue (fl : Bool) (s : AState) (ev : Ev) (evs : List Ev)
    (h : (step fl s ev).2 = false) :
    runFrom fl s (ev :: evs) = runFrom fl (step fl s ev).1 evs := by
  simp [runFrom, h]

theorem runFrom_cons_return (fl : Bool) (s : AState) (ev : Ev) (evs : List Ev)
    (h : (step fl s ev).2 = true) :
    runFrom fl s (ev :: evs) = ⟨(step fl s ev).1, true, evs⟩ := by
  simp [runFrom, h]

theorem step_http_response (fl : Bool) (s : AState) (msg : WSMessage)
    (h : msg.MsgType = "http_response") : step fl s (.frame msg) = onHttpResponse s msg := by
  simp [step, h]

theorem step_stream_start (fl : Bool) (s : AState) (msg : WSMessage)
    (h : msg.MsgType = "stream_start") : step fl s (.frame msg) = onStreamStart fl s msg := by
  simp [step, h]

theorem step_stream_chunk (fl : Bool) (s : AState) (msg : WSMessage)
    (h : msg.MsgType = "stream_chunk") : step fl s (.frame msg) = onStreamChunk fl s msg := by
  simp [step, h]

theorem step_stream_end (fl : Bool) (s : AState) (msg : WSMessage)
    (h : msg.MsgType = "stream_end") : step fl s (.frame msg) = onStreamEnd s := by
  simp [step, h]

theorem step_error (fl : Bool) (s : AState) (msg : WSMessage)
    (h : msg.MsgType = "error") : step fl s (.frame msg) = onError s msg := by
  simp [step, h]

theorem onStreamChunk_snd (fl : Bool) (s : AState) (msg : WSMessage) :
    (onStreamChunk fl s msg).2 = false := rfl

theorem onStreamEnd_snd (s : AState) : (onStreamEnd s).2 = true := rfl

/-! ## The conversion of a status to `int` -/

theorem goInt_of_range (q : ℚ) (h : InIntRange q) : goInt q = truncInt q := by
  unfold goInt
  exact if_pos h

theorem truncInt_intCast (n : Int) : truncInt (n : ℚ) = n := by
  simp [truncInt]

theorem inIntRange_intCast (n : Int) (h1 : minInt ≤ n) (h2 : n ≤ maxInt) :
    InIntRange (n : ℚ) := by
  unfold InIntRange
  rw [truncInt_intCast]
  exact ⟨h1, h2⟩

theorem goInt_intCast (n : Int) (h1 : minInt ≤ n) (h2 : n ≤ maxInt) : goInt (n : ℚ) = n := by
  rw [goInt_of_range _ (inIntRange_intCast n h1 h2), truncInt_intCast]

theorem truncInt_of_nonneg (q : ℚ) (h : 0 ≤ q) : truncInt q = ⌊q⌋ := by
  have hn : 0 ≤ q.num := Rat.num_nonneg.mpr h
  have hd : (0 : Int) ≤ (q.den : Int) := Int.ofNat_nonneg _
  unfold truncInt
  rw [Int.tdiv_eq_ediv hn hd, ← Rat.floor_def']
  rfl

theorem truncInt_of_neg (q : ℚ) (h : q < 0) : truncInt q ≤ 0 := by
  have hn : q.num < 0 := Rat.num_neg.mpr h
  have hd : (0 : Int) ≤ (q.den : Int) := Int.ofNat_nonneg _
  have h1 : 0 ≤ Int.tdiv (-q.num) q.den := Int.tdiv_nonneg (by omega) hd
  rw [Int.neg_tdiv] at h1
  unfold truncInt
  omega

theorem le_truncInt_iff (q : ℚ) (k : Int) (hk : 0 < k) : k ≤ truncInt q ↔ (k : ℚ) ≤ q := by
  by_cases h0 : (0 : ℚ) ≤ q
  · rw [truncInt_of_nonneg q h0]
    exact Int.le_floor
  · have hneg : q < 0 := not_le.mp h0
    have ht := truncInt_of_neg q hneg
    constructor
    · intro h; omega
    · intro h
      have : (0 : ℚ) < (k : ℚ) := by exact_mod_cast hk
      linarith

theorem truncInt_lt_iff (q : ℚ) (k : Int) (hk : 0 < k) : truncInt q < k ↔ q < (k : ℚ) := by
  rw [← not_le, ← not_le, le_truncInt_iff q k hk]

theorem truncInt_status_range (q : ℚ) :
    (100 ≤ truncInt q ∧ truncInt q ≤ 999) ↔ (100 ≤ q ∧ q < 1000) := by
  have h1 := le_truncInt_iff q 100 (by decide)
  have h2 := truncInt_lt_iff q 1000 (by decide)
  have h3 : truncInt q ≤ 999 ↔ truncInt q < 1000 := by omega
  rw [h1, h3, h2]
  norm_num

/-- C4: once the headers are committed (`headersSet` is true), no later event of any kind (a
frame of any type, the channel closed, the context done) passes a status to `WriteHeader` or
`http.Error`: the list of status codes written stays what it was.  In particular, whatever
follows a `stream_start` (an `error` frame included), the status codes written are those written
by the `stream_start` alone: the single code `int(S)` when its status `S` is a number in the
range of `int`, which is `S` itself when `S` is an integer; and after an uncommitted
`stream_chunk` the only code written is 200. -/
theorem post_commit_status_immutable (flusher : Bool) (s : AState) (evs : List Ev)
    (h : s.headersSet = true) :
    (runFrom flusher s evs).state.headersSet = true ∧
    statusCalls (runFrom flusher s evs).state.calls = statusCalls s.calls ∧
    (∀ (id : String) (payload : JObj),
      statusCalls (processWebSocketResponse flusher
        (.frame ⟨id, "stream_start", payload⟩ :: evs)).state.calls
        = statusCalls (processWebSocketResponse flusher
            [.frame ⟨id, "stream_start", payload⟩]).state.calls) ∧
    (∀ (id : String) (payload : JObj) (S : ℚ), JObj.lookup payload "status" = some (.num S) →
      InIntRange S →
      statusCalls (processWebSocketResponse flusher
        (.frame ⟨id, "stream_start", payload⟩ :: evs)).state.calls = [truncInt S]) ∧
    (∀ (id : String) (payload : JObj) (n : Int),
      JObj.lookup payload "status" = some (.num (n : ℚ)) → minInt ≤ n → n ≤ maxInt →
      statusCalls (processWebSocketResponse flusher
        (.frame ⟨id, "stream_start", payload⟩ :: evs)).state.calls = [n]) ∧
    (∀ (id : String) (payload : JObj),
      statusCalls (processWebSocketResponse flusher
        (.frame ⟨id, "stream_chunk", payload⟩ :: evs)).state.calls = [200]) := by
  have start : ∀ (id : String) (payload : JObj) (l : List Ev),
      statusCalls (processWebSocketResponse flusher
        (.frame ⟨id, "stream_start", payload⟩ :: l)).state.calls
        = statusCalls (writeStatusCode payload) := by
    intro id payload l
    have hstep := step_stream_start flusher AState.init ⟨id, "stream_start", payload⟩ rfl
    have hc := onStreamStart_calls flusher AState.init ⟨id, "stream_start", payload⟩ rfl
    have hr := runFrom_committed flusher l _
      (onStreamStart_headersSet flusher AState.init ⟨id, "stream_start", payload⟩)
    rw [processWebSocketResponse, runFrom_cons_continue _ _ _ _
      (by rw [hstep]; exact onStreamStart_snd _ _ _), hstep, hr.2, hc]
    simp [statusCalls_append, statusCalls_setResponseHeaders, statusCalls_flushCalls,
      statusCalls, AState.init]
  have inrange : ∀ (id : String) (payload : JObj) (S : ℚ),
      JObj.lookup payload "status" = some (.num S) → InIntRange S →
      statusCalls (processWebSocketResponse flusher
        (.frame ⟨id, "stream_start", payload⟩ :: evs)).state.calls = [truncInt S] := by
    intro id payload S hS hr
    rw [start id payload evs]
    simp only [writeStatusCode, hS, statusCalls, goInt_of_range S hr]
  refine ⟨(runFrom_committed flusher evs s h).1, (runFrom_committed flusher evs s h).2, ?_,
    inrange, ?_, ?_⟩
  · intro id payload
    rw [start id payload evs, start id payload []]
  · intro id payload n hn h1 h2
    rw [inrange id payload (n : ℚ) hn (inIntRange_intCast n h1 h2), truncInt_intCast]
  · intro id payload
    have hstep := step_stream_chunk flusher AState.init ⟨id, "stream_chunk", payload⟩ rfl
    have hc := onStreamChunk_calls flusher AState.init ⟨id, "stream_chunk", payload⟩
    have hr := runFrom_committed flusher evs _
      (onStreamChunk_headersSet flusher AState.init ⟨id, "stream_chunk", payload⟩)
    rw [processWebSocketResponse, runFrom_cons_continue _ _ _ _
      (by rw [hstep]; rfl), hstep, hr.2, hc]
    simp [statusCalls_append, statusCalls_writeBody, statusCalls_flushCalls, statusCalls,
      AState.init]

/-- Witness of C4: the status 429 of a `stream_start` survives an `error` frame with status
500. -/
theorem post_commit_status_immutable_witness :
    statusCalls (processWebSocketResponse true
      [.frame ⟨"r", "stream_start", [("status", .num 429)]⟩,
       .frame ⟨"r", "error", [("error", .str "boom"), ("status", .num 500)]⟩]).state.calls
      = [429] :=
  (post_commit_status_immutable true ⟨true, [], 0, "", [], []⟩
    [.frame ⟨"r", "error", [("error", .str "boom"), ("status", .num 500)]⟩] rfl).2.2.2.2.1
    "r" [("status", .num 429)] 429 rfl (by decide) (by decide)

theorem string_join_cons (d : String) (ds : List String) :
    String.join (d :: ds) = d ++ String.join ds := by
  have key : ∀ (l : List String) (acc : String),
      List.foldl (fun r s => r ++ s) acc l = acc ++ List.foldl (fun r s => r ++ s) "" l := by
    intro l
    induction l with
    | nil => intro acc; simp
    | cons x l ih =>
      intro acc
      simp only [List.foldl_cons]
      rw [ih (acc ++ x), ih ("" ++ x)]
      simp [String.append_assoc]
  simp only [String.join, List.foldl_cons]
  rw [key ds ("" ++ d)]
  simp

theorem writtenBody_append (a b : List WCall) :
    writtenBody (a ++ b) = writtenBody a ++ writtenBody b := by
  induction a with
  | nil => simp [writtenBody]
  | cons c a ih => cases c <;> simp [writtenBody, ih, String.append_assoc]

theorem writtenBody_addHeaderValues (key : String) (vs : List JVal) :
    writtenBody (addHeaderValues key vs) = "" := by
  induction vs with
  | nil => rfl
  | cons v vs ih => cases v <;> simp [addHeaderValues, writtenBody, ih]

theorem writtenBody_setHeaderEntries (hs : List (String × JVal)) :
    writtenBody (setHeaderEntries hs) = "" := by
  induction hs with
  | nil => rfl
  | cons e hs ih =>
    obtain ⟨k, v⟩ := e
    cases v <;>
      simp [setHeaderEntries, writtenBody_append, writtenBody, ih, writtenBody_addHeaderValues]

theorem writtenBody_setResponseHeaders (p : JObj) : writtenBody (setResponseHeaders p) = "" := by
  unfold setResponseHeaders
  split
  · exact writtenBody_setHeaderEntries _
  · rfl

theorem writtenBody_writeStatusCode (p : JObj) : writtenBody (writeStatusCode p) = "" := by
  unfold writeStatusCode
  split <;> rfl

theorem writtenBody_flushCalls (fl : Bool) : writtenBody (flushCalls fl) = "" := by
  cases fl <;> rfl

theorem writtenBody_writeBody (p : JObj) : writtenBody (writeBody p) = bodyData p := by
  unfold writeBody
  split
  · next h => rw [h]; rfl
  · simp [writtenBody]

theorem writtenBody_chunkCalls (fl : Bool) (ds : List String) :
    writtenBody (chunkCalls fl ds) = String.join ds := by
  induction ds with
  | nil => rfl
  | cons d ds ih =>
    rw [string_join_cons, chunkCalls, writtenBody_append, writtenBody_append, ih,
      writtenBody_flushCalls]
    by_cases hd : d = "" <;> simp [hd, writtenBody]

theorem bodyData_of_data (p : JObj) (d : String) (h : JObj.lookup p "data" = some (.str d)) :
    bodyData p = d := by
  simp [bodyData, h]

theorem writeBody_of_data (p : JObj) (d : String) (h : JObj.lookup p "data" = some (.str d)) :
    writeBody p = if d = "" then [] else [.write d] := by
  simp [writeBody, bodyData_of_data p d h]

/-- The chunks of a stream and `stream_end`, consumed from a committed state. -/
theorem runFrom_chunks_end (fl : Bool) (endMsg : WSMessage) (rest : List Ev)
    (he : endMsg.MsgType = "stream_end") (chunks : List WSMessage) (ds : List String)
    (hc : List.Forall₂ (fun m d => m.MsgType = "stream_chunk" ∧
      JObj.lookup m.Payload "data" = some (.str d)) chunks ds) :
    ∀ s : AState, s.headersSet = true →
      (runFrom fl s (chunks.map Ev.frame ++ .frame endMsg :: rest)).returned = true ∧
      (runFrom fl s (chunks.map Ev.frame ++ .frame endMsg :: rest)).rest = rest ∧
      (runFrom fl s (chunks.map Ev.frame ++ .frame endMsg :: rest)).state.calls
        = s.calls ++ chunkCalls fl ds := by
  induction hc with
  | nil =>
    intro s hs
    have hstep := step_stream_end fl s endMsg he
    rw [List.map_nil, List.nil_append, runFrom_cons_return _ _ _ _ (by rw [hstep]; rfl), hstep]
    simp [onStreamEnd_calls, hs, chunkCalls]
  | @cons m d ms ds' hm _ ih =>
    intro s hs
    have hstep := step_stream_chunk fl s m hm.1
    rw [List.map_cons, List.cons_append,
      runFrom_cons_continue _ _ _ _ (by rw [hstep]; rfl), hstep]
    have := ih _ (onStreamChunk_headersSet fl s m)
    refine ⟨this.1, this.2.1, ?_⟩
    rw [this.2.2, onStreamChunk_calls, writeBody_of_data _ _ hm.2]
    simp [hs, chunkCalls]

theorem isWrite_addHeaderValues (key : String) (vs : List JVal) :
    ∀ c ∈ addHeaderValues key vs, c.isWrite = false := by
  induction vs with
  | nil => intro c hc; simp [addHeaderValues] at hc
  | cons v vs ih =>
    intro c hc
    cases v <;> simp only [addHeaderValues, List.mem_cons] at hc <;>
      first
      | exact ih c hc
      | (rcases hc with rfl | hc
         · rfl
         · exact ih c hc)

theorem isWrite_setHeaderEntries (hs : List (String × JVal)) :
    ∀ c ∈ setHeaderEntries hs, c.isWrite = false := by
  induction hs with
  | nil => intro c hc; simp [setHeaderEntries] at hc
  | cons e hs ih =>
    obtain ⟨k, v⟩ := e
    intro c hc
    simp only [setHeaderEntries, List.mem_append] at hc
    rcases hc with hc | hc
    · cases v <;> simp at hc
      · subst hc; rfl
      · exact isWrite_addHeaderValues _ _ c hc
    · exact ih c hc

theorem isWrite_setResponseHeaders (p : JObj) :
    ∀ c ∈ setResponseHeaders p, c.isWrite = false := by
  unfold setResponseHeaders
  split
  · exact isWrite_setHeaderEntries _
  · intro c hc; simp at hc

theorem statusCalls_chunkCalls (fl : Bool) (ds : List String) :
    statusCalls (chunkCalls fl ds) = [] := by
  induction ds with
  | nil => rfl
  | cons d ds ih =>
    by_cases hd : d = "" <;>
      simp [chunkCalls, hd, statusCalls_append, statusCalls_flushCalls, statusCalls, ih]

theorem isHead_chunkCalls (fl : Bool) (ds : List String) :
    ∀ c ∈ chunkCalls fl ds, c.isHead = false := by
  induction ds with
  | nil => intro c hc; simp [chunkCalls] at hc
  | cons d ds ih =>
    intro c hc
    simp only [chunkCalls, List.mem_append] at hc
    rcases hc with (hc | hc) | hc
    · by_cases hd : d = "" <;> simp [hd] at hc
      subst hc; rfl
    · cases fl <;> simp [flushCalls] at hc
      subst hc; rfl
    · exact ih c hc

/-- Counterexample to C6 as stated: the status written is `int(S)`, not `S`.  For a
`stream_start` with status 429.5 the assembler calls `WriteHeader(429)`, and for the status 1e19,
which is no value of `int`, it calls `WriteHeader(-9223372036854775808)`. -/
theorem streaming_status_counterexample :
    statusCalls (processWebSocketResponse true
      [.frame ⟨"r", "stream_start", [("status", .num fractionalStatus)]⟩,
       .frame ⟨"r", "stream_chunk", [("data", .str "a")]⟩,
       .frame ⟨"r", "stream_end", []⟩]).state.calls = [429] ∧
    ((429 : Int) : ℚ) ≠ fractionalStatus ∧
    statusCalls (processWebSocketResponse true
      [.frame ⟨"r", "stream_start", [("status", .num hugeStatus)]⟩,
       .frame ⟨"r", "stream_chunk", [("data", .str "a")]⟩,
       .frame ⟨"r", "stream_end", []⟩]).state.calls = [-9223372036854775808] ∧
    ((-9223372036854775808 : Int) : ℚ) ≠ hugeStatus := by
  refine ⟨by decide, by decide, by decide, by decide⟩

/-- C6 (amended): when the assembler starts uncommitted and consumes a `stream_start` whose
status is a number `S` in the range of `int`, then `stream_chunk` frames with the data strings
`d1, ..., dn`, then `stream_end`, it returns at `stream_end` without taking a further event.
The calls on the writer are the header calls of the payload, `WriteHeader(int(S))` and the
flush, then one `Write` for each non-empty chunk, each followed by the flush: the only status
written is `int(S)`, which is `S` itself when `S` is an integer, the body written is
`d1 ++ ... ++ dn`, and every header and status call comes before every body byte. -/
theorem streaming_assembly (flusher : Bool) (startMsg endMsg : WSMessage) (S : ℚ)
    (chunks : List WSMessage) (ds : List String) (rest : List Ev)
    (hs : startMsg.MsgType = "stream_start")
    (hS : JObj.lookup startMsg.Payload "status" = some (.num S))
    (hr : InIntRange S)
    (hc : List.Forall₂ (fun m d => m.MsgType = "stream_chunk" ∧
      JObj.lookup m.Payload "data" = some (.str d)) chunks ds)
    (he : endMsg.MsgType = "stream_end") :
    (processWebSocketResponse flusher
      (.frame startMsg :: (chunks.map Ev.frame ++ .frame endMsg :: rest))).returned = true ∧
    (processWebSocketResponse flusher
      (.frame startMsg :: (chunks.map Ev.frame ++ .frame endMsg :: rest))).rest = rest ∧
    (processWebSocketResponse flusher
      (.frame startMsg :: (chunks.map Ev.frame ++ .frame endMsg :: rest))).state.calls
      = (setResponseHeaders startMsg.Payload ++ [.writeHeader (truncInt S)] ++ flushCalls flusher)
          ++ chunkCalls flusher ds ∧
    statusCalls (processWebSocketResponse flusher
      (.frame startMsg :: (chunks.map Ev.frame ++ .frame endMsg :: rest))).state.calls
      = [truncInt S] ∧
    (∀ n : Int, S = (n : ℚ) →
      statusCalls (processWebSocketResponse flusher
        (.frame startMsg :: (chunks.map Ev.frame ++ .frame endMsg :: rest))).state.calls
        = [n]) ∧
    writtenBody (processWebSocketResponse flusher
      (.frame startMsg :: (chunks.map Ev.frame ++ .frame endMsg :: rest))).state.calls
      = String.join ds ∧
    (∀ c ∈ setResponseHeaders startMsg.Payload ++ [.writeHeader (truncInt S)]
        ++ flushCalls flusher, c.isWrite = false) ∧
    (∀ c ∈ chunkCalls flusher ds, c.isHead = false) := by
  have hstep := step_stream_start flusher AState.init startMsg hs
  have hrun := runFrom_chunks_end flusher endMsg rest he chunks ds hc _
    (onStreamStart_headersSet flusher AState.init startMsg)
  have hcalls : (processWebSocketResponse flusher
      (.frame startMsg :: (chunks.map Ev.frame ++ .frame endMsg :: rest))).state.calls
      = (setResponseHeaders startMsg.Payload ++ [.writeHeader (truncInt S)] ++ flushCalls flusher)
          ++ chunkCalls flusher ds := by
    rw [processWebSocketResponse, runFrom_cons_continue _ _ _ _
      (by rw [hstep]; exact onStreamStart_snd _ _ _), hstep, hrun.2.2,
      onStreamStart_calls _ _ _ rfl]
    simp [writeStatusCode, hS, AState.init, goInt_of_range S hr]
  have hstatus : statusCalls (processWebSocketResponse flusher
      (.frame startMsg :: (chunks.map Ev.frame ++ .frame endMsg :: rest))).state.calls
      = [truncInt S] := by
    rw [hcalls]
    simp [statusCalls_append, statusCalls_setResponseHeaders, statusCalls_flushCalls,
      statusCalls, statusCalls_chunkCalls]
  refine ⟨?_, ?_, hcalls, hstatus, ?_, ?_, ?_, isHead_chunkCalls flusher ds⟩
  · rw [processWebSocketResponse, runFrom_cons_continue _ _ _ _
      (by rw [hstep]; exact onStreamStart_snd _ _ _), hstep]
    exact hrun.1
  · rw [processWebSocketResponse, runFrom_cons_continue _ _ _ _
      (by rw [hstep]; exact onStreamStart_snd _ _ _), hstep]
    exact hrun.2.1
  · intro n hn
    rw [hstatus, hn, truncInt_intCast]
  · rw [hcalls]
    simp [writtenBody_append, writtenBody_setResponseHeaders, writtenBody_flushCalls,
      writtenBody_chunkCalls, writtenBody]
  · intro c hc
    simp only [List.mem_append, List.mem_singleton] at hc
    rcases hc with (hc | hc) | hc
    · exact isWrite_setResponseHeaders _ c hc
    · subst hc; rfl
    · cases flusher <;> simp [flushCalls] at hc
      subst hc; rfl

/-- Witness of C6 (scenario S2): status 200 and the chunks "a", "b" give the body "ab". -/
theorem streaming_assembly_witness :
    writtenBody (processWebSocketResponse true
      [.frame ⟨"r", "stream_start",
          [("headers", .obj [("Content-Type", .str "text/event-stream")]), ("status", .num 200)]⟩,
       .frame ⟨"r", "stream_chunk", [("data", .str "a")]⟩,
       .frame ⟨"r", "stream_chunk", [("data", .str "b")]⟩,
       .frame ⟨"r", "stream_end", []⟩]).state.calls = String.join ["a", "b"] :=
  (streaming_assembly true
    ⟨"r", "stream_start",
      [("headers", .obj [("Content-Type", .str "text/event-stream")]), ("status", .num 200)]⟩
    ⟨"r", "stream_end", []⟩ 200
    [⟨"r", "stream_chunk", [("data", .str "a")]⟩, ⟨"r", "stream_chunk", [("data", .str "b")]⟩]
    ["a", "b"] [] rfl rfl ⟨by decide, by decide⟩
    (.cons ⟨rfl, rfl⟩ (.cons ⟨rfl, rfl⟩ .nil)) rfl).2.2.2.2.2.1

theorem writeStatusCode_eq (p : JObj) :
    writeStatusCode p = [.writeHeader
      (match JObj.lookup p "status" with
        | some (.num q) => goInt q
        | _ => 200)] := by
  unfold writeStatusCode
  cases h : JObj.lookup p "status" with
  | none => rfl
  | some v => cases v <;> rfl

theorem statusOr_of_not_num (p : JObj) (dflt : Int)
    (h : ∀ q, JObj.lookup p "status" ≠ some (.num q)) :
    (match JObj.lookup p "status" with
      | some (.num q) => goInt q
      | _ => dflt) = dflt := by
  cases h' : JObj.lookup p "status" with
  | none => rfl
  | some v =>
    cases v with
    | num q => exact absurd h' (h q)
    | _ => rfl

theorem bodyData_of_body (p : JObj) (b : String)
    (hd : ∀ d, JObj.lookup p "data" ≠ some (.str d))
    (hb : JObj.lookup p "body" = some (.str b)) : bodyData p = b := by
  unfold bodyData
  cases h' : JObj.lookup p "data" with
  | none => simp [hb]
  | some v =>
    cases v with
    | str d => exact absurd h' (hd d)
    | _ => simp [hb]

theorem bodyData_of_neither (p : JObj)
    (hd : ∀ d, JObj.lookup p "data" ≠ some (.str d))
    (hb : ∀ b, JObj.lookup p "body" ≠ some (.str b)) : bodyData p = "" := by
  have hbody : (match JObj.lookup p "body" with
      | some (.str body) => body
      | _ => "") = "" := by
    cases h' : JObj.lookup p "body" with
    | none => rfl
    | some v =>
      cases v with
      | str b => exact absurd h' (hb b)
      | _ => rfl
  unfold bodyData
  cases h' : JObj.lookup p "data" with
  | none => exact hbody
  | some v =>
    cases v with
    | str d => exact absurd h' (hd d)
    | _ => exact hbody

/-- C7, counterexample: an `http_response` frame whose payload has `body` "x" and also a string
`data` "y" gets "y" written as the response body, not `payload.body`; and the status written is
`int(payload.status)`, not `payload.status`: 429 for the status 429.5, and
-9223372036854775808 for the status 1e19, which is no value of `int`. -/
theorem single_shot_body_counterexample :
    JObj.lookup [("body", .str "x"), ("data", .str "y"), ("status", .num 200)] "body"
      = some (.str "x") ∧
    (processWebSocketResponse false [.frame ⟨"r", "http_response",
      [("body", .str "x"), ("data", .str "y"), ("status", .num 200)]⟩]).state.calls
      = [.writeHeader 200, .write "y"] ∧
    writtenBody (processWebSocketResponse false [.frame ⟨"r", "http_response",
      [("body", .str "x"), ("data", .str "y"), ("status", .num 200)]⟩]).state.calls ≠ "x" ∧
    statusCalls (processWebSocketResponse false [.frame ⟨"r", "http_response",
      [("body", .str "x"), ("status", .num fractionalStatus)]⟩]).state.calls = [429] ∧
    ((429 : Int) : ℚ) ≠ fractionalStatus ∧
    statusCalls (processWebSocketResponse false [.frame ⟨"r", "http_response",
      [("body", .str "x"), ("status", .num hugeStatus)]⟩]).state.calls
      = [-9223372036854775808] := by
  refine ⟨rfl, rfl, ?_, ?_, ?_, ?_⟩ <;> decide

/-- C7, amended: an `http_response` frame consumed while uncommitted makes the assembler issue
the header calls of the payload, then `WriteHeader(code)`, then one `Write` of the body when it
is not empty, and return without taking any further event.  The `code` is `int(payload.status)`
when `payload.status` is a number in the range of `int` (`payload.status` itself when it is an
integer) and 200 when it is not a number.  When `payload.data` is not a string, the body is
`payload.body` when that is a string and empty otherwise.  A `stream_start` without a numeric
status commits with `WriteHeader(200)`. -/
theorem single_shot_response (flusher : Bool) (s : AState) (msg : WSMessage) (evs : List Ev)
    (hu : s.headersSet = false) (ht : msg.MsgType = "http_response") :
    (runFrom flusher s (.frame msg :: evs)).returned = true ∧
    (runFrom flusher s (.frame msg :: evs)).rest = evs ∧
    (∃ (code : Int) (body : String),
      (runFrom flusher s (.frame msg :: evs)).state.calls
        = s.calls ++ setResponseHeaders msg.Payload ++ [.writeHeader code]
            ++ (if body = "" then [] else [.write body]) ∧
      (∀ q, JObj.lookup msg.Payload "status" = some (.num q) → InIntRange q →
        code = truncInt q) ∧
      (∀ n : Int, JObj.lookup msg.Payload "status" = some (.num (n : ℚ)) → minInt ≤ n →
        n ≤ maxInt → code = n) ∧
      ((∀ q, JObj.lookup msg.Payload "status" ≠ some (.num q)) → code = 200) ∧
      ((∀ d, JObj.lookup msg.Payload "data" ≠ some (.str d)) →
        ∀ b, JObj.lookup msg.Payload "body" = some (.str b) → body = b) ∧
      ((∀ d, JObj.lookup msg.Payload "data" ≠ some (.str d)) →
        (∀ b, JObj.lookup msg.Payload "body" ≠ some (.str b)) → body = "")) ∧
    (∀ start : WSMessage, start.MsgType = "stream_start" →
      (∀ q, JObj.lookup start.Payload "status" ≠ some (.num q)) →
      (step flusher s (.frame start)).2 = false ∧
      (step flusher s (.frame start)).1.headersSet = true ∧
      (step flusher s (.frame start)).1.calls
        = s.calls ++ setResponseHeaders start.Payload ++ [.writeHeader 200]
            ++ flushCalls flusher) := by
  have hstep := step_http_response flusher s msg ht
  have hret : (step flusher s (.frame msg)).2 = true := by
    rw [hstep]; simp [onHttpResponse, hu]
  rw [runFrom_cons_return _ _ _ _ hret, hstep]
  have hcode : ∀ q, JObj.lookup msg.Payload "status" = some (.num q) → InIntRange q →
      (match JObj.lookup msg.Payload "status" with
        | some (.num q) => goInt q
        | _ => 200) = truncInt q := by
    intro q hq hr
    simp only [hq, goInt_of_range q hr]
  refine ⟨rfl, rfl, ⟨(match JObj.lookup msg.Payload "status" with
      | some (.num q) => goInt q
      | _ => 200), bodyData msg.Payload, ?_, hcode, ?_, ?_, ?_, ?_⟩, ?_⟩
  · simp only [onHttpResponse, hu, writeBody]
    rw [writeStatusCode_eq]
    simp
  · intro n hn h1 h2
    rw [hcode (n : ℚ) hn (inIntRange_intCast n h1 h2), truncInt_intCast]
  · intro hq; exact statusOr_of_not_num _ _ hq
  · intro hd b hb; exact bodyData_of_body _ _ hd hb
  · intro hd hb; exact bodyData_of_neither _ hd hb
  · intro start hst hq
    rw [step_stream_start flusher s start hst]
    refine ⟨onStreamStart_snd _ _ _, onStreamStart_headersSet _ _ _, ?_⟩
    rw [onStreamStart_calls _ _ _ hu, writeStatusCode_eq, statusOr_of_not_num _ _ hq]

/-- Witness of C7 (scenario S1): status 200, one header, the body of S1. -/
theorem single_shot_response_witness :
    ∃ (code : Int) (body : String),
      (runFrom true AState.init [.frame ⟨"r", "http_response",
        [("body", .str "\x7b\"ok\":true\x7d"),
         ("headers", .obj [("Content-Type", .str "application/json")]),
         ("status", .num 200)]⟩]).state.calls
        = AState.init.calls ++ setResponseHeaders
            [("body", .str "\x7b\"ok\":true\x7d"),
             ("headers", .obj [("Content-Type", .str "application/json")]),
             ("status", .num 200)] ++ [.writeHeader code]
            ++ (if body = "" then [] else [.write body]) ∧
      code = 200 ∧ body = "\x7b\"ok\":true\x7d" := by
  obtain ⟨code, body, hcalls, -, hn, -, hb, -⟩ :=
    (single_shot_response true AState.init ⟨"r", "http_response",
      [("body", .str "\x7b\"ok\":true\x7d"),
       ("headers", .obj [("Content-Type", .str "application/json")]),
       ("status", .num 200)]⟩ [] rfl rfl).2.2.1
  exact ⟨code, body, hcalls, hn 200 rfl (by decide) (by decide),
    hb (by intro d h; cases h) _ rfl⟩

/-- C8, the code at the failing input: after a `stream_start`, an `http_response` frame makes
the assembler return at once.  For every payload of the two frames, the events that follow the
`http_response` frame (a `stream_chunk` and the `stream_end`, say) are not consumed and nothing
was written to the body. -/
theorem http_response_after_commit_returns (flusher : Bool) (id1 id2 : String) (p1 p2 : JObj)
    (evs : List Ev) :
    (processWebSocketResponse flusher
      (.frame ⟨id1, "stream_start", p1⟩ :: .frame ⟨id2, "http_response", p2⟩ :: evs)).returned
      = true ∧
    (processWebSocketResponse flusher
      (.frame ⟨id1, "stream_start", p1⟩ :: .frame ⟨id2, "http_response", p2⟩ :: evs)).rest
      = evs ∧
    writtenBody (processWebSocketResponse flusher
      (.frame ⟨id1, "stream_start", p1⟩ :: .frame ⟨id2, "http_response", p2⟩ :: evs)).state.calls
      = "" := by
  have hstep := step_stream_start flusher AState.init ⟨id1, "stream_start", p1⟩ rfl
  have hset := onStreamStart_headersSet flusher AState.init ⟨id1, "stream_start", p1⟩
  have hstep2 := step_http_response flusher
    (onStreamStart flusher AState.init ⟨id1, "stream_start", p1⟩).1 ⟨id2, "http_response", p2⟩ rfl
  have hret : (step flusher (onStreamStart flusher AState.init ⟨id1, "stream_start", p1⟩).1
      (.frame ⟨id2, "http_response", p2⟩)).2 = true := by
    rw [hstep2]; simp [onHttpResponse, hset]
  rw [processWebSocketResponse, runFrom_cons_continue _ _ _ _
    (by rw [hstep]; exact onStreamStart_snd _ _ _), hstep, runFrom_cons_return _ _ _ _ hret,
    hstep2]
  refine ⟨rfl, rfl, ?_⟩
  simp only [onHttpResponse, hset, if_true]
  rw [onStreamStart_calls _ _ _ rfl]
  simp [writtenBody_append, writtenBody_setResponseHeaders, writtenBody_writeStatusCode,
    writtenBody_flushCalls, AState.init, writtenBody]

/-- Counterexample to C9 as stated: the status passed to `http.Error` is `int(payload.status)`,
not `payload.status`: 429 for the status 429.5, and -9223372036854775808 for the status 1e19,
which is no value of `int`. -/
theorem client_error_status_counterexample :
    (processWebSocketResponse false [.frame ⟨"r", "error",
        [("error", .str "quota"), ("status", .num fractionalStatus)]⟩]).state.calls
      = [.error "quota" 429] ∧
    ((429 : Int) : ℚ) ≠ fractionalStatus ∧
    (processWebSocketResponse false [.frame ⟨"r", "error",
        [("error", .str "quota"), ("status", .num hugeStatus)]⟩]).state.calls
      = [.error "quota" (-9223372036854775808)] ∧
    ((-9223372036854775808 : Int) : ℚ) ≠ hugeStatus := by
  refine ⟨rfl, ?_, rfl, ?_⟩ <;> decide

/-- C9 (amended): an `error` frame consumed while uncommitted makes the assembler call
`http.Error(w, errMsg, statusCode)` once and return without taking any further event; `errMsg`
is `payload.error` when it is a string and "Bad Gateway: Client reported an error" otherwise,
`statusCode` is `int(payload.status)` when `payload.status` is a number in the range of `int`
(`payload.status` itself when it is an integer) and 502 when it is not a number. -/
theorem client_error_before_commit (flusher : Bool) (s : AState) (msg : WSMessage)
    (evs : List Ev) (hu : s.headersSet = false) (ht : msg.MsgType = "error") :
    (runFrom flusher s (.frame msg :: evs)).returned = true ∧
    (runFrom flusher s (.frame msg :: evs)).rest = evs ∧
    ∃ statusCode : Int,
      (runFrom flusher s (.frame msg :: evs)).state.calls
        = s.calls ++ [.error
            (match JObj.lookup msg.Payload "error" with
              | some (.str e) => e
              | _ => "Bad Gateway: Client reported an error")
            statusCode] ∧
      (∀ q, JObj.lookup msg.Payload "status" = some (.num q) → InIntRange q →
        statusCode = truncInt q) ∧
      (∀ n : Int, JObj.lookup msg.Payload "status" = some (.num (n : ℚ)) → minInt ≤ n →
        n ≤ maxInt → statusCode = n) ∧
      ((∀ q, JObj.lookup msg.Payload "status" ≠ some (.num q)) → statusCode = 502) := by
  have hstep := step_error flusher s msg ht
  have hret : (step flusher s (.frame msg)).2 = true := by
    rw [hstep]; simp [onError, hu]
  rw [runFrom_cons_return _ _ _ _ hret, hstep]
  have hcode : ∀ q, JObj.lookup msg.Payload "status" = some (.num q) → InIntRange q →
      frameErrStatus msg = truncInt q := by
    intro q hq hr
    simp only [frameErrStatus, hq, goInt_of_range q hr]
  refine ⟨rfl, rfl, frameErrStatus msg, ?_, hcode, ?_, ?_⟩
  · simp [onError, hu, frameErrMsg]
  · intro n hn h1 h2
    rw [hcode (n : ℚ) hn (inIntRange_intCast n h1 h2), truncInt_intCast]
  · intro hno
    unfold frameErrStatus
    cases hl : JObj.lookup msg.Payload "status" with
    | none => rfl
    | some v =>
      cases v with
      | num q => exact absurd hl (hno q)
      | _ => rfl

/-- Witness of C9: an `error` frame with status 429 and message "quota". -/
theorem client_error_before_commit_witness :
    ∃ statusCode : Int,
      (runFrom false AState.init [.frame ⟨"r", "error",
          [("error", .str "quota"), ("status", .num 429)]⟩]).state.calls
        = AState.init.calls ++ [.error "quota" statusCode] ∧ statusCode = 429 := by
  obtain ⟨statusCode, h1, -, h3, -⟩ := (client_error_before_commit false AState.init
    ⟨"r", "error", [("error", .str "quota"), ("status", .num 429)]⟩ [] rfl rfl).2.2
  exact ⟨statusCode, h1, h3 429 rfl (by decide) (by decide)⟩

/-- C10: when the context is done (the 600 s timeout or the cancellation of the request) the
assembler returns, taking no further event; it calls `http.Error` with 504 if and only if the
headers are not committed, and when they are committed it makes no call on the writer at
all. -/
theorem timeout_or_cancellation (flusher : Bool) (s : AState) (evs : List Ev) :
    (runFrom flusher s (.ctxDone :: evs)).returned = true ∧
    (runFrom flusher s (.ctxDone :: evs)).rest = evs ∧
    (runFrom flusher s (.ctxDone :: evs)).state.calls
      = s.calls ++ (if s.headersSet then [] else [.error "Gateway Timeout" 504]) ∧
    (s.headersSet = true → (runFrom flusher s (.ctxDone :: evs)).state = s) ∧
    (statusCalls (runFrom flusher s (.ctxDone :: evs)).state.calls = statusCalls s.calls ++ [504]
      ↔ s.headersSet = false) := by
  have hret : (step flusher s .ctxDone).2 = true := by
    simp only [step]; split_ifs <;> rfl
  rw [runFrom_cons_return _ _ _ _ hret]
  cases h : s.headersSet <;> simp [step, h, statusCalls_append, statusCalls]

/-- Witness of C10: the context done after a `stream_start` leaves the state as it was. -/
theorem timeout_or_cancellation_witness :
    (runFrom true ⟨true, [], 0, "", [.writeHeader 200, .flush], []⟩ [.ctxDone]).state
      = ⟨true, [], 0, "", [.writeHeader 200, .flush], []⟩ :=
  (timeout_or_cancellation true ⟨true, [], 0, "", [.writeHeader 200, .flush], []⟩ []).2.2.2.1
    rfl

/-! ## The ingress handler -/

theorem forwarded_iff (k : String) :
    forwarded k = true ↔
      k ∉ ["Connection", "Keep-Alive", "Proxy-Authenticate", "Proxy-Authorization", "Te",
        "Trailers", "Transfer-Encoding", "Upgrade"] := by
  simp [forwarded, and_assoc]

theorem forwardHeaders_lookup (H : Header) (k : String) :
    Header.lookup (forwardHeaders H) k = if forwarded k then Header.lookup H k else none := by
  induction H with
  | nil => simp [forwardHeaders, Header.lookup]
  | cons e H ih =>
    obtain ⟨k', v⟩ := e
    by_cases hf : forwarded k' = true
    · by_cases hk : k' = k
      · subst hk; simp [forwardHeaders, Header.lookup, hf]
      · simp [forwardHeaders, Header.lookup, hf, hk, ih]
    · by_cases hk : k' = k
      · subst hk; simp [forwardHeaders, Header.lookup, hf, ih]
      · simp [forwardHeaders, Header.lookup, hf, hk, ih]

theorem sent_headers {β : Type} (c : JSONCodec β) (env : Env β) (pending : Pending)
    (r : Request) (conn : Nat) (frame : RequestFrame β)
    (h : (conn, frame) ∈ (handleProxyRequest c env pending r).sent) :
    frame.MsgType = "http_request" ∧ frame.headers = forwardHeaders r.Header := by
  unfold handleProxyRequest at h
  split at h
  · simp at h
  · simp only [handleRegistered] at h
    split at h
    · simp at h
    · split at h
      · simp at h
      · split at h <;> simp at h <;> (obtain ⟨-, rfl⟩ := h; exact ⟨rfl, rfl⟩)

/-- C3: in every `http_request` frame the handler passes to `safeWriteJSON`, the `headers` map
is the inbound header map `H` restricted to the keys other than `Connection`, `Keep-Alive`,
`Proxy-Authenticate`, `Proxy-Authorization`, `Te`, `Trailers`, `Transfer-Encoding`, `Upgrade`
(compared exactly): each of the eight is absent, and every other key has in the frame what it
has in `H`, the same ordered list of values when present and nothing when absent. -/
theorem header_passthrough_fidelity {β : Type} (c : JSONCodec β) (env : Env β)
    (pending : Pending) (r : Request) (conn : Nat) (frame : RequestFrame β)
    (h : (conn, frame) ∈ (handleProxyRequest c env pending r).sent) :
    frame.MsgType = "http_request" ∧
    (∀ k ∈ ["Connection", "Keep-Alive", "Proxy-Authenticate", "Proxy-Authorization", "Te",
        "Trailers", "Transfer-Encoding", "Upgrade"], Header.lookup frame.headers k = none) ∧
    (∀ k, k ∉ ["Connection", "Keep-Alive", "Proxy-Authenticate", "Proxy-Authorization", "Te",
        "Trailers", "Transfer-Encoding", "Upgrade"] →
      Header.lookup frame.headers k = Header.lookup r.Header k) := by
  obtain ⟨ht, hh⟩ := sent_headers c env pending r conn frame h
  refine ⟨ht, ?_, ?_⟩
  · intro k hk
    have hf : ¬ forwarded k = true := fun hf => (forwarded_iff k).1 hf hk
    rw [hh, forwardHeaders_lookup]
    simp [hf]
  · intro k hk
    rw [hh, forwardHeaders_lookup, (forwarded_iff k).2 hk]
    simp

/-- Witness of C3: `Connection` is dropped, `Accept` keeps its two values in order. -/
theorem header_passthrough_fidelity_witness :
    Header.lookup (forwardHeaders demoRequest.Header) "Connection" = none ∧
    Header.lookup (forwardHeaders demoRequest.Header) "Accept" = some ["a", "b"] :=
  have h := header_passthrough_fidelity JSONCodec.canonical demoEnv [] demoRequest 0
    ⟨"req-1", "http_request", "POST",
      "https://generativelanguage.googleapis.com/v1beta/models/x:generateContent",
      forwardHeaders demoRequest.Header, []⟩ (List.Mem.head [])
  ⟨h.2.1 "Connection" (by decide), (h.2.2 "Accept" (by decide)).trans rfl⟩

theorem pending_filter_fresh (pending : Pending) (reqID : String)
    (h : ∀ e ∈ pending, e.1 ≠ reqID) : pending.filter (fun e => e.1 != reqID) = pending := by
  rw [List.filter_eq_self]
  intro e he
  simpa using h e he

/-- C5: a run of `handleProxyRequest` that passes authentication stores the fresh request id in
the pending table once and deletes it once, on every exit path (whatever the connection lookup,
the body read, the frame write and the assembler do), and the table it leaves is the table it
found; a run that fails authentication makes no mutation of the table. -/
theorem registration_balance {β : Type} (c : JSONCodec β) (env : Env β) (pending : Pending)
    (r : Request) (hfresh : ∀ e ∈ pending, e.1 ≠ env.reqID) :
    (∀ userID, authenticateHTTPRequest env.authAPIKey r = .ok userID →
      (handleProxyRequest c env pending r).pendingOps = [.store env.reqID, .delete env.reqID] ∧
      (handleProxyRequest c env pending r).pending = pending) ∧
    (∀ e, authenticateHTTPRequest env.authAPIKey r = .error e →
      (handleProxyRequest c env pending r).pendingOps = [] ∧
      (handleProxyRequest c env pending r).pending = pending ∧
      (handleProxyRequest c env pending r).calls = [.error "Proxy authentication failed" 401])
    := by
  constructor
  · intro userID hok
    simp only [handleProxyRequest, hok, Pending.store, Pending.delete, List.filter_cons]
    simp [pending_filter_fresh pending env.reqID hfresh]
  · intro e herr
    simp [handleProxyRequest, herr]

/-- Witness of C5: with another request pending, the authenticated run of `demoRequest` leaves
the table as it found it. -/
theorem registration_balance_witness :
    (handleProxyRequest JSONCodec.canonical demoEnv [("req-0", [])] demoRequest).pending
      = [("req-0", [])] :=
  ((registration_balance JSONCodec.canonical demoEnv [("req-0", [])] demoRequest
    (by decide)).1 "user-1" rfl).2

/-! ## The rewriter: bodies it leaves alone, and scenario S5 -/

theorem fixSystemInstructionObj_roleFree (o : JObj) :
    RoleFree (fixSystemInstructionObj o).2 := by
  intro si hsi
  simp only [fixSystemInstructionObj] at hsi
  rw [fixThinking_lookup_ne _ _ (by decide)] at hsi
  exact fixRole_roleFree o si hsi

theorem fixSystemInstructionObj_levelFree (o : JObj) :
    LevelFree (fixSystemInstructionObj o).2 :=
  fixThinking_levelFree _

theorem fixSystemInstructionObj_fixed (o : JObj) (h1 : RoleFree o) (h2 : LevelFree o) :
    fixSystemInstructionObj o = (false, o) := by
  rw [fixSystemInstructionObj.eq_1 o, fixRole_fixed o h1]
  simp only [fixThinking_fixed o h2]
  rfl

/-- C11: the rewriter returns its input bytes whenever it mutates nothing.  When `b` does not
parse as a JSON object, `fixToolDefinitions` and `fixSystemInstruction` both return `b`.  When
`b` parses to `o` and no rule applies, the result is `b` itself and `json.Marshal` is not even
called: `fixToolDefinitions` returns `b` when `o` is settled (no tool has an array
`functionDeclarations`, no processed declaration has `parametersJsonSchema` or an unsupported
key on the path `cleanParameters` follows), `fixSystemInstruction` returns `b` when
`systemInstruction` has no `role` and `thinkingLevel` is not a string, and then so does the
rewriter as a whole. -/
theorem rewriter_returns_original_bytes {β : Type} (c : JSONCodec β) (b : β) :
    (c.unmarshal b = none → fixToolDefinitions c b = b ∧ fixSystemInstruction c b = b) ∧
    (∀ o, c.unmarshal b = some o → JVal.wf (.obj o) = true → BodySettled o →
      fixToolDefinitions c b = b) ∧
    (∀ o, c.unmarshal b = some o → RoleFree o → LevelFree o → fixSystemInstruction c b = b) ∧
    (∀ o, c.unmarshal b = some o → JVal.wf (.obj o) = true → BodySettled o → RoleFree o →
      LevelFree o → rewriteBody c b = b) := by
  have tools : ∀ o, c.unmarshal b = some o → JVal.wf (.obj o) = true → BodySettled o →
      fixToolDefinitions c b = b := fun o hb hwf hs =>
    fixToolDefinitions_of_none c b o hb (fixToolDefinitionsObj_fixed o hwf hs)
  have sys : ∀ o, c.unmarshal b = some o → RoleFree o → LevelFree o →
      fixSystemInstruction c b = b := fun o hb h1 h2 =>
    fixSystemInstruction_of_unmod c b o hb (by rw [fixSystemInstructionObj_fixed o h1 h2])
  refine ⟨?_, tools, sys, ?_⟩
  · intro hb
    exact ⟨by simp [fixToolDefinitions, hb], by simp [fixSystemInstruction, hb]⟩
  · intro o hb hwf hs h1 h2
    rw [rewriteBody, tools o hb hwf hs, sys o hb h1 h2]

/-- Witness of C11: the emitted body of scenario S5 comes back as it is. -/
theorem rewriter_returns_original_bytes_witness :
    rewriteBody JSONCodec.canonical s5Expected = s5Expected :=
  (rewriter_returns_original_bytes JSONCodec.canonical s5Expected).2.2.2 s5Expected rfl rfl
    (rewriteBody_settled s5Body rfl) (fixSystemInstructionObj_roleFree
      ((fixToolDefinitionsObj s5Body).getD s5Body))
    (fixSystemInstructionObj_levelFree ((fixToolDefinitionsObj s5Body).getD s5Body))

/-- C12 (scenario S5): whatever the bytes `b` of the body of S5 are, the bytes the rewriter
returns for them parse to the JSON value
`{"generationConfig":{"thinkingConfig":{"thinkingBudget":6560}},
"systemInstruction":{"parts":[{"text":"s"}]},
"tools":[{"function_declarations":[{"name":"f","parameters":{"properties":{"x":{"type":"number"}},
"type":"object"}}]}]}`. -/
theorem scenario_s5 {β : Type} (c : JSONCodec β) (hc : c.Lawful) (b : β)
    (hb : c.unmarshal b = some s5Body) :
    c.unmarshal (fixSystemInstruction c (fixToolDefinitions c b)) = some s5Expected :=
  rewriteBody_unmarshal c hc b s5Body hb

/-- Witness of C12: the canonical codec, whose bytes are the parsed bodies themselves. -/
theorem scenario_s5_witness :
    JSONCodec.canonical.unmarshal
      (fixSystemInstruction JSONCodec.canonical (fixToolDefinitions JSONCodec.canonical s5Body))
      = some s5Expected :=
  scenario_s5 JSONCodec.canonical canonical_lawful s5Body rfl

/-! ## fixToolDefinitions: what happens to each tool and to each declaration -/

theorem fixTools_snd (xs : List JVal) : (fixTools xs).2 = xs.map (fun t => (fixTool t).2) := by
  induction xs with
  | nil => rfl
  | cons a xs ih => simp [fixTools, ih]

theorem fixFuncDecls_snd (xs : List JVal) :
    (fixFuncDecls xs).2 = xs.map (fun d => (fixFuncDecl d).2) := by
  induction xs with
  | nil => rfl
  | cons a xs ih => simp [fixFuncDecls, ih]

theorem fixToolDefinitionsObj_tools (o : JObj) (h : JVal.wf (.obj o) = true)
    (tools : List JVal) (ht : JObj.lookup o "tools" = some (.arr tools)) :
    JObj.lookup ((fixToolDefinitionsObj o).getD o) "tools"
      = some (.arr (fixTools tools).2) := by
  rcases fixToolDefinitionsObj_cases o with
    ⟨tools1, hl, -, -, e⟩ | ⟨tools1, hl, -, hm, e⟩ | ⟨hl, e⟩ | ⟨hno, e⟩
  · rw [ht] at hl
    simp only [Option.some.injEq, JVal.arr.injEq] at hl
    subst hl
    rw [e]
    simp [lookup_store_self]
  · rw [ht] at hl
    simp only [Option.some.injEq, JVal.arr.injEq] at hl
    subst hl
    have hw := (wf_arr_iff tools).1 (wf_lookup _ _ _ h ht)
    rw [e, fixTools_unmod tools hw hm]
    simpa using ht
  · rw [ht] at hl
    simp only [Option.some.injEq, JVal.arr.injEq] at hl
    subst hl
    rw [e]
    simpa [fixTools] using ht
  · exact absurd ht (hno tools)

theorem fixToolDefinitionsObj_lookup_ne (o : JObj) (k : String) (hk : k ≠ "tools") :
    JObj.lookup ((fixToolDefinitionsObj o).getD o) k = JObj.lookup o k := by
  rcases fixToolDefinitionsObj_cases o with
    ⟨tools1, -, -, -, e⟩ | ⟨tools1, -, -, -, e⟩ | ⟨-, e⟩ | ⟨-, e⟩
  · rw [e]; simp [lookup_store_ne _ _ _ _ hk]
  all_goals rw [e]; rfl

/-- The tool at index `i` of the body that `fixToolDefinitions` returns. -/
theorem fixToolDefinitions_tool {β : Type} (c : JSONCodec β) (hc : c.Lawful) (b : β) (o : JObj)
    (hb : c.unmarshal b = some o) (tools : List JVal)
    (ht : JObj.lookup o "tools" = some (.arr tools)) (i : Nat) (t : JVal)
    (hi : tools[i]? = some t) :
    ∃ o' tools', c.unmarshal (fixToolDefinitions c b) = some o' ∧
      JObj.lookup o' "tools" = some (.arr tools') ∧ tools'[i]? = some (fixTool t).2 := by
  refine ⟨_, _, fixToolDefinitions_unmarshal c hc b o hb,
    fixToolDefinitionsObj_tools o (hc.1 b o hb) tools ht, ?_⟩
  rw [fixTools_snd, List.getElem?_map, hi]
  rfl

theorem fixTool_functionDeclarations (tm : JObj) (fd : List JVal)
    (h : JObj.lookup tm "functionDeclarations" = some (.arr fd)) :
    ∃ tm', (fixTool (.obj tm)).2 = .obj tm' ∧
      JObj.lookup tm' "functionDeclarations" = none ∧
      JObj.lookup tm' "function_declarations" = some (.arr (fixFuncDecls fd).2) ∧
      ∀ k, k ≠ "functionDeclarations" → k ≠ "function_declarations" →
        JObj.lookup tm' k = JObj.lookup tm k := by
  rcases fixTool_obj_cases tm with ⟨fd1, h1, e⟩ | ⟨hno, -⟩ | ⟨hno, -⟩
  · rw [h] at h1
    simp only [Option.some.injEq, JVal.arr.injEq] at h1
    subst h1
    refine ⟨_, by rw [e], ?_, lookup_store_self _ _ _, ?_⟩
    · rw [lookup_store_ne _ _ _ _ (by decide), lookup_delete_self]
    · intro k h1 h2
      rw [lookup_store_ne _ _ _ _ h2, lookup_delete_ne _ _ _ h1, lookup_store_ne _ _ _ _ h2]
  · exact absurd h (hno fd)
  · exact absurd h (hno fd)

theorem fixTool_no_functionDeclarations (tm : JObj)
    (h : ∀ fd, JObj.lookup tm "functionDeclarations" ≠ some (.arr fd)) :
    ∃ tm', (fixTool (.obj tm)).2 = .obj tm' ∧
      (∀ fd, JObj.lookup tm "function_declarations" = some (.arr fd) →
        JObj.lookup tm' "function_declarations" = some (.arr (fixFuncDecls fd).2)) ∧
      ((∀ fd, JObj.lookup tm "function_declarations" ≠ some (.arr fd)) →
        JObj.lookup tm' "function_declarations" = JObj.lookup tm "function_declarations") ∧
      ∀ k, k ≠ "function_declarations" → JObj.lookup tm' k = JObj.lookup tm k := by
  rcases fixTool_obj_cases tm with ⟨fd1, h1, -⟩ | ⟨-, fd1, h2, e⟩ | ⟨-, hno2, e⟩
  · exact absurd h1 (h fd1)
  · refine ⟨_, by rw [e], ?_, ?_, ?_⟩
    · intro fd hfd
      rw [h2] at hfd
      simp only [Option.some.injEq, JVal.arr.injEq] at hfd
      subst hfd
      exact lookup_store_self _ _ _
    · intro hno
      exact absurd h2 (hno fd1)
    · intro k hk
      exact lookup_store_ne _ _ _ _ hk
  · refine ⟨tm, by rw [e], ?_, fun _ => rfl, fun _ _ => rfl⟩
    intro fd hfd
    exact absurd hfd (hno2 fd)

theorem bothKeys_values_differ :
    JVal.arr [.obj [("name", .str "a")]] ≠ JVal.arr [.obj [("name", .str "b")]] := by
  intro h
  simp only [JVal.arr.injEq, List.cons.injEq, JVal.obj.injEq, Prod.mk.injEq, JVal.str.injEq,
    and_true, true_and] at h
  revert h
  decide

/-- C13, counterexample: a tool with `functionDeclarations` `[{"name":"a"}]` and
`function_declarations` `[{"name":"b"}]` is returned with `function_declarations`
`[{"name":"a"}]`: the value it had under `function_declarations` is replaced. -/
theorem function_declarations_kept_counterexample :
    JSONCodec.canonical.unmarshal bothKeysBody = some bothKeysBody ∧
    JObj.lookup bothKeysBody "tools"
      = some (.arr [.obj [("functionDeclarations", .arr [.obj [("name", .str "a")]]),
                          ("function_declarations", .arr [.obj [("name", .str "b")]])]]) ∧
    JSONCodec.canonical.unmarshal (fixToolDefinitions JSONCodec.canonical bothKeysBody)
      = some [("tools", .arr [.obj [("function_declarations",
          .arr [.obj [("name", .str "a")]])]])] ∧
    JVal.arr [.obj [("name", .str "a")]] ≠ JVal.arr [.obj [("name", .str "b")]] :=
  ⟨rfl, rfl, rfl, bothKeys_values_differ⟩

/-- C13, amended: let `tm` be the tool object at index `i` of the top-level `tools` array of a
body, and `tm'` the tool at index `i` of the body `fixToolDefinitions` returns.  When
`functionDeclarations` of `tm` is an array, `tm'` has no `functionDeclarations` and its
`function_declarations` is that array with its declarations processed, whatever
`function_declarations` was in `tm`.  When it is not an array (absent included), `tm'` has the
`functionDeclarations` entry of `tm`, and its `function_declarations` is the one of `tm`, with
the declarations processed when it is an array.  Every other key of the tool is as it was. -/
theorem function_declarations_renamed {β : Type} (c : JSONCodec β) (hc : c.Lawful) (b : β)
    (o : JObj) (hb : c.unmarshal b = some o) (tools : List JVal)
    (ht : JObj.lookup o "tools" = some (.arr tools)) (i : Nat) (tm : JObj)
    (hi : tools[i]? = some (.obj tm)) :
    ∃ o' tools' tm', c.unmarshal (fixToolDefinitions c b) = some o' ∧
      JObj.lookup o' "tools" = some (.arr tools') ∧ tools'[i]? = some (.obj tm') ∧
      (∀ fd, JObj.lookup tm "functionDeclarations" = some (.arr fd) →
        JObj.lookup tm' "functionDeclarations" = none ∧
        JObj.lookup tm' "function_declarations" = some (.arr (fixFuncDecls fd).2)) ∧
      ((∀ fd, JObj.lookup tm "functionDeclarations" ≠ some (.arr fd)) →
        JObj.lookup tm' "functionDeclarations" = JObj.lookup tm "functionDeclarations" ∧
        (∀ fd, JObj.lookup tm "function_declarations" = some (.arr fd) →
          JObj.lookup tm' "function_declarations" = some (.arr (fixFuncDecls fd).2)) ∧
        ((∀ fd, JObj.lookup tm "function_declarations" ≠ some (.arr fd)) →
          JObj.lookup tm' "function_declarations" = JObj.lookup tm "function_declarations")) ∧
      (∀ k, k ≠ "functionDeclarations" → k ≠ "function_declarations" →
        JObj.lookup tm' k = JObj.lookup tm k) := by
  obtain ⟨o', tools', hu, hl, hget⟩ := fixToolDefinitions_tool c hc b o hb tools ht i _ hi
  by_cases hfd : ∃ fd, JObj.lookup tm "functionDeclarations" = some (.arr fd)
  · obtain ⟨fd, hfd⟩ := hfd
    obtain ⟨tm', e, h1, h2, h3⟩ := fixTool_functionDeclarations tm fd hfd
    refine ⟨o', tools', tm', hu, hl, by rw [hget, e], ?_, ?_, h3⟩
    · intro fd' hfd'
      rw [hfd] at hfd'
      simp only [Option.some.injEq, JVal.arr.injEq] at hfd'
      subst hfd'
      exact ⟨h1, h2⟩
    · intro hno
      exact absurd hfd (hno fd)
  · have hno : ∀ fd, JObj.lookup tm "functionDeclarations" ≠ some (.arr fd) :=
      fun fd h => hfd ⟨fd, h⟩
    obtain ⟨tm', e, h1, h2, h3⟩ := fixTool_no_functionDeclarations tm hno
    refine ⟨o', tools', tm', hu, hl, by rw [hget, e], ?_, ?_, ?_⟩
    · intro fd h
      exact absurd h (hno fd)
    · intro _
      exact ⟨h3 _ (by decide), h1, h2⟩
    · intro k _ hk
      exact h3 k hk

/-- Witness of C13: the tool of scenario S5, whose `functionDeclarations` is renamed. -/
theorem function_declarations_renamed_witness :
    ∃ (o' : JObj) (tools' : List JVal) (tm' : JObj),
      JSONCodec.canonical.unmarshal (fixToolDefinitions JSONCodec.canonical s5Body) = some o' ∧
      JObj.lookup o' "tools" = some (.arr tools') ∧ tools'[0]? = some (.obj tm') ∧
      JObj.lookup tm' "functionDeclarations" = none := by
  obtain ⟨o', tools', tm', h1, h2, h3, h4, -, -⟩ :=
    function_declarations_renamed JSONCodec.canonical canonical_lawful s5Body s5Body rfl
      _ rfl 0 _ rfl
  exact ⟨o', tools', tm', h1, h2, h3, (h4 _ rfl).1⟩

theorem cleanDeclParameters_parameters (d : JObj) :
    JObj.lookup (cleanDeclParameters d).2 "parameters"
      = (JObj.lookup d "parameters").map cleanedValue := by
  unfold cleanDeclParameters
  cases hl : JObj.lookup d "parameters" with
  | none => simp [hl]
  | some v =>
    cases v with
    | obj p => simp [lookup_store_self, cleanedValue]
    | _ => simp [hl, cleanedValue]

theorem renameParametersJsonSchema_lookup_ne (d : JObj) (k : String)
    (h1 : k ≠ "parametersJsonSchema") (h2 : k ≠ "parameters") :
    JObj.lookup (renameParametersJsonSchema d).2 k = JObj.lookup d k := by
  unfold renameParametersJsonSchema
  cases hl : JObj.lookup d "parametersJsonSchema" with
  | none => rfl
  | some v => exact (lookup_delete_ne _ _ _ h1).trans (lookup_store_ne _ _ _ _ h2)

theorem renameParametersJsonSchema_parameters (d : JObj) (v : JVal)
    (h : JObj.lookup d "parametersJsonSchema" = some v) :
    JObj.lookup (renameParametersJsonSchema d).2 "parameters" = some v := by
  unfold renameParametersJsonSchema
  rw [h]
  exact (lookup_delete_ne _ _ _ (by decide)).trans (lookup_store_self _ _ _)

theorem fixFuncDecl_obj (d : JObj) :
    ∃ d', (fixFuncDecl (.obj d)).2 = .obj d' ∧
      JObj.lookup d' "parametersJsonSchema" = none ∧
      (∀ v, JObj.lookup d "parametersJsonSchema" = some v →
        JObj.lookup d' "parameters" = some (cleanedValue v)) ∧
      (JObj.lookup d "parametersJsonSchema" = none →
        JObj.lookup d' "parameters" = (JObj.lookup d "parameters").map cleanedValue) ∧
      (∀ k, k ≠ "parametersJsonSchema" → k ≠ "parameters" →
        JObj.lookup d' k = JObj.lookup d k) := by
  refine ⟨(cleanDeclParameters (renameParametersJsonSchema d).2).2, rfl, ?_, ?_, ?_, ?_⟩
  · rw [cleanDeclParameters_lookup_ne _ _ (by decide)]
    exact renameParametersJsonSchema_none d
  · intro v hv
    rw [cleanDeclParameters_parameters, renameParametersJsonSchema_parameters d v hv]
    rfl
  · intro hnone
    rw [cleanDeclParameters_parameters, renameParametersJsonSchema_fixed d hnone]
  · intro k h1 h2
    rw [cleanDeclParameters_lookup_ne _ _ h2, renameParametersJsonSchema_lookup_ne _ _ h1 h2]

theorem fixTool_processed (tm : JObj) (fd : List JVal) (h : processedDecls tm = some fd) :
    ∃ tm', (fixTool (.obj tm)).2 = .obj tm' ∧
      JObj.lookup tm' "function_declarations" = some (.arr (fixFuncDecls fd).2) := by
  by_cases hfd : ∃ fd1, JObj.lookup tm "functionDeclarations" = some (.arr fd1)
  · obtain ⟨fd1, hfd⟩ := hfd
    have : fd1 = fd := by simpa [processedDecls, hfd] using h
    subst this
    obtain ⟨tm', e, -, h2, -⟩ := fixTool_functionDeclarations tm fd1 hfd
    exact ⟨tm', e, h2⟩
  · have hno : ∀ fd, JObj.lookup tm "functionDeclarations" ≠ some (.arr fd) :=
      fun fd h => hfd ⟨fd, h⟩
    obtain ⟨tm', e, h1, -, -⟩ := fixTool_no_functionDeclarations tm hno
    refine ⟨tm', e, h1 fd ?_⟩
    unfold processedDecls at h
    split at h
    · next fd1 h1 => exact absurd h1 (hno fd1)
    · split at h
      · next fd1 h1 => simpa [h1] using h
      · cases h

/-- C14: let `d` be a declaration object at index `j` of the array the loop of
`fixToolDefinitions` processes for the tool at index `i` (`functionDeclarations` when an array,
else `function_declarations` when an array), and `d'` the declaration at index `j` of
`function_declarations` of that tool in the body returned.  Then `d'` has no
`parametersJsonSchema`; when `d` had one, `parameters` of `d'` is its value, cleaned by
`cleanParameters` when it is an object; when `d` had none, `parameters` of `d'` is the one of
`d`, cleaned likewise; and every other key of `d` has in `d'` the value it had. -/
theorem declaration_parameters_renamed {β : Type} (c : JSONCodec β) (hc : c.Lawful) (b : β)
    (o : JObj) (hb : c.unmarshal b = some o) (tools : List JVal)
    (ht : JObj.lookup o "tools" = some (.arr tools)) (i : Nat) (tm : JObj)
    (hi : tools[i]? = some (.obj tm)) (fd : List JVal) (hfd : processedDecls tm = some fd)
    (j : Nat) (d : JObj) (hj : fd[j]? = some (.obj d)) :
    ∃ o' tools' tm' decls' d', c.unmarshal (fixToolDefinitions c b) = some o' ∧
      JObj.lookup o' "tools" = some (.arr tools') ∧ tools'[i]? = some (.obj tm') ∧
      JObj.lookup tm' "function_declarations" = some (.arr decls') ∧
      decls'[j]? = some (.obj d') ∧
      JObj.lookup d' "parametersJsonSchema" = none ∧
      (∀ v, JObj.lookup d "parametersJsonSchema" = some v →
        (∀ p, v = .obj p → JObj.lookup d' "parameters" = some (.obj (cleanParameters p).2)) ∧
        ((∀ p, v ≠ .obj p) → JObj.lookup d' "parameters" = some v)) ∧
      (JObj.lookup d "parametersJsonSchema" = none →
        JObj.lookup d' "parameters" = (JObj.lookup d "parameters").map cleanedValue) ∧
      (∀ k, k ≠ "parametersJsonSchema" → k ≠ "parameters" →
        JObj.lookup d' k = JObj.lookup d k) := by
  obtain ⟨o', tools', hu, hl, hget⟩ := fixToolDefinitions_tool c hc b o hb tools ht i _ hi
  obtain ⟨tm', e, hdecls⟩ := fixTool_processed tm fd hfd
  obtain ⟨d', ed, h1, h2, h3, h4⟩ := fixFuncDecl_obj d
  refine ⟨o', tools', tm', _, d', hu, hl, by rw [hget, e], hdecls, ?_, h1, ?_, h3, h4⟩
  · rw [fixFuncDecls_snd, List.getElem?_map, hj]
    simp [ed]
  · intro v hv
    refine ⟨?_, ?_⟩
    · rintro p rfl
      exact h2 _ hv
    · intro hno
      rw [h2 v hv]
      cases v with
      | obj p => exact absurd rfl (hno p)
      | _ => rfl

/-- Witness of C14: the declaration `f` of scenario S5. -/
theorem declaration_parameters_renamed_witness :
    ∃ (o' : JObj) (tools' : List JVal) (tm' : JObj) (decls' : List JVal) (d' : JObj),
      JSONCodec.canonical.unmarshal (fixToolDefinitions JSONCodec.canonical s5Body) = some o' ∧
      JObj.lookup o' "tools" = some (.arr tools') ∧ tools'[0]? = some (.obj tm') ∧
      JObj.lookup tm' "function_declarations" = some (.arr decls') ∧
      decls'[0]? = some (.obj d') ∧
      JObj.lookup d' "parametersJsonSchema" = none ∧
      JObj.lookup d' "name" = some (.str "f") := by
  obtain ⟨o', tools', tm', decls', d', h1, h2, h3, h4, h5, h6, -, -, h9⟩ :=
    declaration_parameters_renamed JSONCodec.canonical canonical_lawful s5Body s5Body rfl
      _ rfl 0 _ rfl _ rfl 0 _ rfl
  exact ⟨o', tools', tm', decls', d', h1, h2, h3, h4, h5, h6,
    (h9 "name" (by decide) (by decide)).trans rfl⟩

/-! ## fixSystemInstruction: `thinkingLevel` and `role` -/

theorem fixThinking_converted (o gc tc : JObj) (L : String)
    (h1 : JObj.lookup o "generationConfig" = some (.obj gc))
    (h2 : JObj.lookup gc "thinkingConfig" = some (.obj tc))
    (h3 : JObj.lookup tc "thinkingLevel" = some (.str L)) :
    ∃ gc' tc', JObj.lookup (fixThinking o).2 "generationConfig" = some (.obj gc') ∧
      JObj.lookup gc' "thinkingConfig" = some (.obj tc') ∧
      JObj.lookup tc' "thinkingLevel" = none ∧
      JObj.lookup tc' "thinkingBudget" = some (.num (thinkingBudget L)) ∧
      (∀ k, k ≠ "thinkingLevel" → k ≠ "thinkingBudget" →
        JObj.lookup tc' k = JObj.lookup tc k) ∧
      (∀ k, k ≠ "thinkingConfig" → JObj.lookup gc' k = JObj.lookup gc k) := by
  rcases fixThinking_cases o with ⟨gc1, tc1, L1, e1, e2, e3, e⟩ | ⟨-, hfree⟩
  · rw [h1] at e1
    simp only [Option.some.injEq, JVal.obj.injEq] at e1
    subst e1
    rw [h2] at e2
    simp only [Option.some.injEq, JVal.obj.injEq] at e2
    subst e2
    rw [h3] at e3
    simp only [Option.some.injEq, JVal.str.injEq] at e3
    subst e3
    rw [e]
    refine ⟨_, _, lookup_store_self _ _ _, lookup_store_self _ _ _, lookup_delete_self _ _,
      ?_, ?_, ?_⟩
    · exact (lookup_delete_ne _ _ _ (by decide)).trans (lookup_store_self _ _ _)
    · intro k hk1 hk2
      exact (lookup_delete_ne _ _ _ hk1).trans (lookup_store_ne _ _ _ _ hk2)
    · intro k hk
      exact lookup_store_ne _ _ _ _ hk
  · exact absurd h3 (hfree gc tc h1 h2 L)

theorem fixThinking_generationConfig (o gc : JObj)
    (h1 : JObj.lookup o "generationConfig" = some (.obj gc)) :
    ∃ gc', JObj.lookup (fixThinking o).2 "generationConfig" = some (.obj gc') ∧
      ∀ k, k ≠ "thinkingConfig" → JObj.lookup gc' k = JObj.lookup gc k := by
  rcases fixThinking_cases o with ⟨gc1, tc1, L1, e1, -, -, e⟩ | ⟨e, -⟩
  · rw [h1] at e1
    simp only [Option.some.injEq, JVal.obj.injEq] at e1
    subst e1
    rw [e]
    exact ⟨_, lookup_store_self _ _ _, fun k hk => lookup_store_ne _ _ _ _ hk⟩
  · rw [e]
    exact ⟨gc, h1, fun _ _ => rfl⟩

theorem fixRole_systemInstruction (o si : JObj)
    (h : JObj.lookup o "systemInstruction" = some (.obj si)) :
    ∃ si', JObj.lookup (fixRole o).2 "systemInstruction" = some (.obj si') ∧
      JObj.lookup si' "role" = none ∧
      ∀ k, k ≠ "role" → JObj.lookup si' k = JObj.lookup si k := by
  rcases fixRole_cases o with ⟨si1, rv, e1, -, e⟩ | ⟨e, hfree⟩
  · rw [h] at e1
    simp only [Option.some.injEq, JVal.obj.injEq] at e1
    subst e1
    rw [e]
    exact ⟨_, lookup_store_self _ _ _, lookup_delete_self _ _,
      fun k hk => lookup_delete_ne _ _ _ hk⟩
  · rw [e]
    exact ⟨si, h, hfree si h, fun _ _ => rfl⟩

/-- C15: let the body parse to `o` and the body `fixSystemInstruction` returns to `o'`.  When
`generationConfig.thinkingConfig` of `o` is an object whose `thinkingLevel` is a string `L`,
the `thinkingConfig` of `o'` has no `thinkingLevel`, its `thinkingBudget` is 26240 for
`L = "high"`, 13120 for "medium", 6560 for "low" and 26240 for every other `L` (whatever
`thinkingBudget` was), and its other keys are as they were.  When `thinkingLevel` is absent or
not a string, `generationConfig` is the same in `o'` as in `o`. -/
theorem thinking_level_converted {β : Type} (c : JSONCodec β) (hc : c.Lawful) (b : β)
    (o : JObj) (hb : c.unmarshal b = some o) :
    ∃ o', c.unmarshal (fixSystemInstruction c b) = some o' ∧
      (∀ gc tc L, JObj.lookup o "generationConfig" = some (.obj gc) →
        JObj.lookup gc "thinkingConfig" = some (.obj tc) →
        JObj.lookup tc "thinkingLevel" = some (.str L) →
        ∃ gc' tc' B, JObj.lookup o' "generationConfig" = some (.obj gc') ∧
          JObj.lookup gc' "thinkingConfig" = some (.obj tc') ∧
          JObj.lookup tc' "thinkingLevel" = none ∧
          JObj.lookup tc' "thinkingBudget" = some (.num B) ∧
          (L = "high" → B = 26240) ∧ (L = "medium" → B = 13120) ∧ (L = "low" → B = 6560) ∧
          (L ≠ "high" → L ≠ "medium" → L ≠ "low" → B = 26240) ∧
          (∀ k, k ≠ "thinkingLevel" → k ≠ "thinkingBudget" →
            JObj.lookup tc' k = JObj.lookup tc k)) ∧
      (LevelFree o → JObj.lookup o' "generationConfig" = JObj.lookup o "generationConfig") := by
  refine ⟨_, fixSystemInstruction_unmarshal c hc b o hb, ?_, ?_⟩
  · intro gc tc L h1 h2 h3
    have h1' : JObj.lookup (fixRole o).2 "generationConfig" = some (.obj gc) := by
      rw [fixRole_lookup_ne _ _ (by decide)]; exact h1
    obtain ⟨gc', tc', e1, e2, e3, e4, e5, -⟩ := fixThinking_converted _ gc tc L h1' h2 h3
    refine ⟨gc', tc', thinkingBudget L, e1, e2, e3, e4, ?_, ?_, ?_, ?_, e5⟩
    · rintro rfl; rfl
    · rintro rfl; rfl
    · rintro rfl; rfl
    · intro n1 n2 n3; simp [thinkingBudget, n1, n2, n3]
  · intro hfree
    have hfree' : LevelFree (fixRole o).2 := by
      intro gc tc hgc
      rw [fixRole_lookup_ne _ _ (by decide)] at hgc
      exact hfree gc tc hgc
    show JObj.lookup (fixThinking (fixRole o).2).2 "generationConfig" = _
    rw [fixThinking_fixed _ hfree', fixRole_lookup_ne _ _ (by decide)]

/-- Witness of C15: the body of scenario S5, whose `thinkingLevel` is "low". -/
theorem thinking_level_converted_witness :
    ∃ (o' gc' tc' : JObj),
      JSONCodec.canonical.unmarshal (fixSystemInstruction JSONCodec.canonical s5Body)
        = some o' ∧
      JObj.lookup o' "generationConfig" = some (.obj gc') ∧
      JObj.lookup gc' "thinkingConfig" = some (.obj tc') ∧
      JObj.lookup tc' "thinkingLevel" = none ∧
      JObj.lookup tc' "thinkingBudget" = some (.num 6560) := by
  obtain ⟨o', h1, h2, -⟩ :=
    thinking_level_converted JSONCodec.canonical canonical_lawful s5Body s5Body rfl
  obtain ⟨gc', tc', B, e1, e2, e3, e4, -, -, e7, -⟩ := h2 _ _ "low" rfl rfl rfl
  exact ⟨o', gc', tc', h1, e1, e2, e3, by rw [e4, e7 rfl]⟩

/-- C16: let the body parse to `o` and the body `fixSystemInstruction` returns to `o'`.  When
`systemInstruction` of `o` is an object, `systemInstruction` of `o'` is an object without the
key `role` whose other keys have the values they had.  Every top-level key other than
`systemInstruction` and `generationConfig` has in `o'` the value it had in `o`; and
`generationConfig`, when an object, is in `o'` an object whose keys other than `thinkingConfig`
have the values they had, and is unchanged when it is not an object. -/
theorem system_instruction_role_removed {β : Type} (c : JSONCodec β) (hc : c.Lawful) (b : β)
    (o : JObj) (hb : c.unmarshal b = some o) :
    ∃ o', c.unmarshal (fixSystemInstruction c b) = some o' ∧
      (∀ si, JObj.lookup o "systemInstruction" = some (.obj si) →
        ∃ si', JObj.lookup o' "systemInstruction" = some (.obj si') ∧
          JObj.lookup si' "role" = none ∧
          ∀ k, k ≠ "role" → JObj.lookup si' k = JObj.lookup si k) ∧
      (∀ k, k ≠ "systemInstruction" → k ≠ "generationConfig" →
        JObj.lookup o' k = JObj.lookup o k) ∧
      (∀ gc, JObj.lookup o "generationConfig" = some (.obj gc) →
        ∃ gc', JObj.lookup o' "generationConfig" = some (.obj gc') ∧
          ∀ k, k ≠ "thinkingConfig" → JObj.lookup gc' k = JObj.lookup gc k) ∧
      ((∀ gc, JObj.lookup o "generationConfig" ≠ some (.obj gc)) →
        JObj.lookup o' "generationConfig" = JObj.lookup o "generationConfig") := by
  refine ⟨_, fixSystemInstruction_unmarshal c hc b o hb, ?_, ?_, ?_, ?_⟩
  · intro si hsi
    obtain ⟨si', e1, e2, e3⟩ := fixRole_systemInstruction o si hsi
    refine ⟨si', ?_, e2, e3⟩
    show JObj.lookup (fixThinking (fixRole o).2).2 "systemInstruction" = _
    rw [fixThinking_lookup_ne _ _ (by decide)]
    exact e1
  · intro k h1 h2
    show JObj.lookup (fixThinking (fixRole o).2).2 k = _
    rw [fixThinking_lookup_ne _ _ h2, fixRole_lookup_ne _ _ h1]
  · intro gc hgc
    have hgc' : JObj.lookup (fixRole o).2 "generationConfig" = some (.obj gc) := by
      rw [fixRole_lookup_ne _ _ (by decide)]; exact hgc
    exact fixThinking_generationConfig _ gc hgc'
  · intro hno
    have hfree : LevelFree (fixRole o).2 := by
      intro gc tc hgc
      rw [fixRole_lookup_ne _ _ (by decide)] at hgc
      exact absurd hgc (hno gc)
    show JObj.lookup (fixThinking (fixRole o).2).2 "generationConfig" = _
    rw [fixThinking_fixed _ hfree, fixRole_lookup_ne _ _ (by decide)]

/-- Witness of C16: the body of scenario S5, whose `systemInstruction` has a `role`. -/
theorem system_instruction_role_removed_witness :
    ∃ (o' si' : JObj),
      JSONCodec.canonical.unmarshal (fixSystemInstruction JSONCodec.canonical s5Body)
        = some o' ∧
      JObj.lookup o' "systemInstruction" = some (.obj si') ∧
      JObj.lookup si' "role" = none ∧
      JObj.lookup si' "parts" = some (.arr [.obj [("text", .str "s")]]) := by
  obtain ⟨o', h1, h2, -⟩ :=
    system_instruction_role_removed JSONCodec.canonical canonical_lawful s5Body s5Body rfl
  obtain ⟨si', e1, e2, e3⟩ := h2 _ rfl
  exact ⟨o', si', h1, e1, e2, (e3 "parts" (by decide)).trans rfl⟩

/-! ## authenticateHTTPRequest -/

/-- Counterexample to C17 as stated: with `AUTH_API_KEY` = "k", a request whose query parameter
`key` equals "k" but whose header `x-goog-api-key` is "wrong" is refused. -/
theorem query_key_ignored_counterexample :
    wrongHeaderRequest.queryKey = "k" ∧
      authenticateHTTPRequest "k" wrongHeaderRequest = .error "invalid API key" :=
  ⟨rfl, rfl⟩

/-- C17 (amended): with `AUTH_API_KEY` set to a non-empty `K`, `authenticateHTTPRequest` returns
"user-1" exactly when the header `x-goog-api-key` equals `K`, or that header is empty or absent
and the query parameter `key` equals `K`; otherwise it fails with "invalid API key".  With
`AUTH_API_KEY` empty it fails with "server configuration error" for every request. -/
theorem http_ingress_authentication (K : String) (r : Request) :
    (K ≠ "" →
      (authenticateHTTPRequest K r = .ok "user-1" ↔
        (headerGetApiKey r.Header = K ∨ (headerGetApiKey r.Header = "" ∧ r.queryKey = K))) ∧
      (¬ (headerGetApiKey r.Header = K ∨ (headerGetApiKey r.Header = "" ∧ r.queryKey = K)) →
        authenticateHTTPRequest K r = .error "invalid API key") ∧
      (∀ u, authenticateHTTPRequest K r = .ok u → u = "user-1")) ∧
    (K = "" → authenticateHTTPRequest K r = .error "server configuration error") := by
  refine ⟨fun hK => ?_, fun hK => ?_⟩
  · by_cases hh : headerGetApiKey r.Header = ""
    · by_cases hq : r.queryKey = K
      · simp [authenticateHTTPRequest, hK, hh, hq]
      · have hK' : ¬ ("" = K) := fun e => hK e.symm
        simp [authenticateHTTPRequest, hK, hh, hq, hK']
    · by_cases he : headerGetApiKey r.Header = K
      · simp [authenticateHTTPRequest, hK, hh, he]
      · simp [authenticateHTTPRequest, hK, hh, he]
  · simp [authenticateHTTPRequest, hK]

/-- Witness of C17: the key "k" in the query of a request without the header is accepted, and
nothing is accepted when `AUTH_API_KEY` is empty. -/
theorem http_ingress_authentication_witness :
    authenticateHTTPRequest "k" ⟨"GET", "/v1beta/models?key=k", "k", []⟩ = .ok "user-1" ∧
      authenticateHTTPRequest "" ⟨"GET", "/v1beta/models?key=k", "k", []⟩
        = .error "server configuration error" :=
  ⟨((http_ingress_authentication "k" ⟨"GET", "/v1beta/models?key=k", "k", []⟩).1
      (by decide)).1.2 (Or.inr ⟨rfl, rfl⟩),
   (http_ingress_authentication "" ⟨"GET", "/v1beta/models?key=k", "k", []⟩).2 rfl⟩

/-! ## The read pump and the response channels -/

theorem load_setChan_self (t : Pending) (id : String) (old ch : List WSMessage)
    (h : Pending.load t id = some old) :
    Pending.load (Pending.setChan t id ch) id = some ch := by
  induction t with
  | nil => simp [Pending.load] at h
  | cons e rest ih =>
    obtain ⟨k, v⟩ := e
    by_cases hk : k = id
    · simp [Pending.setChan, Pending.load, hk]
    · simp only [Pending.load, hk, if_false] at h
      simp only [Pending.setChan, Pending.load, hk, if_false]
      exact ih h

theorem load_setChan_ne (t : Pending) (id id' : String) (ch : List WSMessage)
    (h : id' ≠ id) :
    Pending.load (Pending.setChan t id ch) id' = Pending.load t id' := by
  induction t with
  | nil => rfl
  | cons e rest ih =>
    obtain ⟨k, v⟩ := e
    by_cases hk : k = id
    · have hk' : ¬ k = id' := fun e => h (e.symm.trans hk)
      simp only [Pending.setChan, Pending.load, hk, if_true]
      rw [hk] at hk'
      simp only [hk', if_false]
    · by_cases hk' : k = id'
      · simp only [Pending.setChan, hk, if_false]
        simp only [Pending.load, hk', if_true]
      · simp only [Pending.setChan, Pending.load, hk, hk', if_false]
        exact ih

theorem setChan_keys (t : Pending) (id : String) (ch : List WSMessage) :
    (Pending.setChan t id ch).map Prod.fst = t.map Prod.fst := by
  induction t with
  | nil => rfl
  | cons e rest ih =>
    obtain ⟨k, v⟩ := e
    by_cases hk : k = id
    · simp [Pending.setChan, hk]
    · simp only [Pending.setChan, hk, if_false, List.map_cons, ih]

theorem load_store_self (t : Pending) (id : String) (ch : List WSMessage) :
    Pending.load (Pending.store t id ch) id = some ch := by
  simp [Pending.store, Pending.load]

theorem isResponseType_of_mem (t : String)
    (h : t ∈ ["http_response", "stream_start", "stream_chunk", "stream_end", "error"]) :
    isResponseType t = true := by
  simp only [List.mem_cons, List.mem_singleton, List.not_mem_nil, or_false] at h
  rcases h with h | h | h | h | h <;> subst h <;> decide

theorem isResponseType_not_ping (t : String) (h : isResponseType t = true) : t ≠ "ping" := by
  rintro rfl
  exact absurd h (by decide)

theorem readPumpDispatch_response (pending : Pending) (msg : WSMessage)
    (hty : isResponseType msg.MsgType = true) :
    readPumpDispatch pending msg =
      match Pending.load pending msg.ID with
      | some respChan =>
        (Pending.setChan pending msg.ID (chanOffer respChan msg).1,
          if (chanOffer respChan msg).2 then .routed else .dropFull)
      | none => (pending, .dropMissing) := by
  simp only [readPumpDispatch, isResponseType_not_ping _ hty, hty, if_false, if_true]

theorem readPumpDispatch_other (pending : Pending) (msg : WSMessage)
    (hty : isResponseType msg.MsgType = false) :
    (readPumpDispatch pending msg).1 = pending := by
  unfold readPumpDispatch
  by_cases hp : msg.MsgType = "ping"
  · simp [hp]
  · simp [hp, hty]

theorem readPumpDispatch_load_ne (pending : Pending) (msg : WSMessage) (id : String)
    (h : id ≠ msg.ID) :
    Pending.load (readPumpDispatch pending msg).1 id = Pending.load pending id := by
  cases hty : isResponseType msg.MsgType
  · rw [readPumpDispatch_other pending msg hty]
  · rw [readPumpDispatch_response pending msg hty]
    cases hl : Pending.load pending msg.ID with
    | none => rfl
    | some ch => exact load_setChan_ne _ _ _ _ h

theorem readPumpDispatch_load_self (pending : Pending) (msg : WSMessage)
    (hty : isResponseType msg.MsgType = true) (ch : List WSMessage)
    (hl : Pending.load pending msg.ID = some ch) :
    Pending.load (readPumpDispatch pending msg).1 msg.ID = some (chanOffer ch msg).1 ∧
      (readPumpDispatch pending msg).2
        = if (chanOffer ch msg).2 then .routed else .dropFull := by
  rw [readPumpDispatch_response pending msg hty, hl]
  exact ⟨load_setChan_self _ _ ch _ hl, rfl⟩

theorem readPumpDispatch_keys (pending : Pending) (msg : WSMessage) :
    (readPumpDispatch pending msg).1.map Prod.fst = pending.map Prod.fst := by
  cases hty : isResponseType msg.MsgType
  · rw [readPumpDispatch_other pending msg hty]
  · rw [readPumpDispatch_response pending msg hty]
    cases hl : Pending.load pending msg.ID with
    | none => rfl
    | some ch => exact setChan_keys _ _ _

/-- C18: for a frame of type http_response, stream_start, stream_chunk, stream_end or error,
`readPump` offers the frame to the channel that the pending table holds under the envelope id
`msg.ID` and touches no other channel; when the table has no entry under `msg.ID` the frame is
dropped and the table, with every channel in it, is unchanged.  The table keeps its keys.  A
second frame with the same id and type, whatever its payload, is routed the same way: same
outcome, offered to the channel under the same id, every other channel as it was. -/
theorem read_pump_routes_by_id (pending : Pending) (msg : WSMessage)
    (hty : msg.MsgType ∈
      ["http_response", "stream_start", "stream_chunk", "stream_end", "error"]) :
    (∀ ch, Pending.load pending msg.ID = some ch →
      Pending.load (readPumpDispatch pending msg).1 msg.ID = some (chanOffer ch msg).1) ∧
    (∀ id, id ≠ msg.ID →
      Pending.load (readPumpDispatch pending msg).1 id = Pending.load pending id) ∧
    (Pending.load pending msg.ID = none →
      readPumpDispatch pending msg = (pending, .dropMissing)) ∧
    (readPumpDispatch pending msg).1.map Prod.fst = pending.map Prod.fst ∧
    (∀ msg' : WSMessage, msg'.ID = msg.ID → msg'.MsgType = msg.MsgType →
      (readPumpDispatch pending msg').2 = (readPumpDispatch pending msg).2 ∧
      (∀ ch, Pending.load pending msg.ID = some ch →
        Pending.load (readPumpDispatch pending msg').1 msg.ID = some (chanOffer ch msg').1) ∧
      (∀ id, id ≠ msg.ID →
        Pending.load (readPumpDispatch pending msg').1 id
          = Pending.load (readPumpDispatch pending msg).1 id)) := by
  have hr := isResponseType_of_mem _ hty
  refine ⟨fun ch hl => (readPumpDispatch_load_self pending msg hr ch hl).1,
    fun id hid => readPumpDispatch_load_ne pending msg id hid, ?_,
    readPumpDispatch_keys pending msg, ?_⟩
  · intro hl
    rw [readPumpDispatch_response pending msg hr, hl]
  · intro msg' hid hmt
    have hr' : isResponseType msg'.MsgType = true := by rw [hmt]; exact hr
    refine ⟨?_, ?_, ?_⟩
    · rw [readPumpDispatch_response pending msg hr, readPumpDispatch_response pending msg' hr',
        hid]
      cases hl : Pending.load pending msg.ID with
      | none => rfl
      | some ch => simp only [chanOffer]; split <;> rfl
    · intro ch hl
      have hl' : Pending.load pending msg'.ID = some ch := by rw [hid]; exact hl
      have := (readPumpDispatch_load_self pending msg' hr' ch hl').1
      rw [hid] at this
      exact this
    · intro id hne
      rw [readPumpDispatch_load_ne pending msg id hne,
        readPumpDispatch_load_ne pending msg' id (by rw [hid]; exact hne)]

/-- Witness of C18: two stream chunks with the envelope id "r1" and different payloads (the
second names another request in `payload.request_id`) both end in the channel of "r1", and the
channel of "r2" stays empty. -/
theorem read_pump_routes_by_id_witness :
    Pending.load (readPumpDispatch [("r1", []), ("r2", [])]
        (chunkFrame "r1" [("data", .str "a")])).1 "r1"
      = some [chunkFrame "r1" [("data", .str "a")]] ∧
    Pending.load (readPumpDispatch [("r1", []), ("r2", [])]
        (chunkFrame "r1" [("data", .str "b"), ("request_id", .str "r2")])).1 "r1"
      = some [chunkFrame "r1" [("data", .str "b"), ("request_id", .str "r2")]] ∧
    Pending.load (readPumpDispatch [("r1", []), ("r2", [])]
        (chunkFrame "r1" [("data", .str "b"), ("request_id", .str "r2")])).1 "r2"
      = some [] := by
  have h := read_pump_routes_by_id [("r1", []), ("r2", [])]
    (chunkFrame "r1" [("data", .str "a")]) (by simp [chunkFrame])
  obtain ⟨h1, -, -, -, h5⟩ := h
  obtain ⟨-, h6, h7⟩ := h5 (chunkFrame "r1" [("data", .str "b"), ("request_id", .str "r2")])
    rfl rfl
  refine ⟨h1 [] rfl, h6 [] rfl, ?_⟩
  have := h7 "r2" (by decide)
  rw [this]
  rfl

theorem chanOffer_room (ch : List WSMessage) (msg : WSMessage) (h : ch.length < 10) :
    chanOffer ch msg = (ch ++ [msg], true) := by
  simp [chanOffer, respChanCap, h]

theorem chanOffer_full (ch : List WSMessage) (msg : WSMessage) (h : 10 ≤ ch.length) :
    chanOffer ch msg = (ch, false) := by
  simp [chanOffer, respChanCap, Nat.not_lt.mpr h]

theorem chanOffer_length (ch : List WSMessage) (msg : WSMessage) (h : ch.length ≤ 10) :
    (chanOffer ch msg).1.length ≤ 10 := by
  by_cases hl : ch.length < 10
  · rw [chanOffer_room ch msg hl]
    simp only [List.length_append, List.length_singleton]
    omega
  · rw [chanOffer_full ch msg (Nat.not_lt.mp hl)]
    exact h

theorem chanOffer_sublist (ch : List WSMessage) (msg : WSMessage) :
    (chanOffer ch msg).1.Sublist (ch ++ [msg]) := by
  by_cases hl : ch.length < 10
  · rw [chanOffer_room ch msg hl]
  · rw [chanOffer_full ch msg (Nat.not_lt.mp hl)]
    exact List.sublist_append_left ch [msg]

theorem runSink_cons (id : String) (st : Pending × List WSMessage) (op : SinkOp)
    (ops : List SinkOp) :
    runSink id st (op :: ops) = runSink id (sinkStep id st op) ops := rfl

theorem sinkStep_inv (id : String) (st : Pending × List WSMessage) (op : SinkOp)
    (P : List WSMessage)
    (h : ∃ q, Pending.load st.1 id = some q ∧ q.length ≤ 10 ∧ (st.2 ++ q).Sublist P) :
    ∃ q, Pending.load (sinkStep id st op).1 id = some q ∧ q.length ≤ 10 ∧
      ((sinkStep id st op).2 ++ q).Sublist (P ++ pumpedFor id [op]) := by
  obtain ⟨q, hq, hlen, hsub⟩ := h
  cases op with
  | pump msg =>
    by_cases hid : msg.ID = id
    · cases hty : isResponseType msg.MsgType
      · refine ⟨q, ?_, hlen, ?_⟩
        · show Pending.load (readPumpDispatch st.1 msg).1 id = some q
          rw [readPumpDispatch_other st.1 msg hty]
          exact hq
        · show (st.2 ++ q).Sublist (P ++ pumpedFor id [SinkOp.pump msg])
          simp only [pumpedFor, hty, hid, Bool.false_eq_true, and_false, if_false,
            List.append_nil]
          exact hsub
      · have hq' : Pending.load st.1 msg.ID = some q := by rw [hid]; exact hq
        refine ⟨(chanOffer q msg).1, ?_, chanOffer_length q msg hlen, ?_⟩
        · show Pending.load (readPumpDispatch st.1 msg).1 id = some (chanOffer q msg).1
          have := (readPumpDispatch_load_self st.1 msg hty q hq').1
          rw [hid] at this
          exact this
        · show (st.2 ++ (chanOffer q msg).1).Sublist (P ++ pumpedFor id [SinkOp.pump msg])
          simp only [pumpedFor, hty, hid, and_self, if_true]
          have h1 : (st.2 ++ (chanOffer q msg).1).Sublist (st.2 ++ (q ++ [msg])) :=
            List.Sublist.append (List.Sublist.refl _) (chanOffer_sublist q msg)
          rw [← List.append_assoc] at h1
          exact h1.trans (List.Sublist.append hsub (List.Sublist.refl _))
    · refine ⟨q, ?_, hlen, ?_⟩
      · show Pending.load (readPumpDispatch st.1 msg).1 id = some q
        rw [readPumpDispatch_load_ne st.1 msg id (fun e => hid e.symm)]
        exact hq
      · show (st.2 ++ q).Sublist (P ++ pumpedFor id [SinkOp.pump msg])
        simp only [pumpedFor, hid, false_and, if_false, List.append_nil]
        exact hsub
  | recv =>
    cases q with
    | nil =>
      refine ⟨[], ?_, hlen, ?_⟩
      · simp only [sinkStep, hq, chanRecv]
      · simp only [sinkStep, hq, chanRecv, pumpedFor, List.append_nil]
        simpa using hsub
    | cons m rest =>
      refine ⟨rest, ?_, ?_, ?_⟩
      · simp only [sinkStep, hq, chanRecv]
        exact load_setChan_self _ _ _ _ hq
      · simp only [List.length_cons] at hlen
        omega
      · simp only [sinkStep, hq, chanRecv, pumpedFor, List.append_nil]
        simpa using hsub

theorem pumpedFor_cons (id : String) (op : SinkOp) (ops : List SinkOp) :
    pumpedFor id (op :: ops) = pumpedFor id [op] ++ pumpedFor id ops := by
  cases op with
  | pump msg =>
    by_cases h : msg.ID = id ∧ isResponseType msg.MsgType = true
    · simp [pumpedFor, h]
    · simp [pumpedFor, h]
  | recv => simp [pumpedFor]

theorem runSink_inv (id : String) (ops : List SinkOp) :
    ∀ (st : Pending × List WSMessage) (P : List WSMessage),
      (∃ q, Pending.load st.1 id = some q ∧ q.length ≤ 10 ∧ (st.2 ++ q).Sublist P) →
      ∃ q, Pending.load (runSink id st ops).1 id = some q ∧ q.length ≤ 10 ∧
        ((runSink id st ops).2 ++ q).Sublist (P ++ pumpedFor id ops) := by
  induction ops with
  | nil =>
    intro st P h
    simpa [runSink, pumpedFor] using h
  | cons op ops ih =>
    intro st P h
    have h1 := sinkStep_inv id st op P h
    have h2 := ih (sinkStep id st op) (P ++ pumpedFor id [op]) h1
    rw [runSink_cons, pumpedFor_cons, ← List.append_assoc]
    exact h2

/-- C19: the offer of `readPump` to a response channel appends the frame at the tail when the
channel holds fewer than 10 frames and leaves the channel as it is when it holds 10.  The
channel a request registers is empty, and whatever `readPump` and the assembler of the request
do afterwards, the channel never holds more than 10 frames, and the frames the assembler has
received, followed by those still in the channel, are a subsequence, in order, of the frames
`readPump` took off the tunnel for that request id. -/
theorem sink_bounded_fifo (pending : Pending) (id : String) (ops : List SinkOp) :
    (∀ ch msg, ch.length < 10 → chanOffer ch msg = (ch ++ [msg], true)) ∧
    (∀ ch msg, ch.length = 10 → chanOffer ch msg = (ch, false)) ∧
    (∀ ch msg, ch.length ≤ 10 → (chanOffer ch msg).1.length ≤ 10) ∧
    ∃ q, Pending.load (runSink id (Pending.store pending id [], []) ops).1 id = some q ∧
      q.length ≤ 10 ∧
      ((runSink id (Pending.store pending id [], []) ops).2 ++ q).Sublist (pumpedFor id ops) ∧
      ((runSink id (Pending.store pending id [], []) ops).2).Sublist (pumpedFor id ops) := by
  refine ⟨chanOffer_room, fun ch msg h => chanOffer_full ch msg (le_of_eq h.symm),
    chanOffer_length, ?_⟩
  obtain ⟨q, h1, h2, h3⟩ := runSink_inv id ops (Pending.store pending id [], []) []
    ⟨[], load_store_self pending id [], by simp, by simp⟩
  rw [List.nil_append] at h3
  exact ⟨q, h1, h2, h3, (List.sublist_append_left _ q).trans h3⟩

/-! ## The assembler: the log of a stream with an error status -/

theorem onStreamStart_error (fl : Bool) (s : AState) (msg : WSMessage)
    (hu : s.headersSet = false) (hge : 400 ≤ frameStatusCode msg) :
    (onStreamStart fl s msg).1.errorStatusCode = frameStatusCode msg ∧
    (onStreamStart fl s msg).1.errorRequestID = frameReqID msg ∧
    (onStreamStart fl s msg).1.errorBodyChunks = [] ∧
    ∃ warn : LogEntry, warn.level = "WARN" ∧
      (onStreamStart fl s msg).1.logs = s.logs ++ [warn] := by
  have hge' : frameStatusCode msg ≥ 400 := hge
  refine ⟨?_, ?_, ?_, ?_⟩
  · simp only [onStreamStart, hu, Bool.false_eq_true, if_false, hge', if_true]
  · simp only [onStreamStart, hu, Bool.false_eq_true, if_false, hge', if_true]
  · simp only [onStreamStart, hu, Bool.false_eq_true, if_false, hge', if_true]
  · simp only [onStreamStart, hu, Bool.false_eq_true, if_false, hge', if_true]
    exact ⟨_, rfl, rfl⟩

theorem onStreamStart_no_error (fl : Bool) (s : AState) (msg : WSMessage)
    (hu : s.headersSet = false) (hlt : frameStatusCode msg < 400) :
    (onStreamStart fl s msg).1.errorStatusCode = s.errorStatusCode ∧
    (onStreamStart fl s msg).1.errorRequestID = s.errorRequestID ∧
    (onStreamStart fl s msg).1.errorBodyChunks = s.errorBodyChunks ∧
    (onStreamStart fl s msg).1.logs = s.logs := by
  have hlt' : ¬ frameStatusCode msg ≥ 400 := not_le.mpr hlt
  refine ⟨?_, ?_, ?_, ?_⟩ <;>
    simp only [onStreamStart, hu, Bool.false_eq_true, if_false, hlt']

theorem onStreamChunk_fields (fl : Bool) (s : AState) (msg : WSMessage) :
    (onStreamChunk fl s msg).1.errorStatusCode = s.errorStatusCode ∧
    (onStreamChunk fl s msg).1.errorRequestID = s.errorRequestID ∧
    (onStreamChunk fl s msg).1.logs = s.logs ∧
    (onStreamChunk fl s msg).1.errorBodyChunks
      = s.errorBodyChunks ++ (if 400 ≤ s.errorStatusCode then chunkData [msg] else []) := by
  unfold onStreamChunk
  by_cases hh : s.headersSet = true <;> by_cases he : s.errorStatusCode ≥ 400
  all_goals
    have he' := he
    rw [ge_iff_le] at he'
    simp only [hh, he, he', if_true, if_false, chunkData]
    cases hd : JObj.lookup msg.Payload "data" with
    | none => simp [he']
    | some v => cases v <;> simp [he']

theorem onStreamEnd_logs (s : AState) :
    (onStreamEnd s).1.errorBodyChunks = s.errorBodyChunks ∧
    (onStreamEnd s).1.logs = s.logs ++
      (if 400 ≤ s.errorStatusCode ∧ s.errorBodyChunks ≠ [] then
        [streamErrorRecord s.errorRequestID s.errorStatusCode s.errorBodyChunks] else []) := by
  unfold onStreamEnd
  by_cases hh : s.headersSet = true <;> by_cases he : s.errorStatusCode ≥ 400 <;>
    by_cases hc : s.errorBodyChunks = []
  all_goals
    have he' := he
    rw [ge_iff_le] at he'
    simp [hh, he, he', hc, streamErrorRecord, List.length_pos]

theorem runFrom_chunks_end_logs (fl : Bool) (endMsg : WSMessage) (rest : List Ev)
    (he : endMsg.MsgType = "stream_end") :
    ∀ (chunks : List WSMessage), (∀ m ∈ chunks, m.MsgType = "stream_chunk") →
    ∀ t : AState,
      (runFrom fl t (chunks.map Ev.frame ++ .frame endMsg :: rest)).returned = true ∧
      (runFrom fl t (chunks.map Ev.frame ++ .frame endMsg :: rest)).rest = rest ∧
      (runFrom fl t (chunks.map Ev.frame ++ .frame endMsg :: rest)).state.errorBodyChunks
        = t.errorBodyChunks ++ (if 400 ≤ t.errorStatusCode then chunkData chunks else []) ∧
      (runFrom fl t (chunks.map Ev.frame ++ .frame endMsg :: rest)).state.logs
        = t.logs ++
          (if 400 ≤ t.errorStatusCode ∧
              t.errorBodyChunks ++
                (if 400 ≤ t.errorStatusCode then chunkData chunks else []) ≠ [] then
            [streamErrorRecord t.errorRequestID t.errorStatusCode
              (t.errorBodyChunks ++
                (if 400 ≤ t.errorStatusCode then chunkData chunks else []))]
          else []) := by
  intro chunks
  induction chunks with
  | nil =>
    intro _ t
    have hstep := step_stream_end fl t endMsg he
    simp only [List.map_nil, List.nil_append]
    rw [runFrom_cons_return _ _ _ _ (by rw [hstep]; exact onStreamEnd_snd _), hstep]
    obtain ⟨h1, h2⟩ := onStreamEnd_logs t
    refine ⟨rfl, rfl, ?_, ?_⟩
    · show (onStreamEnd t).1.errorBodyChunks = _
      rw [h1]; simp [chunkData]
    · show (onStreamEnd t).1.logs = _
      rw [h2]; simp [chunkData]
  | cons m ms ih =>
    intro hc t
    have hm : m.MsgType = "stream_chunk" := hc m (List.mem_cons_self _ _)
    have hms : ∀ x ∈ ms, x.MsgType = "stream_chunk" :=
      fun x hx => hc x (List.mem_cons_of_mem _ hx)
    have hstep := step_stream_chunk fl t m hm
    simp only [List.map_cons, List.cons_append]
    rw [runFrom_cons_continue _ _ _ _ (by rw [hstep]; exact onStreamChunk_snd _ _ _), hstep]
    obtain ⟨h1, h2, h3, h4⟩ := ih hms (onStreamChunk fl t m).1
    obtain ⟨f1, f2, f3, f4⟩ := onStreamChunk_fields fl t m
    refine ⟨h1, h2, ?_, ?_⟩
    · rw [h3, f1, f4]
      by_cases hge : 400 ≤ t.errorStatusCode
      · simp only [hge, if_true, List.append_assoc, chunkData]
        cases hd : JObj.lookup m.Payload "data" with
        | none => simp
        | some v => cases v <;> simp
      · simp [hge]
    · rw [h4, f1, f2, f3, f4]
      by_cases hge : 400 ≤ t.errorStatusCode
      · have hcd : chunkData [m] ++ chunkData ms = chunkData (m :: ms) := by
          simp only [chunkData]
          cases hd : JObj.lookup m.Payload "data" with
          | none => simp
          | some v => cases v <;> simp
        simp only [hge, if_true, true_and, List.append_assoc, hcd]
      · simp [hge]

/-- Counterexample to C20 as stated: a `stream_start` with status 500 followed at once by
`stream_end` (the list of chunks is empty) leaves only the WARN record of `stream_start`: no
ERROR record is emitted.  With a chunk, the status of the records is `int(S)`, not `S`: 429 for
the status 429.5; and for the status 1e19, which is no value of `int`, nothing is logged. -/
theorem error_record_without_chunks_counterexample :
    logLevels (processWebSocketResponse true
      [.frame ⟨"r1", "stream_start", [("status", .num 500)]⟩,
       .frame ⟨"r1", "stream_end", []⟩]).state.logs = ["WARN"] ∧
    (processWebSocketResponse true
      [.frame ⟨"r1", "stream_start", [("status", .num 500)]⟩,
       .frame ⟨"r1", "stream_end", []⟩]).returned = true ∧
    (processWebSocketResponse true
      [.frame ⟨"r1", "stream_start", [("status", .num fractionalStatus)]⟩,
       .frame ⟨"r1", "stream_chunk", [("data", .str "a")]⟩,
       .frame ⟨"r1", "stream_end", []⟩]).state.logs.map
        (fun e => (e.level, JObj.lookup e.data "status"))
      = [("WARN", some (.num 429)), ("ERROR", some (.num 429))] ∧
    ((429 : Int) : ℚ) ≠ fractionalStatus ∧
    logLevels (processWebSocketResponse true
      [.frame ⟨"r1", "stream_start", [("status", .num hugeStatus)]⟩,
       .frame ⟨"r1", "stream_chunk", [("data", .str "a")]⟩,
       .frame ⟨"r1", "stream_end", []⟩]).state.logs = [] := by
  refine ⟨rfl, rfl, rfl, by decide, rfl⟩

/-- C20 (amended): take a `stream_start` consumed while uncommitted whose status is a number
`S` in the range of `int`, then any list of `stream_chunk` frames, then `stream_end`.  The
assembler returns at `stream_end`.  When `S ≥ 400`, the records logged are the WARN record
of `stream_start` and then, if at least one chunk has a string `data`, exactly one ERROR record
whose `error_body` is the concatenation of the chunks' `data` strings in arrival order, whose
`status` is `int(S)` and whose `request_id` is that of `stream_start`; if no chunk has a string
`data`, no ERROR record is logged.  When `S < 400` (and no error status was remembered before)
no chunk data is accumulated and nothing is logged. -/
theorem error_body_accumulation (flusher : Bool) (s : AState) (startMsg endMsg : WSMessage)
    (chunks : List WSMessage) (rest : List Ev) (S : ℚ)
    (hu : s.headersSet = false)
    (hs : startMsg.MsgType = "stream_start")
    (hS : JObj.lookup startMsg.Payload "status" = some (.num S))
    (hr : InIntRange S)
    (hc : ∀ m ∈ chunks, m.MsgType = "stream_chunk")
    (he : endMsg.MsgType = "stream_end") :
    (runFrom flusher s
      (.frame startMsg :: (chunks.map Ev.frame ++ .frame endMsg :: rest))).returned = true ∧
    (runFrom flusher s
      (.frame startMsg :: (chunks.map Ev.frame ++ .frame endMsg :: rest))).rest = rest ∧
    (400 ≤ S →
      ∃ warn : LogEntry, warn.level = "WARN" ∧
        (runFrom flusher s
          (.frame startMsg :: (chunks.map Ev.frame ++ .frame endMsg :: rest))).state.logs
          = s.logs ++ [warn] ++
            (if chunkData chunks = [] then []
             else [⟨"ERROR",
               "[STREAM ERROR " ++ frameReqID startMsg
                 ++ "] Complete error response from Gemini API",
               [("error_body", .str (String.join (chunkData chunks))),
                ("request_id", .str (frameReqID startMsg)),
                ("status", .num (truncInt S))]⟩])) ∧
    (S < 400 → s.errorStatusCode < 400 →
      (runFrom flusher s
        (.frame startMsg :: (chunks.map Ev.frame ++ .frame endMsg :: rest))).state.logs
        = s.logs ∧
      (runFrom flusher s
        (.frame startMsg :: (chunks.map Ev.frame ++ .frame endMsg :: rest))).state.errorBodyChunks
        = s.errorBodyChunks) := by
  have hstep := step_stream_start flusher s startMsg hs
  have hcont : (step flusher s (.frame startMsg)).2 = false := by
    rw [hstep]; exact onStreamStart_snd _ _ _
  have hcode : frameStatusCode startMsg = truncInt S := by
    simp only [frameStatusCode, hS, goInt_of_range S hr]
  rw [runFrom_cons_continue _ _ _ _ hcont, hstep]
  obtain ⟨h1, h2, h3, h4⟩ :=
    runFrom_chunks_end_logs flusher endMsg rest he chunks hc (onStreamStart flusher s startMsg).1
  refine ⟨h1, h2, ?_, ?_⟩
  · intro hge
    have hge2 : 400 ≤ truncInt S :=
      (le_truncInt_iff S 400 (by decide)).2 (by exact_mod_cast hge)
    have hge' : 400 ≤ frameStatusCode startMsg := by rw [hcode]; exact hge2
    obtain ⟨e1, e2, e3, warn, hw, e4⟩ := onStreamStart_error flusher s startMsg hu hge'
    refine ⟨warn, hw, ?_⟩
    rw [h4, e1, e2, e3, e4, hcode]
    simp only [hge2, if_true, true_and, List.nil_append, ne_eq, ite_not]
    rfl
  · intro hlt hprev
    have hlt' : frameStatusCode startMsg < 400 := by
      rw [hcode]
      exact (truncInt_lt_iff S 400 (by decide)).2 (by exact_mod_cast hlt)
    obtain ⟨e1, e2, e3, e4⟩ := onStreamStart_no_error flusher s startMsg hu hlt'
    have hnot : ¬ 400 ≤ s.errorStatusCode := not_le.mpr hprev
    constructor
    · rw [h4, e1, e4]
      simp [hnot]
    · rw [h3, e1, e3]
      simp [hnot]

/-- Witness of C20: status 500 and the chunks "a", "b" give one ERROR record with the body
"ab". -/
theorem error_body_accumulation_witness :
    ∃ warn : LogEntry, warn.level = "WARN" ∧
      (runFrom true AState.init
        (.frame ⟨"r1", "stream_start", [("status", .num 500)]⟩ ::
          ([⟨"r1", "stream_chunk", [("data", .str "a")]⟩,
            ⟨"r1", "stream_chunk", [("data", .str "b")]⟩].map Ev.frame
            ++ .frame ⟨"r1", "stream_end", []⟩ :: []))).state.logs
        = AState.init.logs ++ [warn] ++
          [⟨"ERROR", "[STREAM ERROR r1] Complete error response from Gemini API",
            [("error_body", .str "ab"), ("request_id", .str "r1"), ("status", .num 500)]⟩] := by
  have h := (error_body_accumulation true AState.init
    ⟨"r1", "stream_start", [("status", .num 500)]⟩ ⟨"r1", "stream_end", []⟩
    [⟨"r1", "stream_chunk", [("data", .str "a")]⟩, ⟨"r1", "stream_chunk", [("data", .str "b")]⟩]
    [] 500 rfl rfl rfl ⟨by decide, by decide⟩ (by simp) rfl).2.2.1 (by norm_num)
  obtain ⟨warn, hw, hl⟩ := h
  refine ⟨warn, hw, ?_⟩
  rw [hl]
  have e1 : truncInt 500 = 500 := by decide
  rw [e1]
  rfl

/-- Witness of C19: two chunks pumped for "r1" and one receive leave the second chunk in the
channel; a channel holding 10 frames refuses the next one. -/
theorem sink_bounded_fifo_witness :
    chanOffer (List.replicate 10 (chunkFrame "r1" [])) (chunkFrame "r1" [])
      = (List.replicate 10 (chunkFrame "r1" []), false) ∧
    ∃ q, Pending.load (runSink "r1" (Pending.store [] "r1" [], [])
        [.pump (chunkFrame "r1" [("data", .str "a")]),
         .pump (chunkFrame "r1" [("data", .str "b")]), .recv]).1 "r1" = some q ∧
      q.length ≤ 10 :=
  ⟨(sink_bounded_fifo [] "r1" []).2.1 _ _ rfl,
   (sink_bounded_fifo [] "r1"
      [.pump (chunkFrame "r1" [("data", .str "a")]),
       .pump (chunkFrame "r1" [("data", .str "b")]), .recv]).2.2.2.imp
    (fun _ h => ⟨h.1, h.2.1⟩)⟩

/-! ## The handler without a tunnel -/

theorem load_delete_self (t : Pending) (id : String) :
    Pending.load (Pending.delete t id) id = none := by
  induction t with
  | nil => rfl
  | cons e rest ih =>
    obtain ⟨k, ch⟩ := e
    by_cases hk : k = id
    · simpa [Pending.delete, hk] using ih
    · have ih' : Pending.load (List.filter (fun e => e.1 != id) rest) id = none := ih
      simp [Pending.delete, Pending.load, hk, ih']

/-- C21: when an authenticated request finds no tunnel for its user (`GetConnection` returns an
error), `handleProxyRequest` makes exactly one call on the response writer,
`http.Error(w, "Service Unavailable: No active client connected", 503)`, passes no frame to
`safeWriteJSON`, does not call `processWebSocketResponse`, and has stored and then deleted the
request id, so that the pending table has no entry under it on return. -/
theorem no_active_client {β : Type} (c : JSONCodec β) (env : Env β) (pending : Pending)
    (r : Request) (userID : String)
    (hauth : authenticateHTTPRequest env.authAPIKey r = .ok userID)
    (hconn : env.getConnection userID = none) :
    (handleProxyRequest c env pending r).calls
      = [.error "Service Unavailable: No active client connected" 503] ∧
    statusCalls (handleProxyRequest c env pending r).calls = [503] ∧
    (handleProxyRequest c env pending r).sent = [] ∧
    (handleProxyRequest c env pending r).assembler = none ∧
    (handleProxyRequest c env pending r).pendingOps
      = [.store env.reqID, .delete env.reqID] ∧
    Pending.load (handleProxyRequest c env pending r).pending env.reqID = none := by
  have hcalls : (handleProxyRequest c env pending r).calls
      = [.error "Service Unavailable: No active client connected" 503] := by
    simp only [handleProxyRequest, hauth, handleRegistered, hconn]
  refine ⟨hcalls, ?_, ?_, ?_, ?_, ?_⟩
  · rw [hcalls]; rfl
  · simp only [handleProxyRequest, hauth, handleRegistered, hconn]
  · simp only [handleProxyRequest, hauth, handleRegistered, hconn]
  · simp only [handleProxyRequest, hauth]
  · simp only [handleProxyRequest, hauth]
    exact load_delete_self _ _

/-- Witness of C21: `demoRequest` with no tunnel connected is answered 503 and nothing is
sent. -/
theorem no_active_client_witness :
    statusCalls (handleProxyRequest JSONCodec.canonical noClientEnv [] demoRequest).calls
      = [503] ∧
    (handleProxyRequest JSONCodec.canonical noClientEnv [] demoRequest).sent = [] :=
  ⟨(no_active_client JSONCodec.canonical noClientEnv [] demoRequest "user-1" rfl rfl).2.1,
   (no_active_client JSONCodec.canonical noClientEnv [] demoRequest "user-1" rfl rfl).2.2.1⟩

/-! ## The log buffer -/

theorem addLog_eq (b : List LogEntry) (level message : String) (data : JObj)
    (hb : b.length ≤ 1000) :
    addLog b level message data
      = (b ++ [LogEntry.mk level message data]).drop (b.length + 1 - 1000) ∧
    (addLog b level message data).length ≤ 1000 := by
  by_cases h : b.length = 1000
  · have h1 : b.length + 1 - 1000 = 1 := by omega
    have h2 : 1000 < b.length + 1 := by omega
    simp only [addLog, maxLogBuffer, List.length_append, List.length_singleton, gt_iff_lt, h2,
      if_true, h1, true_and, List.length_drop]
    omega
  · have h1 : b.length + 1 - 1000 = 0 := by omega
    have h2 : ¬ (1000 < b.length + 1) := by omega
    simp only [addLog, maxLogBuffer, List.length_append, List.length_singleton, gt_iff_lt, h2,
      if_false, h1, List.drop_zero, true_and]
    omega

theorem addLogs_eq (entries : List LogEntry) :
    ∀ b : List LogEntry, b.length ≤ 1000 →
      addLogs b entries = (b ++ entries).drop ((b ++ entries).length - 1000) ∧
      (addLogs b entries).length ≤ 1000 := by
  induction entries with
  | nil =>
    intro b hb
    have h0 : b.length - 1000 = 0 := by omega
    simp [addLogs, h0, hb]
  | cons e es ih =>
    intro b hb
    obtain ⟨h1, h2⟩ := addLog_eq b e.level e.message e.data hb
    obtain ⟨h3, h4⟩ := ih (addLog b e.level e.message e.data) h2
    have hstep : addLogs b (e :: es) = addLogs (addLog b e.level e.message e.data) es := rfl
    rw [hstep]
    refine ⟨?_, h4⟩
    rw [h3, h1]
    have he : LogEntry.mk e.level e.message e.data = e := rfl
    rw [he]
    have hle : b.length + 1 - 1000 ≤ (b ++ [e]).length := by
      simp only [List.length_append, List.length_singleton]; omega
    rw [← List.drop_append_of_le_length hle, List.drop_drop]
    have hassoc : b ++ [e] ++ es = b ++ e :: es := by simp
    rw [hassoc]
    have hn : b.length + 1 - 1000
        + ((List.drop (b.length + 1 - 1000) (b ++ e :: es)).length - 1000)
        = (b ++ e :: es).length - 1000 := by
      simp only [List.length_drop, List.length_append, List.length_cons]
      omega
    rw [hn]

/-- C23: starting from the empty buffer, after `addLog` was called for each of `entries` the
buffer is the last `min n 1000` of them in call order (`n` their number), so it never holds more
than 1000 entries; and a call on a buffer of 1000 entries removes exactly the oldest one and
appends the new entry. -/
theorem log_ring_buffer (entries : List LogEntry) :
    addLogs [] entries = entries.drop (entries.length - 1000) ∧
    addLogs [] entries = entries.drop (entries.length - min entries.length 1000) ∧
    (addLogs [] entries).length = min entries.length 1000 ∧
    (addLogs [] entries).length ≤ 1000 ∧
    (∀ (b : List LogEntry) (level message : String) (data : JObj), b.length = 1000 →
      addLog b level message data = b.drop 1 ++ [LogEntry.mk level message data]) ∧
    (∀ (b : List LogEntry) (level message : String) (data : JObj), b.length < 1000 →
      addLog b level message data = b ++ [LogEntry.mk level message data]) := by
  obtain ⟨h1, h2⟩ := addLogs_eq entries [] (by simp)
  simp only [List.nil_append] at h1
  refine ⟨h1, ?_, ?_, h2, ?_, ?_⟩
  · rw [h1]
    have hn : entries.length - min entries.length 1000 = entries.length - 1000 := by omega
    rw [hn]
  · rw [h1, List.length_drop]
    omega
  · intro b level message data hb
    rw [(addLog_eq b level message data (le_of_eq hb)).1]
    have : b.length + 1 - 1000 = 1 := by omega
    rw [this]
    exact List.drop_append_of_le_length (by omega)
  · intro b level message data hb
    rw [(addLog_eq b level message data (le_of_lt hb)).1]
    have : b.length + 1 - 1000 = 0 := by omega
    rw [this]
    rfl

/-- Witness of C23: two calls on the empty buffer leave the two entries in call order. -/
theorem log_ring_buffer_witness :
    addLogs [] [⟨"INFO", "a", []⟩, ⟨"WARN", "b", []⟩]
      = [⟨"INFO", "a", []⟩, ⟨"WARN", "b", []⟩] :=
  (log_ring_buffer [⟨"INFO", "a", []⟩, ⟨"WARN", "b", []⟩]).1

/-! ## The status codes the assembler writes -/

theorem writeStatusCode_num (p : JObj) (q : ℚ)
    (h : JObj.lookup p "status" = some (.num q)) :
    writeStatusCode p = [.writeHeader (goInt q)] := by
  simp only [writeStatusCode, h]

theorem writeStatusCode_default (p : JObj)
    (h : ∀ q, JObj.lookup p "status" ≠ some (.num q)) :
    writeStatusCode p = [.writeHeader 200] := by
  unfold writeStatusCode
  cases hl : JObj.lookup p "status" with
  | none => rfl
  | some v =>
    cases v with
    | num q => exact absurd hl (h q)
    | _ => rfl

theorem frameErrStatus_num (msg : WSMessage) (q : ℚ)
    (h : JObj.lookup msg.Payload "status" = some (.num q)) :
    frameErrStatus msg = goInt q := by
  simp only [frameErrStatus, h]

theorem frameErrStatus_default (msg : WSMessage)
    (h : ∀ q, JObj.lookup msg.Payload "status" ≠ some (.num q)) :
    frameErrStatus msg = 502 := by
  unfold frameErrStatus
  cases hl : JObj.lookup msg.Payload "status" with
  | none => rfl
  | some v =>
    cases v with
    | num q => exact absurd hl (h q)
    | _ => rfl

theorem step_status_calls (flusher : Bool) (s : AState) (msg : WSMessage)
    (hu : s.headersSet = false)
    (hty : msg.MsgType ∈ ["http_response", "stream_start", "error"]) :
    (∀ q, JObj.lookup msg.Payload "status" = some (.num q) →
      statusCalls (step flusher s (.frame msg)).1.calls = statusCalls s.calls ++ [goInt q]) ∧
    ((∀ q, JObj.lookup msg.Payload "status" ≠ some (.num q)) →
      statusCalls (step flusher s (.frame msg)).1.calls
        = statusCalls s.calls ++ [if msg.MsgType = "error" then 502 else 200]) := by
  simp only [List.mem_cons, List.mem_singleton, List.not_mem_nil, or_false] at hty
  rcases hty with h | h | h
  · rw [step_http_response flusher s msg h]
    constructor
    · intro q hq
      simp only [onHttpResponse, hu, Bool.false_eq_true, if_false, statusCalls_append,
        statusCalls_setResponseHeaders, statusCalls_writeBody, List.append_nil,
        writeStatusCode_num _ q hq, statusCalls]
    · intro hno
      simp only [onHttpResponse, hu, Bool.false_eq_true, if_false, statusCalls_append,
        statusCalls_setResponseHeaders, statusCalls_writeBody, List.append_nil,
        writeStatusCode_default _ hno, statusCalls, h]
      rfl
  · rw [step_stream_start flusher s msg h, onStreamStart_calls flusher s msg hu]
    constructor
    · intro q hq
      simp only [statusCalls_append, statusCalls_setResponseHeaders, statusCalls_flushCalls,
        List.append_nil, writeStatusCode_num _ q hq, statusCalls]
    · intro hno
      simp only [statusCalls_append, statusCalls_setResponseHeaders, statusCalls_flushCalls,
        List.append_nil, writeStatusCode_default _ hno, statusCalls, h]
      rfl
  · rw [step_error flusher s msg h]
    constructor
    · intro q hq
      simp only [onError, hu, Bool.false_eq_true, if_false, statusCalls_append, statusCalls,
        frameErrStatus_num msg q hq]
    · intro hno
      simp only [onError, hu, Bool.false_eq_true, if_false, statusCalls_append, statusCalls,
        frameErrStatus_default msg hno, h, if_true]

/-- Counterexample to C24 as stated: for an `http_response` frame whose `payload.status` is 42
the assembler calls `WriteHeader(42)`, and for an `error` frame whose `payload.status` is 1000
it calls `http.Error` with 1000: codes outside 100..999.  For the status 1e19, which is no
value of `int`, the code passed is -9223372036854775808. -/
theorem status_out_of_range_counterexample :
    statusCalls (processWebSocketResponse true
      [.frame ⟨"r1", "http_response", [("status", .num 42)]⟩]).state.calls = [42] ∧
    statusCalls (processWebSocketResponse true
      [.frame ⟨"r1", "error", [("status", .num 1000)]⟩]).state.calls = [1000] ∧
    ¬ (100 ≤ (42 : Int) ∧ (42 : Int) ≤ 999) ∧ ¬ (100 ≤ (1000 : Int) ∧ (1000 : Int) ≤ 999) ∧
    statusCalls (processWebSocketResponse true
      [.frame ⟨"r1", "http_response", [("status", .num hugeStatus)]⟩]).state.calls
      = [-9223372036854775808] := by
  refine ⟨?_, ?_, by decide, by decide, ?_⟩
  · decide
  · decide
  · decide

/-- C24 (amended): for an `http_response`, `stream_start` or `error` frame consumed while
uncommitted whose `payload.status` is not a number or is a number in the range of `int`, the
assembler passes exactly one status code to `WriteHeader` or `http.Error`:
`int(payload.status)` when `payload.status` is a number, otherwise 200 (502 for an `error`
frame).  That code lies in 100..999 exactly when `payload.status` is not a number or
`100 ≤ payload.status < 1000`; no range check is made. -/
theorem status_code_passed (flusher : Bool) (s : AState) (msg : WSMessage)
    (hu : s.headersSet = false)
    (hty : msg.MsgType ∈ ["http_response", "stream_start", "error"])
    (hr : ∀ q, JObj.lookup msg.Payload "status" = some (.num q) → InIntRange q) :
    ∃ code : Int,
      statusCalls (step flusher s (.frame msg)).1.calls = statusCalls s.calls ++ [code] ∧
      (∀ q, JObj.lookup msg.Payload "status" = some (.num q) → code = truncInt q) ∧
      ((∀ q, JObj.lookup msg.Payload "status" ≠ some (.num q)) →
        code = if msg.MsgType = "error" then 502 else 200) ∧
      ((100 ≤ code ∧ code ≤ 999) ↔
        ((∀ q, JObj.lookup msg.Payload "status" ≠ some (.num q)) ∨
          ∃ q, JObj.lookup msg.Payload "status" = some (.num q) ∧ 100 ≤ q ∧ q < 1000)) := by
  obtain ⟨h1, h2⟩ := step_status_calls flusher s msg hu hty
  by_cases hq : ∃ q, JObj.lookup msg.Payload "status" = some (.num q)
  · obtain ⟨q, hq⟩ := hq
    have hcalls := h1 q hq
    rw [goInt_of_range q (hr q hq)] at hcalls
    refine ⟨truncInt q, hcalls, ?_, ?_, ?_⟩
    · intro q' hq'
      rw [hq] at hq'
      simp only [Option.some.injEq, JVal.num.injEq] at hq'
      rw [hq']
    · intro hno
      exact absurd hq (hno q)
    · rw [truncInt_status_range]
      constructor
      · intro hrange
        exact Or.inr ⟨q, hq, hrange⟩
      · rintro (hno | ⟨q', hq', hrange⟩)
        · exact absurd hq (hno q)
        · rw [hq] at hq'
          simp only [Option.some.injEq, JVal.num.injEq] at hq'
          rw [hq']
          exact hrange
  · have hno : ∀ q, JObj.lookup msg.Payload "status" ≠ some (.num q) :=
      fun q h => hq ⟨q, h⟩
    refine ⟨_, h2 hno, ?_, fun _ => rfl, ?_⟩
    · intro q hq'
      exact absurd hq' (hno q)
    · constructor
      · intro _
        exact Or.inl hno
      · intro _
        by_cases he : msg.MsgType = "error"
        · simp only [he, if_true]; decide
        · simp only [he, if_false]; decide

/-- Witness of C24: a `stream_start` with status 429 has the code 429 written, which is in
range. -/
theorem status_code_passed_witness :
    ∃ code : Int,
      statusCalls (step true AState.init
        (.frame ⟨"r1", "stream_start", [("status", .num 429)]⟩)).1.calls = [code] ∧
      100 ≤ code ∧ code ≤ 999 := by
  obtain ⟨code, h1, h2, -, -⟩ := status_code_passed true AState.init
    ⟨"r1", "stream_start", [("status", .num 429)]⟩ rfl (by simp)
    (by
      intro q hq
      have e : q = 429 := by
        simp only [JObj.lookup, if_true, Option.some.injEq, JVal.num.injEq] at hq
        exact hq.symm
      rw [e]
      exact ⟨by decide, by decide⟩)
  refine ⟨code, h1, ?_⟩
  rw [h2 429 rfl]
  decide

/-! ## cleanParameters and its reference definition -/

theorem isUnsupported_iff (k : String) : isUnsupported k = true ↔ k ∈ unsupportedFields := by
  simp [isUnsupported]

theorem lookup_none_of_lt (o : JObj) (k : String)
    (h : ∀ e ∈ o, keyLt k e.1 = true) : JObj.lookup o k = none := by
  apply lookup_none_of_not_mem
  intro hk
  obtain ⟨e, he, rfl⟩ := List.mem_map.1 hk
  have := h e he
  rw [keyLt_irrefl] at this
  exact absurd this (by decide)

theorem sorted_ext :
    ∀ (a b : JObj), (a.map Prod.fst).Pairwise (fun x y => keyLt x y = true) →
      (b.map Prod.fst).Pairwise (fun x y => keyLt x y = true) →
      (∀ k, JObj.lookup a k = JObj.lookup b k) → a = b := by
  intro a
  induction a with
  | nil =>
    intro b _ _ h
    cases b with
    | nil => rfl
    | cons e b =>
      obtain ⟨k, v⟩ := e
      have := h k
      simp [JObj.lookup] at this
  | cons e a ih =>
    intro b ha hb h
    obtain ⟨k, v⟩ := e
    cases b with
    | nil =>
      have := h k
      simp [JObj.lookup] at this
    | cons e' b =>
      obtain ⟨k', v'⟩ := e'
      simp only [List.map_cons, List.pairwise_cons] at ha hb
      have hak : ∀ e ∈ a, keyLt k e.1 = true := fun e he =>
        ha.1 e.1 (List.mem_map_of_mem _ he)
      have hbk : ∀ e ∈ b, keyLt k' e.1 = true := fun e he =>
        hb.1 e.1 (List.mem_map_of_mem _ he)
      by_cases hkk : k = k'
      · subst hkk
        have hv := h k
        simp only [JObj.lookup, if_true, Option.some.injEq] at hv
        subst hv
        have htail : a = b := by
          apply ih b ha.2 hb.2
          intro k2
          by_cases h2 : k = k2
          · subst h2
            rw [lookup_none_of_lt a k hak, lookup_none_of_lt b k hbk]
          · have := h k2
            simpa [JObj.lookup, h2] using this
        rw [htail]
      · exfalso
        have hor : keyLt k k' = true ∨ keyLt k' k = true := by
          cases hlt : keyLt k k' with
          | true => exact Or.inl rfl
          | false => exact Or.inr (keyLt_total hlt hkk)
        rcases hor with hlt | hlt
        · have := h k
          have hkk' : ¬ k' = k := fun e => hkk e.symm
          simp only [JObj.lookup, if_true, hkk', if_false] at this
          have hn : JObj.lookup b k = none := by
            apply lookup_none_of_lt
            intro e he
            exact keyLt_trans hlt (hbk e he)
          rw [hn] at this
          exact absurd this (by simp)
        · have := h k'
          simp only [JObj.lookup, if_true, hkk, if_false] at this
          have hn : JObj.lookup a k' = none := by
            apply lookup_none_of_lt
            intro e he
            exact keyLt_trans hlt (hak e he)
          rw [hn] at this
          exact absurd this (by simp)

theorem cleanedSchema_obj (c : JObj) :
    JVal.cleanedSchema (.obj c) = .obj (cleanSchemaFields c) := by
  rw [JVal.cleanedSchema]

theorem cleanedSchema_other (v : JVal) (h : ∀ c, v ≠ .obj c) : v.cleanedSchema = v := by
  cases v with
  | obj c => exact absurd rfl (h c)
  | _ => rw [JVal.cleanedSchema]

theorem cleanedProperties_obj (c : JObj) :
    JVal.cleanedProperties (.obj c) = .obj (cleanPropertiesFields c) := by
  rw [JVal.cleanedProperties]

theorem cleanedProperties_other (v : JVal) (h : ∀ c, v ≠ .obj c) :
    v.cleanedProperties = v := by
  cases v with
  | obj c => exact absurd rfl (h c)
  | _ => rw [JVal.cleanedProperties]

theorem cleanSchemaFields_cons (k : String) (v : JVal) (rest : List (String × JVal)) :
    cleanSchemaFields ((k, v) :: rest) =
      if isUnsupported k then cleanSchemaFields rest
      else if k = "properties" then (k, v.cleanedProperties) :: cleanSchemaFields rest
      else if k = "items" then (k, v.cleanedSchema) :: cleanSchemaFields rest
      else (k, v) :: cleanSchemaFields rest := by
  rw [cleanSchemaFields]

theorem cleanPropertiesFields_keys (props : List (String × JVal)) :
    (cleanPropertiesFields props).map Prod.fst = props.map Prod.fst := by
  induction props with
  | nil => rw [cleanPropertiesFields]
  | cons e rest ih =>
    obtain ⟨k, v⟩ := e
    rw [cleanPropertiesFields]
    simp only [List.map_cons, ih]

theorem cleanSchemaFields_keys_sublist (p : List (String × JVal)) :
    ((cleanSchemaFields p).map Prod.fst).Sublist (p.map Prod.fst) := by
  induction p with
  | nil => rw [cleanSchemaFields]
  | cons e rest ih =>
    obtain ⟨k, v⟩ := e
    rw [cleanSchemaFields_cons]
    by_cases h1 : isUnsupported k = true
    · simp only [h1, if_true, List.map_cons]
      exact List.Sublist.cons _ ih
    · by_cases h2 : k = "properties"
      · simp only [h1, h2, if_true, List.map_cons, Bool.false_eq_true, if_false]
        exact List.Sublist.cons₂ _ ih
      · by_cases h3 : k = "items"
        · simp only [h1, h2, h3, if_true, List.map_cons, Bool.false_eq_true, if_false]
          exact List.Sublist.cons₂ _ ih
        · simp only [h1, h2, h3, List.map_cons, Bool.false_eq_true, if_false]
          exact List.Sublist.cons₂ _ ih

theorem cleanSchemaFields_sorted (p : JObj)
    (h : (p.map Prod.fst).Pairwise (fun a b => keyLt a b = true)) :
    ((cleanSchemaFields p).map Prod.fst).Pairwise (fun a b => keyLt a b = true) :=
  List.Pairwise.sublist (cleanSchemaFields_keys_sublist p) h

theorem lookup_cleanSchemaFields (p : JObj) (k : String) :
    JObj.lookup (cleanSchemaFields p) k =
      if isUnsupported k then none
      else if k = "properties" then (JObj.lookup p k).map JVal.cleanedProperties
      else if k = "items" then (JObj.lookup p k).map JVal.cleanedSchema
      else JObj.lookup p k := by
  induction p with
  | nil =>
    rw [cleanSchemaFields]
    simp [JObj.lookup]
  | cons e rest ih =>
    obtain ⟨k', v⟩ := e
    rw [cleanSchemaFields_cons]
    by_cases hkk : k' = k
    · subst hkk
      by_cases h1 : isUnsupported k' = true
      · simp only [h1, if_true, ih]
      · by_cases h2 : k' = "properties"
        · subst h2
          have hu : isUnsupported "properties" = false := by decide
          simp [hu, JObj.lookup]
        · by_cases h3 : k' = "items"
          · subst h3
            have hu : isUnsupported "items" = false := by decide
            simp [hu, JObj.lookup]
          · simp [h1, h2, h3, JObj.lookup]
    · have hl : JObj.lookup ((k', v) :: rest) k = JObj.lookup rest k := by
        simp [JObj.lookup, hkk]
      rw [hl, ← ih]
      by_cases h1 : isUnsupported k' = true
      · simp only [h1, if_true]
      · by_cases h2 : k' = "properties"
        · subst h2
          have hu : isUnsupported "properties" = false := by decide
          simp [hu, JObj.lookup, hkk]
        · by_cases h3 : k' = "items"
          · subst h3
            have hu : isUnsupported "items" = false := by decide
            simp [hu, JObj.lookup, hkk]
          · simp [h1, h2, h3, JObj.lookup, hkk]

theorem cleanProperties_ref (clean : JObj → Option (Bool × JObj))
    (hclean : ∀ c r, clean c = some r → JVal.wf (.obj c) = true →
      r.2 = cleanSchemaFields c) :
    ∀ (props : List (String × JVal)) (m : Bool) (props' : List (String × JVal)),
      cleanProperties clean props = some (m, props') →
      (∀ e ∈ props, e.2.wf = true) → props' = cleanPropertiesFields props := by
  intro props
  induction props with
  | nil =>
    intro m props' h _
    simp only [cleanProperties, Option.some.injEq, Prod.mk.injEq] at h
    rw [cleanPropertiesFields, h.2]
  | cons e rest ih =>
    intro m props' h hwf
    obtain ⟨name, prop⟩ := e
    obtain ⟨m2, rest', hrest, hcase⟩ := cleanProperties_cons_inv clean name prop rest m props' h
    have hr := ih m2 rest' hrest (fun e he => hwf e (List.mem_cons_of_mem _ he))
    rw [cleanPropertiesFields]
    rcases hcase with ⟨c, m1, c', hp, hc, -, hprops⟩ | ⟨hno, -, hprops⟩
    · subst hp
      have hwc : JVal.wf (.obj c) = true := hwf (name, .obj c) (List.mem_cons_self _ _)
      have := hclean c (m1, c') hc hwc
      rw [hprops, cleanedSchema_obj, ← hr]
      simp only at this
      rw [this]
    · rw [hprops, cleanedSchema_other prop hno, hr]

theorem cleanBlockProperties_ref (clean : JObj → Option (Bool × JObj))
    (hclean : ∀ c r, clean c = some r → JVal.wf (.obj c) = true →
      r.2 = cleanSchemaFields c)
    (st st' : Bool × JObj) (h : cleanBlockProperties clean st = some st')
    (hwf : JVal.wf (.obj st.2) = true) :
    JObj.lookup st'.2 "properties"
      = (JObj.lookup st.2 "properties").map JVal.cleanedProperties := by
  rcases cleanBlockProperties_inv clean st st' h with ⟨e, hno⟩ | ⟨props, m, props', hl, hc, e⟩
  · rw [e]
    cases hl : JObj.lookup st.2 "properties" with
    | none => rfl
    | some v =>
      have hv : ∀ c, v ≠ .obj c := fun c hc => hno c (by rw [hl, hc])
      simp only [Option.map_some', cleanedProperties_other v hv]
  · have hwp : JVal.wf (.obj props) = true := wf_lookup _ _ _ hwf hl
    have hp := cleanProperties_ref clean hclean props m props' hc ((wf_obj_iff props).1 hwp).2
    rw [e, hl]
    simp only [Option.map_some', cleanedProperties_obj, lookup_store_self, hp]

theorem cleanBlockItems_ref (clean : JObj → Option (Bool × JObj))
    (hclean : ∀ c r, clean c = some r → JVal.wf (.obj c) = true →
      r.2 = cleanSchemaFields c)
    (st st' : Bool × JObj) (h : cleanBlockItems clean st = some st')
    (hwf : JVal.wf (.obj st.2) = true) :
    JObj.lookup st'.2 "items" = (JObj.lookup st.2 "items").map JVal.cleanedSchema := by
  rcases cleanBlockItems_inv clean st st' h with ⟨e, hno⟩ | ⟨it, mi, it', hl, hc, e⟩
  · rw [e]
    cases hl : JObj.lookup st.2 "items" with
    | none => rfl
    | some v =>
      have hv : ∀ c, v ≠ .obj c := fun c hc => hno c (by rw [hl, hc])
      simp only [Option.map_some', cleanedSchema_other v hv]
  · have hwi : JVal.wf (.obj it) = true := wf_lookup _ _ _ hwf hl
    have hp := hclean it (mi, it') hc hwi
    simp only at hp
    rw [e, hl]
    simp only [Option.map_some', cleanedSchema_obj, lookup_store_self, hp]

theorem cleanBlockItemsProperties_same (n : Nat) (st st' : Bool × JObj)
    (h : cleanBlockItemsProperties (cleanParametersFuel n) st = some st')
    (hwf : JVal.wf (.obj st.2) = true)
    (hcl : ∀ it, JObj.lookup st.2 "items" = some (.obj it) → SchemaClean it) :
    st'.2 = st.2 := by
  rcases cleanBlockItemsProperties_inv _ st st' h with
    ⟨e, -⟩ | ⟨it, props, m, props', hl, hlp, hc, e⟩
  · rw [e]
  · have hwi : JVal.wf (.obj it) = true := wf_lookup _ _ _ hwf hl
    have hwp : JVal.wf (.obj props) = true := wf_lookup _ _ _ hwi hlp
    have hfix := cleanProperties_fixed_of_clean (cleanParametersFuel n)
      (cleanParametersFuel_fixed n) props m props' hc hwp
      (fun name c hn => schemaClean_property (hcl it hl) hlp hn)
    rw [e, hfix.2]
    show JObj.store st.2 "items" (.obj (JObj.store it "properties" (.obj props))) = st.2
    rw [store_lookup_self it _ _ hwi hlp, store_lookup_self st.2 _ _ hwf hl]

theorem cleanParametersFuel_ref :
    ∀ (n : Nat) (p : JObj) (r : Bool × JObj), cleanParametersFuel n p = some r →
      JVal.wf (.obj p) = true → r.2 = cleanSchemaFields p := by
  intro n
  induction n with
  | zero =>
    intro p r h
    simp [cleanParametersFuel] at h
  | succ n ih =>
    intro p r h hwf
    obtain ⟨st1, st2, h1, h2, h3⟩ := cleanParametersFuel_succ_inv n p r h
    have hw0 := removeUnsupported_wf p hwf
    have hw1 := cleanBlockProperties_wf _ (cleanParametersFuel_wf n) _ _ h1 hw0
    have hw2 := cleanBlockItems_wf _ (cleanParametersFuel_wf n) _ _ h2 hw1
    have hsame := cleanBlockItemsProperties_same n st2 r h3 hw2
      (cleanBlockItems_child _ (cleanParametersFuel_clean n) st1 st2 h2)
    rw [hsame]
    apply sorted_ext _ _ ((wf_obj_iff _).1 hw2).1
      (cleanSchemaFields_sorted p ((wf_obj_iff _).1 hwf).1)
    intro k
    rw [lookup_cleanSchemaFields]
    have hP := cleanBlockProperties_ref _ ih _ _ h1 hw0
    have hI := cleanBlockItems_ref _ ih _ _ h2 hw1
    have l0 := removeUnsupported_lookup p
    by_cases hu : isUnsupported k = true
    · have hmem := (isUnsupported_iff k).1 hu
      rw [cleanBlockItems_lookup_ne _ _ _ h2 k (unsupported_ne_items hmem),
        cleanBlockProperties_lookup_ne _ _ _ h1 k (unsupported_ne_properties hmem), l0]
      simp only [hmem, hu, if_true]
    · have hmem : k ∉ unsupportedFields := fun hm => hu ((isUnsupported_iff k).2 hm)
      by_cases hp : k = "properties"
      · subst hp
        rw [cleanBlockItems_lookup_ne _ _ _ h2 _ (by decide), hP, l0]
        simp [hmem, hu]
      · by_cases hi : k = "items"
        · subst hi
          rw [hI, cleanBlockProperties_lookup_ne _ _ _ h1 _ (by decide), l0]
          simp [hmem, hu]
        · rw [cleanBlockItems_lookup_ne _ _ _ h2 k hi,
            cleanBlockProperties_lookup_ne _ _ _ h1 k hp, l0]
          simp [hmem, hu, hp, hi]

theorem cleanParameters_ref (p : JObj) (h : JVal.wf (.obj p) = true) :
    (cleanParameters p).2 = cleanSchemaFields p :=
  cleanParametersFuel_ref _ p _ (cleanParameters_eq p) h

theorem not_schemaClean_iff (p : JObj) :
    ¬ SchemaClean p ↔
      ∃ q field, SchemaReach p q ∧ field ∈ unsupportedFields ∧ JObj.lookup q field ≠ none := by
  constructor
  · intro h
    by_contra hne
    apply h
    intro q hq field hf
    by_contra hl
    exact hne ⟨q, field, hq, hf, hl⟩
  · rintro ⟨q, field, hq, hf, hl⟩ h
    exact hl (h q hq field hf)

theorem cleanParameters_flag (p : JObj) (h : JVal.wf (.obj p) = true) :
    (cleanParameters p).1 = true ↔ ¬ SchemaClean p := by
  constructor
  · intro hm hc
    rw [cleanParameters_fixed p h hc] at hm
    cases hm
  · intro hc
    cases hm : (cleanParameters p).1 with
    | true => rfl
    | false =>
      exfalso
      apply hc
      have := cleanParameters_clean p
      rw [cleanParameters_unmod p h hm] at this
      exact this

/-- C22: on a schema `p` (a decoded map), `cleanParameters` leaves exactly what the reference
definition gives: `p` with the keys `additionalProperties`, `default`, `optional`, `maximum`,
`oneOf` removed at `p` itself and at every object reached by steps `properties.<name>` and
`items`, every other key and value kept.  A `properties` map keeps all its names, also a name
that is one of the five words.  The flag returned is true exactly when the result differs from
`p`, which is exactly when some object so reached had one of the five keys. -/
theorem cleanParameters_equals_reference (p : JObj) (h : JVal.wf (.obj p) = true) :
    (cleanParameters p).2 = cleanParametersRef p ∧
    ((cleanParameters p).1 = true ↔ cleanParametersRef p ≠ p) ∧
    ((cleanParameters p).1 = true ↔
      ∃ q field, SchemaReach p q ∧ field ∈ unsupportedFields ∧ JObj.lookup q field ≠ none) ∧
    (∀ props, JObj.lookup p "properties" = some (.obj props) →
      ∃ props', JObj.lookup (cleanParameters p).2 "properties" = some (.obj props') ∧
        props'.map Prod.fst = props.map Prod.fst) := by
  have href : (cleanParameters p).2 = cleanParametersRef p := cleanParameters_ref p h
  refine ⟨href, ?_, ?_, ?_⟩
  · rw [← href]
    constructor
    · intro hm he
      have hc := cleanParameters_clean p
      rw [he] at hc
      exact ((cleanParameters_flag p h).1 hm) hc
    · intro hne
      cases hm : (cleanParameters p).1 with
      | true => rfl
      | false => exact absurd (cleanParameters_unmod p h hm) hne
  · rw [cleanParameters_flag p h, not_schemaClean_iff]
  · intro props hl
    refine ⟨cleanPropertiesFields props, ?_, cleanPropertiesFields_keys props⟩
    have hu : isUnsupported "properties" = false := by decide
    rw [href, cleanParametersRef, lookup_cleanSchemaFields, hl]
    simp [hu, cleanedProperties_obj]

/-- Witness of C22: a schema with the key `default`, an `items` schema with `maximum`, and a
property named `default` whose schema has `oneOf`: the three keys are removed and the property
named `default` stays. -/
theorem cleanParameters_equals_reference_witness :
    (cleanParameters namedDefaultParams).2 =
      [("items", .obj [("type", .str "string")]),
       ("properties", .obj [("default", .obj [("type", .str "string")])]),
       ("type", .str "object")] ∧
    cleanParametersRef namedDefaultParams ≠ namedDefaultParams :=
  ⟨(cleanParameters_equals_reference namedDefaultParams rfl).1.trans rfl,
   (cleanParameters_equals_reference namedDefaultParams rfl).2.1.1 rfl⟩

/-! ## Totality of the rewriter -/

theorem fixToolDefinitions_result {β : Type} (c : JSONCodec β) (b : β) :
    fixToolDefinitions c b = b ∨
      ∃ o o', c.unmarshal b = some o ∧ fixToolDefinitionsObj o = some o' ∧
        c.marshal o' = some (fixToolDefinitions c b) := by
  cases hu : c.unmarshal b with
  | none => exact Or.inl (by simp [fixToolDefinitions, hu])
  | some o =>
    cases hf : fixToolDefinitionsObj o with
    | none => exact Or.inl (by simp [fixToolDefinitions, hu, hf])
    | some o' =>
      cases hm : c.marshal o' with
      | none => exact Or.inl (by simp [fixToolDefinitions, hu, hf, hm])
      | some fixed =>
        exact Or.inr ⟨o, o', rfl, hf, by simp [fixToolDefinitions, hu, hf, hm]⟩

theorem fixSystemInstruction_result {β : Type} (c : JSONCodec β) (b : β) :
    fixSystemInstruction c b = b ∨
      ∃ o, c.unmarshal b = some o ∧ (fixSystemInstructionObj o).1 = true ∧
        c.marshal (fixSystemInstructionObj o).2 = some (fixSystemInstruction c b) := by
  cases hu : c.unmarshal b with
  | none => exact Or.inl (by simp [fixSystemInstruction, hu])
  | some o =>
    cases hf : (fixSystemInstructionObj o).1 with
    | false => exact Or.inl (by simp [fixSystemInstruction, hu, hf])
    | true =>
      cases hm : c.marshal (fixSystemInstructionObj o).2 with
      | none => exact Or.inl (by simp [fixSystemInstruction, hu, hf, hm])
      | some fixed =>
        exact Or.inr ⟨o, rfl, hf, by simp [fixSystemInstruction, hu, hf, hm]⟩

theorem fixToolDefinitionsObj_no_tools (o : JObj)
    (h : ∀ tools, JObj.lookup o "tools" ≠ some (.arr tools)) :
    fixToolDefinitionsObj o = none := by
  unfold fixToolDefinitionsObj
  cases hl : JObj.lookup o "tools" with
  | none => rfl
  | some v =>
    cases v with
    | arr tools => exact absurd hl (h tools)
    | _ => rfl

theorem fixTool_non_object (t : JVal) (h : ∀ tm, t ≠ .obj tm) : fixTool t = (false, t) := by
  cases t with
  | obj tm => exact absurd rfl (h tm)
  | _ => rfl

theorem fixFuncDecl_non_object (d : JVal) (h : ∀ dm, d ≠ .obj dm) :
    fixFuncDecl d = (false, d) := by
  cases d with
  | obj dm => exact absurd rfl (h dm)
  | _ => rfl

theorem cleanDeclParameters_non_object (funcMap : JObj)
    (h : ∀ p, JObj.lookup funcMap "parameters" ≠ some (.obj p)) :
    cleanDeclParameters funcMap = (false, funcMap) := by
  unfold cleanDeclParameters
  cases hl : JObj.lookup funcMap "parameters" with
  | none => rfl
  | some v =>
    cases v with
    | obj p => exact absurd hl (h p)
    | _ => rfl

theorem fixTool_no_arrays (tm : JObj)
    (h1 : ∀ fd, JObj.lookup tm "functionDeclarations" ≠ some (.arr fd))
    (h2 : ∀ fd, JObj.lookup tm "function_declarations" ≠ some (.arr fd)) :
    fixTool (.obj tm) = (false, .obj tm) := by
  rcases fixTool_obj_cases tm with ⟨fd, hl, -⟩ | ⟨-, fd, hl, -⟩ | ⟨-, -, e⟩
  · exact absurd hl (h1 fd)
  · exact absurd hl (h2 fd)
  · exact e

/-- C25: `cleanParameters` terminates: run with any recursion bound of at least the nesting
depth of the schema it returns a result, the same for every such bound (each recursive call is
on an object nested strictly deeper inside).  `fixToolDefinitions` and `fixSystemInstruction`
return a result for every input: the input bytes themselves, or the bytes `json.Marshal` gave
for the rewritten body; a failure of `json.Unmarshal` or `json.Marshal` gives the input bytes.
The odd shapes are skipped: a body whose `tools` is not an array is returned as it is, an
element of `tools` that is not an object or has no array of declarations is left alone, so is a
declaration that is not an object, and a declaration whose `parameters` is not an object. -/
theorem rewriter_total {β : Type} (c : JSONCodec β) (b : β) :
    (∀ (p : JObj) (fuel : Nat), JVal.depth (.obj p) ≤ fuel →
      cleanParametersFuel fuel p = some (cleanParameters p)) ∧
    (∀ (props child : JObj) (p : JObj) (name : String),
      JObj.lookup p "properties" = some (.obj props) →
      JObj.lookup props name = some (.obj child) →
      JVal.depth (.obj child) < JVal.depth (.obj p)) ∧
    (∀ (p items : JObj), JObj.lookup p "items" = some (.obj items) →
      JVal.depth (.obj items) < JVal.depth (.obj p)) ∧
    (fixToolDefinitions c b = b ∨
      ∃ o o', c.unmarshal b = some o ∧ fixToolDefinitionsObj o = some o' ∧
        c.marshal o' = some (fixToolDefinitions c b)) ∧
    (fixSystemInstruction c b = b ∨
      ∃ o, c.unmarshal b = some o ∧ (fixSystemInstructionObj o).1 = true ∧
        c.marshal (fixSystemInstructionObj o).2 = some (fixSystemInstruction c b)) ∧
    (c.unmarshal b = none → fixToolDefinitions c b = b ∧ fixSystemInstruction c b = b) ∧
    (∀ o, c.unmarshal b = some o → (∀ tools, JObj.lookup o "tools" ≠ some (.arr tools)) →
      fixToolDefinitions c b = b) ∧
    (∀ t, (∀ tm, t ≠ .obj tm) → fixTool t = (false, t)) ∧
    (∀ tm, (∀ fd, JObj.lookup tm "functionDeclarations" ≠ some (.arr fd)) →
      (∀ fd, JObj.lookup tm "function_declarations" ≠ some (.arr fd)) →
      fixTool (.obj tm) = (false, .obj tm)) ∧
    (∀ d, (∀ dm, d ≠ .obj dm) → fixFuncDecl d = (false, d)) ∧
    (∀ funcMap, (∀ p, JObj.lookup funcMap "parameters" ≠ some (.obj p)) →
      cleanDeclParameters funcMap = (false, funcMap)) := by
  refine ⟨?_, ?_, ?_, fixToolDefinitions_result c b, fixSystemInstruction_result c b, ?_, ?_,
    fixTool_non_object, fixTool_no_arrays, fixFuncDecl_non_object,
    cleanDeclParameters_non_object⟩
  · intro p fuel hf
    rw [depth_obj] at hf
    exact cleanParametersFuel_of_depth_lt fuel p (by omega)
  · intro props child p name h1 h2
    have d1 := depth_lookup p _ _ h1
    have d2 := depth_lookup props _ _ h2
    rw [depth_obj] at d1
    rw [depth_obj p]
    omega
  · intro p items h1
    have d1 := depth_lookup p _ _ h1
    rw [depth_obj p]
    omega
  · intro hu
    exact ⟨by simp [fixToolDefinitions, hu], by simp [fixSystemInstruction, hu]⟩
  · intro o hu hno
    exact fixToolDefinitions_of_none c b o hu (fixToolDefinitionsObj_no_tools o hno)

/-- Witness of C25: the schema `namedDefaultParams` is cleaned with the recursion bound 4, its
nesting depth;
and a body whose `tools` is a string comes back as it is. -/
theorem rewriter_total_witness :
    cleanParametersFuel 4 namedDefaultParams = some (cleanParameters namedDefaultParams) ∧
    fixToolDefinitions JSONCodec.canonical [("tools", .str "none")]
      = [("tools", .str "none")] :=
  ⟨(rewriter_total JSONCodec.canonical ([] : JObj)).1 namedDefaultParams 4 (by decide),
   (rewriter_total JSONCodec.canonical [("tools", .str "none")]).2.2.2.2.2.2.1
      [("tools", .str "none")] rfl
      (by intro tools h; simp [JObj.lookup] at h)⟩

end Proxy
